import Mathlib

/-!
Ray caster (assignment1/src/app/main.cpp): embedding and verified properties

The source is embedded twice.

The first embedding takes an ordered field `K` for the C++ `double`, exact
arithmetic in place of rounding. The libm calls `sqrt`, `pow`, `tan` and the
constant `M_PI` are parameters of the definitions that use them, so every
definition is computable (it runs at `K = ℚ` with rational stand-ins).
Statements that only depend on the control flow are proved for every ordered
field and every `sqrt`; statements about the encoding and the driver take
`K = ℝ` with `Real.sqrt`, `Real.rpow`, `Real.tan` and `Real.pi`. Literals:
`1e-4` is `1 / 10000`, `1e20` is `10 ^ 20`, `2.2` is `22 / 10`.

The second embedding (`Dbl`, below) evaluates `Vec`, `Sphere::intersect` and
the camera directions in IEEE 754 binary64 arithmetic, every operation
rounded to the nearest `double`. It carries the statements whose truth
depends on rounding: the geometry of `Sphere::intersect` and the length of
normalised vectors. There every literal is the nearest `double`.
-/

/-! ## Vec (main.cpp 15-39) -/

/-- Class `Vec`: three `double` components; position, direction or colour. -/
structure Vec (K : Type) where
  x : K
  y : K
  z : K
deriving DecidableEq, Repr

namespace Vec

variable {K : Type} [LinearOrderedField K]

/-- `Vec(double x=0, double y=0, double z=0)` with all defaults. -/
def zero : Vec K := ⟨0, 0, 0⟩

/-- `operator+` -/
def add (a rhs : Vec K) : Vec K := ⟨a.x + rhs.x, a.y + rhs.y, a.z + rhs.z⟩

/-- `operator-` -/
def sub (a rhs : Vec K) : Vec K := ⟨a.x - rhs.x, a.y - rhs.y, a.z - rhs.z⟩

/-- `operator*(double)` -/
def mul (a : Vec K) (rhs : K) : Vec K := ⟨a.x * rhs, a.y * rhs, a.z * rhs⟩

/-- `dot` -/
def dot (a rhs : Vec K) : K := a.x * rhs.x + a.y * rhs.y + a.z * rhs.z

/-- `norm`: `*this = *this * (1/sqrt(x*x+y*y+z*z))`; the value assigned to the
receiver, which is also the value returned. -/
def norm (sqrt : K → K) (a : Vec K) : Vec K :=
  a.mul (1 / sqrt (a.x * a.x + a.y * a.y + a.z * a.z))

/-- `operator%`: cross product. -/
def cross (a rhs : Vec K) : Vec K :=
  ⟨a.y * rhs.z - a.z * rhs.y, a.z * rhs.x - a.x * rhs.z, a.x * rhs.y - a.y * rhs.x⟩

end Vec

/-! ## Ray and Sphere (main.cpp 41-64) -/

/-- Struct `Ray`: origin `o` and direction `d`. -/
structure Ray (K : Type) where
  o : Vec K
  d : Vec K
deriving DecidableEq, Repr

/-- Class `Sphere`: radius, position, colour. -/
structure Sphere (K : Type) where
  rad : K
  p : Vec K
  c : Vec K
deriving DecidableEq, Repr

/-- The local `double eps = 1e-4` of `Sphere::intersect`. -/
def eps {K : Type} [LinearOrderedField K] : K := 1 / 10000

/-- `Sphere::intersect`: returns distance, 0 if no hit. -/
def Sphere.intersect {K : Type} [LinearOrderedField K] (sqrt : K → K)
    (s : Sphere K) (r : Ray K) : K :=
  let op := s.p.sub r.o
  let b := op.dot r.d
  let det := b * b - op.dot op + s.rad * s.rad
  if det < 0 then 0
  else
    let det := sqrt det
    if b - det > eps then b - det
    else if b + det > eps then b + det
    else 0

/-! ## clamp and toInt (main.cpp 66-72) -/

/-- `clamp`: `x<0 ? 0 : x>1 ? 1 : x`. -/
def clamp {K : Type} [LinearOrderedField K] (x : K) : K :=
  if x < 0 then 0 else if x > 1 then 1 else x

/-- C `lround`: nearest integer, halfway cases away from zero. -/
def lround {K : Type} [LinearOrderedField K] [FloorRing K] (x : K) : Int :=
  if 0 ≤ x then Int.floor (x + 1 / 2) else Int.ceil (x - 1 / 2)

/-- `toInt`: `lround(pow(clamp(x),1/2.2)*255)`. -/
def toInt {K : Type} [LinearOrderedField K] [FloorRing K] (pow : K → K → K) (x : K) : Int :=
  lround (pow (clamp x) (1 / (22 / 10)) * 255)

/-! ## Scene intersection and radiance (main.cpp 74-101) -/

/-- The loop of the scene-level `intersect` from index `i` on, over the
spheres not yet visited; state is the pair of out-parameters `(t, id)`.
The body is `if((d=spheres[i].intersect(r)) && (d<t)) { t=d; id=i; }`. -/
def intersectLoop {K : Type} [LinearOrderedField K] (sqrt : K → K) (r : Ray K) :
    List (Sphere K) → Nat → K → Int → K × Int
  | [], _, t, id => (t, id)
  | s :: rest, i, t, id =>
    let d := s.intersect sqrt r
    if d ≠ 0 ∧ d < t then intersectLoop sqrt r rest (i + 1) d (i : Int)
    else intersectLoop sqrt r rest (i + 1) t id

/-- Scene-level `intersect(r, t, id, spheres)`: the returned triple is the
`bool` result and the final values of the out-parameters `t` and `id`; the
argument `id` is the value the caller's variable holds on entry. The index
`i` is a natural number (scenes have fewer than 2^31 spheres). -/
def intersect {K : Type} [LinearOrderedField K] (sqrt : K → K) (r : Ray K) (id : Int)
    (spheres : List (Sphere K)) : Bool × K × Int :=
  let inf : K := 10 ^ 20
  let res := intersectLoop sqrt r spheres 0 (10 ^ 20) id
  (decide (res.1 < inf), res.1, res.2)

/-- Unchecked `spheres[id]` with an `int` index: `none` stands for an access
outside the vector. -/
def index {α : Type} (xs : List α) (id : Int) : Option α :=
  if id < 0 then none else xs[id.toNat]?

/-- `radiance`: black on a miss, else the colour of `spheres[id]`; `none` if
the access `spheres[id]` is out of bounds. -/
def radiance {K : Type} [LinearOrderedField K] (sqrt : K → K) (r : Ray K)
    (spheres : List (Sphere K)) : Option (Vec K) :=
  let res := intersect sqrt r 0 spheres
  if !res.1 then some Vec.zero
  else (index spheres res.2.2).map fun obj => obj.c

/-! ## The driver (main.cpp 117-149)

`w` and `h` are parameters (the source fixes them to 256 and 192). The
buffer `c` is a list of `w*h` vectors. The loops are run with fuel: `none`
means that the fuel ran out, that an `int` computation overflowed, or that
an access left the bounds of a vector. The column counter is an
`unsigned short`, so `x++` is taken modulo 65536. -/

/-- Camera direction for pixel `(x, y)` before `norm()` (main.cpp 130-138). -/
def pixelDir {K : Type} [LinearOrderedField K] (tan : K → K) (pi : K) (w h x y : Nat) : Vec K :=
  let hw : K := (h : K) / (w : K)
  let fovx : K := pi / 10
  let x1to1 : K := (2 * (x : K) - (w : K)) / (w : K)
  let y1to1 : K := (2 * (y : K) - (h : K)) / (h : K)
  ⟨x1to1 * tan fovx, y1to1 * tan (hw * fovx), -1⟩

/-- The value of `(h - y - 1) * w + x` (main.cpp 128) in exact integers, for
a row `y < h`. -/
def pixelIndex (w h x y : Nat) : Nat := (h - y - 1) * w + x

/-- The computation `int i = (h - y - 1) * w + x` of main.cpp 128 in 32-bit
`int` arithmetic, for a row `y < h`: `none` when the value does not fit
(signed overflow has no defined result). -/
def pixelIndexInt (w h x y : Nat) : Option Nat :=
  if pixelIndex w h x y < 2 ^ 31 then some (pixelIndex w h x y) else none

/-- Body of the column loop (main.cpp 128-141) at column `x` of row `y`:
`c[i] = c[i] + Vec(clamp(r.x), clamp(r.y), clamp(r.z))`. -/
def pixelStep {K : Type} [LinearOrderedField K] (sqrt tan : K → K) (pi : K) (cam : Ray K)
    (spheres : List (Sphere K)) (w h y x : Nat) (c : List (Vec K)) : Option (List (Vec K)) :=
  match pixelIndexInt w h x y with
  | none => none
  | some i =>
    let d : Vec K := pixelDir tan pi w h x y
    match radiance sqrt ⟨cam.o, d.norm sqrt⟩ spheres with
    | none => none
    | some r =>
      match c.get? i with
      | none => none
      | some ci => some (c.set i (ci.add ⟨clamp r.x, clamp r.y, clamp r.z⟩))

/-- Column loop `for (unsigned short x=0; x<w; x++)` from the state `x`. -/
def colLoop {K : Type} [LinearOrderedField K] (sqrt tan : K → K) (pi : K) (cam : Ray K)
    (spheres : List (Sphere K)) (w h y : Nat) : Nat → Nat → List (Vec K) → Option (List (Vec K))
  | 0, _, _ => none
  | fuel + 1, x, c =>
    if x < w then
      match pixelStep sqrt tan pi cam spheres w h y x c with
      | none => none
      | some c1 => colLoop sqrt tan pi cam spheres w h y fuel ((x + 1) % 65536) c1
    else some c

/-- Row loop `for (int y=0; y<h; y++)` from the state `y`. -/
def rowLoop {K : Type} [LinearOrderedField K] (sqrt tan : K → K) (pi : K) (cam : Ray K)
    (spheres : List (Sphere K)) (w h : Nat) : Nat → Nat → List (Vec K) → Option (List (Vec K))
  | 0, _, _ => none
  | fuel + 1, y, c =>
    if y < h then
      match colLoop sqrt tan pi cam spheres w h y fuel 0 c with
      | none => none
      | some c1 => rowLoop sqrt tan pi cam spheres w h fuel (y + 1) c1
    else some c

/-- The rendering part of `main`: the buffer of `w*h` zero vectors, the pixel
loops, then the triple `toInt(c[i].x), toInt(c[i].y), toInt(c[i].z)` for
every `i < w*h` in order. The `int` product `w*h` must not overflow. -/
def render {K : Type} [LinearOrderedField K] [FloorRing K] (sqrt : K → K) (pow : K → K → K)
    (tan : K → K) (pi : K) (fuel : Nat) (w h : Nat) (cam : Ray K)
    (spheres : List (Sphere K)) : Option (List (Int × Int × Int)) :=
  if 2 ^ 31 ≤ w * h then none
  else
    match rowLoop sqrt tan pi cam spheres w h fuel 0 (List.replicate (w * h) Vec.zero) with
    | none => none
    | some c => some (c.map fun v => (toInt pow v.x, toInt pow v.y, toInt pow v.z))

/-- The buffer indices `i` written by the column loop of row `y` from the
state `x`, in the order of the writes `c[i] = ...` (main.cpp 125-141): the
loop of `colLoop` with the body reduced to its index computation. -/
def colWrites (w h y : Nat) : Nat → Nat → Option (List Nat)
  | 0, _ => none
  | fuel + 1, x =>
    if x < w then
      match pixelIndexInt w h x y with
      | none => none
      | some i =>
        match colWrites w h y fuel ((x + 1) % 65536) with
        | none => none
        | some l => some (i :: l)
    else some []

/-- The buffer indices written by the row loop from the state `y`, in the
order of the writes (main.cpp 124-141). -/
def rowWrites (w h : Nat) : Nat → Nat → Option (List Nat)
  | 0, _ => none
  | fuel + 1, y =>
    if y < h then
      match colWrites w h y fuel 0 with
      | none => none
      | some l =>
        match rowWrites w h fuel (y + 1) with
        | none => none
        | some l1 => some (l ++ l1)
    else some []

/-- The camera of `main`: `Ray cam(Vec(50,40,305), Vec(0,0.0,-1).norm())`. -/
def cam {K : Type} [LinearOrderedField K] (sqrt : K → K) : Ray K :=
  ⟨⟨50, 40, 305⟩, Vec.norm sqrt ⟨0, 0, -1⟩⟩
/-! ## Specification-side notions -/

/-- The point `o + t*d` of the ray lies on the surface of the sphere:
`|o + t*d - p|^2 = rad^2`. -/
def Sphere.hitAt {K : Type} [LinearOrderedField K] (s : Sphere K) (r : Ray K) (t : K) : Prop :=
  ((r.o.add (r.d.mul t)).sub s.p).dot ((r.o.add (r.d.mul t)).sub s.p) = s.rad * s.rad

instance {K : Type} [LinearOrderedField K] (s : Sphere K) (r : Ray K) (t : K) :
    Decidable (s.hitAt r t) := by
  unfold Sphere.hitAt; infer_instance

/-- The quantity `b = op.dot(r.d)` of `Sphere::intersect`. -/
def Sphere.bOf {K : Type} [LinearOrderedField K] (s : Sphere K) (r : Ray K) : K :=
  (s.p.sub r.o).dot r.d

/-- The quantity `det = b*b - op.dot(op) + rad*rad` of `Sphere::intersect`
(before the square root is taken). -/
def Sphere.detOf {K : Type} [LinearOrderedField K] (s : Sphere K) (r : Ray K) : K :=
  s.bOf r * s.bOf r - (s.p.sub r.o).dot (s.p.sub r.o) + s.rad * s.rad

/-- The ray traced for pixel `(x, y)`: `Ray(cam.o, d.norm())` (main.cpp 140). -/
def pixelRay {K : Type} [LinearOrderedField K] (sqrt tan : K → K) (pi : K) (cam : Ray K)
    (w h x y : Nat) : Ray K :=
  ⟨cam.o, (pixelDir tan pi w h x y).norm sqrt⟩

/-- The vector added to a buffer slot:
`Vec(clamp(r.x), clamp(r.y), clamp(r.z))` (main.cpp 141). -/
def clampVec {K : Type} [LinearOrderedField K] (r : Vec K) : Vec K :=
  ⟨clamp r.x, clamp r.y, clamp r.z⟩

/-- The output triple of a buffer slot:
`toInt(c[i].x), toInt(c[i].y), toInt(c[i].z)` (main.cpp 148). -/
def encode {K : Type} [LinearOrderedField K] [FloorRing K] (pow : K → K → K) (v : Vec K) :
    Int × Int × Int :=
  (toInt pow v.x, toInt pow v.y, toInt pow v.z)

/-- The floor of the end-to-end scenario: a sphere of radius `1e5` centred
at `(50, -1e5, 81.6)`, of colour `col`. -/
def floorSphere {K : Type} [LinearOrderedField K] (col : Vec K) : Sphere K :=
  ⟨10 ^ 5, ⟨50, -10 ^ 5, 816 / 10⟩, col⟩

/-- All three channels of a buffer slot lie in `[0, 1]`. -/
def inUnit {K : Type} [LinearOrderedField K] (v : Vec K) : Prop :=
  (0 ≤ v.x ∧ v.x ≤ 1) ∧ (0 ≤ v.y ∧ v.y ≤ 1) ∧ (0 ≤ v.z ∧ v.z ≤ 1)

/-- State of the buffer when the loops stand at row `y`, column `x`: the
slot of every pixel already visited holds the clamped radiance of its ray,
every other slot is still zero. -/
def bufferInv {K : Type} [LinearOrderedField K] (sqrt tan : K → K) (pi : K) (cam : Ray K)
    (spheres : List (Sphere K)) (w h y x : Nat) (c : List (Vec K)) : Prop :=
  c.length = w * h ∧
  ∀ x1 y1, x1 < w → y1 < h →
    ∃ r, radiance sqrt (pixelRay sqrt tan pi cam w h x1 y1) spheres = some r ∧
      c.get? (pixelIndex w h x1 y1)
        = some (if y1 < y ∨ (y1 = y ∧ x1 < x) then clampVec r else Vec.zero)

/-- The scene of `main` (main.cpp 105-115): left, right, back, bottom, top,
the two small spheres and the light. -/
def scene {K : Type} [LinearOrderedField K] : List (Sphere K) :=
  [⟨10 ^ 5, ⟨10 ^ 5 + 1, 408 / 10, 816 / 10⟩, ⟨255, 0, 0⟩⟩,
   ⟨10 ^ 5, ⟨-10 ^ 5 + 99, 408 / 10, 816 / 10⟩, ⟨0, 0, 255⟩⟩,
   ⟨10 ^ 5, ⟨50, 408 / 10, 10 ^ 5⟩, ⟨75 / 100, 75 / 100, 75 / 100⟩⟩,
   ⟨10 ^ 5, ⟨50, 10 ^ 5, 816 / 10⟩, ⟨75 / 100, 75 / 100, 75 / 100⟩⟩,
   ⟨10 ^ 5, ⟨50, -10 ^ 5 + 826 / 10, 816 / 10⟩, ⟨75 / 100, 75 / 100, 75 / 100⟩⟩,
   ⟨165 / 10, ⟨27, 165 / 10, 47⟩, ⟨0, 255, 0⟩⟩,
   ⟨165 / 10, ⟨73, 165 / 10, 78⟩, ⟨255, 255, 0⟩⟩,
   ⟨600, ⟨50, 6816 / 10 - 27 / 100, 816 / 10⟩, ⟨120, 120, 120⟩⟩]
/-! ## IEEE 754 binary64 arithmetic

The second embedding evaluates the same source in `double` arithmetic:
every operation is the exact rational result rounded to the nearest
`double`, ties to even, with gradual underflow, overflow to infinity and
NaN. It assumes strict binary64 evaluation (no fused multiply-add, no
extended precision). The two zeros are not told apart: the modelled code
never divides by a negative zero, and comparisons do not see the sign. -/

/-- A `double`: a finite value (given by its exact rational value), an
infinity, or NaN. -/
inductive Dbl where
  | fin (q : ℚ)
  | inf (negative : Bool)
  | nan
deriving DecidableEq, Repr

/-- Number of binary digits of `n`; the first argument bounds the recursion. -/
def bitLen : Nat → Nat → Nat
  | 0, _ => 0
  | fuel + 1, n => if n = 0 then 0 else bitLen fuel (n / 2) + 1

/-- The integer `floor (log2 a)` for a rational `a > 0`. -/
def ilog2 (a : ℚ) : Int :=
  let k : Int := (bitLen a.num.natAbs a.num.natAbs : Int) - (bitLen a.den a.den : Int)
  if (2 : ℚ) ^ k ≤ a then k else k - 1

/-- Round a non-negative rational to an integer: to nearest, ties to even. -/
def roundEven (s : ℚ) : Int :=
  let f := Int.floor s
  let r := s - f
  if r < 1 / 2 then f else if 1 / 2 < r then f + 1 else if f % 2 = 0 then f else f + 1

/-- Round a rational to the nearest `double`, ties to even: 53 significant
bits, least exponent `-1074` (gradual underflow), infinity from `2^1024` on. -/
def rnd (q : ℚ) : Dbl :=
  if q = 0 then Dbl.fin 0
  else
    let a := |q|
    let e : Int := max (ilog2 a - 52) (-1074)
    let v : ℚ := (roundEven (a / (2 : ℚ) ^ e) : ℚ) * (2 : ℚ) ^ e
    if (2 : ℚ) ^ (1024 : Int) ≤ v then Dbl.inf (decide (q < 0))
    else Dbl.fin (if q < 0 then -v else v)

/-- Greedy binary search for an integer square root, from bit `b - 1` down. -/
def isqrtAux : Nat → Nat → Nat → Nat
  | 0, _, r => r
  | b + 1, n, r =>
    if (r + 2 ^ b) * (r + 2 ^ b) ≤ n then isqrtAux b n (r + 2 ^ b) else isqrtAux b n r

/-- The integer `floor (sqrt n)`. -/
def isqrt (n : Nat) : Nat := isqrtAux (bitLen n n) n 0

/-- The `double` nearest to `sqrt a` for a rational `a > 0` (IEEE 754
requires `sqrt` to be correctly rounded). -/
def rndSqrt (a : ℚ) : Dbl :=
  let e : Int := ilog2 a / 2 - 52
  let x : ℚ := a / (2 : ℚ) ^ (2 * e)
  let f : Nat := isqrt (Int.floor x).toNat
  let mid : ℚ := ((f : ℚ) + 1 / 2) * ((f : ℚ) + 1 / 2)
  let m : Nat := if x < mid then f else if mid < x then f + 1 else if f % 2 = 0 then f else f + 1
  Dbl.fin ((m : ℚ) * (2 : ℚ) ^ e)

namespace Dbl

/-- Unary minus. -/
def neg : Dbl → Dbl
  | fin a => fin (-a)
  | inf s => inf (!s)
  | nan => nan

/-- The `double` sum. -/
def add : Dbl → Dbl → Dbl
  | fin a, fin b => rnd (a + b)
  | fin _, inf s => inf s
  | inf s, fin _ => inf s
  | inf s, inf t => if s = t then inf s else nan
  | _, _ => nan

/-- The `double` difference. -/
def sub (a b : Dbl) : Dbl := add a (neg b)

/-- The `double` product. -/
def mul : Dbl → Dbl → Dbl
  | fin a, fin b => rnd (a * b)
  | fin a, inf s => if a = 0 then nan else inf (xor (decide (a < 0)) s)
  | inf s, fin b => if b = 0 then nan else inf (xor s (decide (b < 0)))
  | inf s, inf t => inf (xor s t)
  | _, _ => nan

/-- The `double` quotient (a zero divisor counts as `+0`). -/
def div : Dbl → Dbl → Dbl
  | fin a, fin b =>
    if b = 0 then (if a = 0 then nan else inf (decide (a < 0))) else rnd (a / b)
  | fin _, inf _ => fin 0
  | inf s, fin b => inf (xor s (decide (b < 0)))
  | _, _ => nan

/-- The `double` square root. -/
def sqrt : Dbl → Dbl
  | fin a => if a < 0 then nan else if a = 0 then fin 0 else rndSqrt a
  | inf s => if s then nan else inf false
  | nan => nan

/-- The comparison `<` of two `double`s: false as soon as one is NaN. -/
def lt : Dbl → Dbl → Bool
  | fin a, fin b => decide (a < b)
  | fin _, inf s => !s
  | inf s, fin _ => s
  | inf s, inf t => s && !t
  | _, _ => false

end Dbl

/-- The rational `q` is the value of a `double`. -/
def isDouble (q : ℚ) : Prop := rnd q = Dbl.fin q

instance (q : ℚ) : Decidable (isDouble q) := by
  unfold isDouble; infer_instance

/-- The value of the `double` literal `1e-4`. -/
def eps64 : ℚ := 7378697629483821 / 73786976294838206464

/-- The local `double eps = 1e-4` of `Sphere::intersect`, as a `double`. -/
def epsD : Dbl := rnd (1 / 10000)

/-- A vector of `double`s from the rational values of its components. -/
def Vec.dbl (v : Vec ℚ) : Vec Dbl := ⟨Dbl.fin v.x, Dbl.fin v.y, Dbl.fin v.z⟩

/-- A ray of `double`s from rational values. -/
def Ray.dbl (r : Ray ℚ) : Ray Dbl := ⟨r.o.dbl, r.d.dbl⟩

/-- A sphere of `double`s from rational values. -/
def Sphere.dbl (s : Sphere ℚ) : Sphere Dbl := ⟨Dbl.fin s.rad, s.p.dbl, s.c.dbl⟩

/-- The same vector over the reals. -/
def Vec.real (v : Vec ℚ) : Vec ℝ := ⟨(v.x : ℝ), (v.y : ℝ), (v.z : ℝ)⟩

/-- The same ray over the reals. -/
def Ray.real (r : Ray ℚ) : Ray ℝ := ⟨r.o.real, r.d.real⟩

/-- The same sphere over the reals. -/
def Sphere.real (s : Sphere ℚ) : Sphere ℝ := ⟨(s.rad : ℝ), s.p.real, s.c.real⟩

/-- `Vec::operator-` in `double` arithmetic. -/
def Vec.subD (a rhs : Vec Dbl) : Vec Dbl :=
  ⟨Dbl.sub a.x rhs.x, Dbl.sub a.y rhs.y, Dbl.sub a.z rhs.z⟩

/-- `Vec::operator*(double)` in `double` arithmetic. -/
def Vec.mulD (a : Vec Dbl) (rhs : Dbl) : Vec Dbl :=
  ⟨Dbl.mul a.x rhs, Dbl.mul a.y rhs, Dbl.mul a.z rhs⟩

/-- `Vec::dot` in `double` arithmetic: `x*rhs.x+y*rhs.y+z*rhs.z`, summed
from the left. -/
def Vec.dotD (a rhs : Vec Dbl) : Dbl :=
  Dbl.add (Dbl.add (Dbl.mul a.x rhs.x) (Dbl.mul a.y rhs.y)) (Dbl.mul a.z rhs.z)

/-- The sum `x*x+y*y+z*z` of `Vec::norm` in `double` arithmetic, summed from
the left. -/
def Vec.sumSqD (a : Vec Dbl) : Dbl :=
  Dbl.add (Dbl.add (Dbl.mul a.x a.x) (Dbl.mul a.y a.y)) (Dbl.mul a.z a.z)

/-- `Vec::norm` in `double` arithmetic:
`*this * (1/sqrt(x*x+y*y+z*z))`. -/
def Vec.normD (a : Vec Dbl) : Vec Dbl :=
  a.mulD (Dbl.div (Dbl.fin 1) (Dbl.sqrt a.sumSqD))

/-- `Sphere::intersect` in `double` arithmetic. -/
def Sphere.intersectD (s : Sphere Dbl) (r : Ray Dbl) : Dbl :=
  let op := s.p.subD r.o
  let b := op.dotD r.d
  let det := Dbl.add (Dbl.sub (Dbl.mul b b) (op.dotD op)) (Dbl.mul s.rad s.rad)
  if Dbl.lt det (Dbl.fin 0) then Dbl.fin 0
  else
    let det := Dbl.sqrt det
    if Dbl.lt epsD (Dbl.sub b det) then Dbl.sub b det
    else if Dbl.lt epsD (Dbl.add b det) then Dbl.add b det
    else Dbl.fin 0

/-- The camera direction of pixel `(x, y)` before `norm()` (main.cpp
130-138) in `double` arithmetic; `tan` is the libm function and `pi` the
constant `M_PI`. The conversions of `h`, `w`, `x`, `y` to `double` are exact. -/
def pixelDirD (tan : Dbl → Dbl) (pi : Dbl) (w h x y : Nat) : Vec Dbl :=
  let hw := Dbl.div (Dbl.fin h) (Dbl.fin w)
  let fovx := Dbl.div pi (Dbl.fin 10)
  let x1to1 := Dbl.div (Dbl.sub (Dbl.mul (Dbl.fin 2) (Dbl.fin x)) (Dbl.fin w)) (Dbl.fin w)
  let y1to1 := Dbl.div (Dbl.sub (Dbl.mul (Dbl.fin 2) (Dbl.fin y)) (Dbl.fin h)) (Dbl.fin h)
  ⟨Dbl.mul x1to1 (tan fovx), Dbl.mul y1to1 (tan (Dbl.mul hw fovx)), Dbl.fin (-1)⟩

/-- The result of `Sphere::intersect` as a function of the threshold `e`,
of `b`, of `det` and of the square root `q` of `det`. -/
def Sphere.select {K : Type} [LinearOrderedField K] (e b det q : K) : K :=
  if det < 0 then 0
  else if b - q > e then b - q
  else if b + q > e then b + q
  else 0

/-- The rational value of a finite `double` (0 for an infinity or NaN). -/
def Dbl.val : Dbl → ℚ
  | Dbl.fin q => q
  | _ => 0

/-- The `double` that `sqrt(det)` evaluates to in `Sphere::intersect`, for
the exact value of `det`. -/
def Sphere.sqrtDet (s : Sphere ℚ) (r : Ray ℚ) : ℚ := (Dbl.sqrt (Dbl.fin (s.detOf r))).val

/-- The `double` evaluation of `Sphere::intersect` on the sphere `s` and the
ray `r` incurs no rounding: `op`, `b` and `det` come out as their exact
values and, when `det >= 0`, so do the square root `q` and the two candidate
distances `b - q` and `b + q`. -/
def Sphere.exactD (s : Sphere ℚ) (r : Ray ℚ) : Prop :=
  s.p.dbl.subD r.o.dbl = (s.p.sub r.o).dbl ∧
  (s.p.sub r.o).dbl.dotD r.d.dbl = Dbl.fin (s.bOf r) ∧
  Dbl.add (Dbl.sub (Dbl.mul (Dbl.fin (s.bOf r)) (Dbl.fin (s.bOf r)))
      ((s.p.sub r.o).dbl.dotD (s.p.sub r.o).dbl)) (Dbl.mul (Dbl.fin s.rad) (Dbl.fin s.rad))
    = Dbl.fin (s.detOf r) ∧
  (0 ≤ s.detOf r →
    Dbl.sqrt (Dbl.fin (s.detOf r)) = Dbl.fin (s.sqrtDet r) ∧
    0 ≤ s.sqrtDet r ∧ s.sqrtDet r * s.sqrtDet r = s.detOf r ∧
    Dbl.sub (Dbl.fin (s.bOf r)) (Dbl.fin (s.sqrtDet r)) = Dbl.fin (s.bOf r - s.sqrtDet r) ∧
    Dbl.add (Dbl.fin (s.bOf r)) (Dbl.fin (s.sqrtDet r)) = Dbl.fin (s.bOf r + s.sqrtDet r))

instance (s : Sphere ℚ) (r : Ray ℚ) : Decidable (s.exactD r) := by
  unfold Sphere.exactD; infer_instance

/-- The `double` that `sqrt(x*x+y*y+z*z)` evaluates to in `Vec::norm`, for
the exact value of the sum of squares. -/
def Vec.sqrtLen (v : Vec ℚ) : ℚ := (Dbl.sqrt (Dbl.fin (v.dot v))).val

/-- The `double` evaluation of `Vec::norm` on `v` incurs no rounding: the
sum of squares, its square root `q`, the reciprocal `1/q` and the three
products come out as their exact values. -/
def Vec.exactNormD (v : Vec ℚ) : Prop :=
  v.dbl.sumSqD = Dbl.fin (v.dot v) ∧
  Dbl.sqrt (Dbl.fin (v.dot v)) = Dbl.fin v.sqrtLen ∧
  0 ≤ v.sqrtLen ∧ v.sqrtLen * v.sqrtLen = v.dot v ∧
  Dbl.div (Dbl.fin 1) (Dbl.fin v.sqrtLen) = Dbl.fin (1 / v.sqrtLen) ∧
  v.dbl.mulD (Dbl.fin (1 / v.sqrtLen)) = (v.mul (1 / v.sqrtLen)).dbl

instance (v : Vec ℚ) : Decidable v.exactNormD := by
  unfold Vec.exactNormD; infer_instance

/-- The call `a.norm()` as a state change, `return *this = *this * (...)`:
the assignment gives the receiver its new value, and the reference returned
is the receiver. The pair is the receiver after the call and the value
returned. -/
def Vec.normCallD (a : Vec Dbl) : Vec Dbl × Vec Dbl :=
  let receiver := a.normD
  (receiver, receiver)

/-- The `double` `a` is not NaN and not below the rational `c`. -/
def Dbl.atLeast (c : ℚ) : Dbl → Prop
  | Dbl.fin v => c ≤ v
  | Dbl.inf s => s = false
  | Dbl.nan => False

instance (c : ℚ) (a : Dbl) : Decidable (Dbl.atLeast c a) := by
  cases a <;> unfold Dbl.atLeast <;> infer_instance

/-- The constant `M_PI`: the `double` nearest to pi. -/
def piD : Dbl := Dbl.fin (884279719003555 / 281474976710656)

/-- The libm `tan` at the two arguments of the `256 x 192` render of `main`,
`fovx = M_PI/10` and `hw * fovx` (`hw = 0.75`), with the values that glibc
returns there; NaN stands for every other argument. -/
def tanRef (a : Dbl) : Dbl :=
  if a = Dbl.fin (5659390201622752 / 18014398509481984) then
    Dbl.fin (5853232891519406 / 18014398509481984)
  else if a = Dbl.fin (8489085302434128 / 36028797018963968) then
    Dbl.fin (8649748879462253 / 36028797018963968)
  else Dbl.nan

/-- The scene of `main` (main.cpp 105-115) in `double` arithmetic: every
decimal literal is the nearest `double`, and the sums and differences in the
initialisers are `double` operations. -/
def sceneD : List (Sphere Dbl) :=
  [⟨rnd (10 ^ 5), ⟨Dbl.add (rnd (10 ^ 5)) (rnd 1), rnd (408 / 10), rnd (816 / 10)⟩,
      ⟨rnd 255, rnd 0, rnd 0⟩⟩,
   ⟨rnd (10 ^ 5), ⟨Dbl.add (Dbl.neg (rnd (10 ^ 5))) (rnd 99), rnd (408 / 10), rnd (816 / 10)⟩,
      ⟨rnd 0, rnd 0, rnd 255⟩⟩,
   ⟨rnd (10 ^ 5), ⟨rnd 50, rnd (408 / 10), rnd (10 ^ 5)⟩,
      ⟨rnd (75 / 100), rnd (75 / 100), rnd (75 / 100)⟩⟩,
   ⟨rnd (10 ^ 5), ⟨rnd 50, rnd (10 ^ 5), rnd (816 / 10)⟩,
      ⟨rnd (75 / 100), rnd (75 / 100), rnd (75 / 100)⟩⟩,
   ⟨rnd (10 ^ 5), ⟨rnd 50, Dbl.add (Dbl.neg (rnd (10 ^ 5))) (rnd (826 / 10)), rnd (816 / 10)⟩,
      ⟨rnd (75 / 100), rnd (75 / 100), rnd (75 / 100)⟩⟩,
   ⟨rnd (165 / 10), ⟨rnd 27, rnd (165 / 10), rnd 47⟩, ⟨rnd 0, rnd 255, rnd 0⟩⟩,
   ⟨rnd (165 / 10), ⟨rnd 73, rnd (165 / 10), rnd 78⟩, ⟨rnd 255, rnd 255, rnd 0⟩⟩,
   ⟨rnd 600, ⟨rnd 50, Dbl.sub (rnd (6816 / 10)) (rnd (27 / 100)), rnd (816 / 10)⟩,
      ⟨rnd 120, rnd 120, rnd 120⟩⟩]

/-- The camera of `main` in `double` arithmetic:
`Ray cam(Vec(50,40,305), Vec(0,0.0,-1).norm())`. -/
def camD : Ray Dbl :=
  ⟨⟨rnd 50, rnd 40, rnd 305⟩, Vec.normD ⟨rnd 0, rnd 0, Dbl.neg (rnd 1)⟩⟩
/-! ## Sphere::intersect: basic facts -/

section SphereFacts

variable {K : Type} [LinearOrderedField K]

lemma eps_pos : (0 : K) < eps := by
  unfold eps; positivity

/-- Unfolding of `Sphere::intersect` in terms of `bOf` and `detOf`. -/
lemma Sphere.intersect_unfold (sqrt : K → K) (s : Sphere K) (r : Ray K) :
    s.intersect sqrt r =
      if s.detOf r < 0 then 0
      else if s.bOf r - sqrt (s.detOf r) > eps then s.bOf r - sqrt (s.detOf r)
      else if s.bOf r + sqrt (s.detOf r) > eps then s.bOf r + sqrt (s.detOf r)
      else 0 := rfl

lemma Sphere.intersect_cases (sqrt : K → K) (s : Sphere K) (r : Ray K) :
    s.intersect sqrt r = 0 ∨ eps < s.intersect sqrt r := by
  rw [Sphere.intersect_unfold]
  split_ifs with h1 h2 h3
  · exact Or.inl rfl
  · exact Or.inr h2
  · exact Or.inr h3
  · exact Or.inl rfl

/-- With a direction of squared length `n`, the surface equation at `t` is the
quadratic `n t^2 - 2 b t + (op.op - rad^2) = 0`. -/
lemma Sphere.hitAt_iff_quadratic (s : Sphere K) (r : Ray K) (t : K) :
    s.hitAt r t ↔
      r.d.dot r.d * t ^ 2 - 2 * s.bOf r * t
        + ((s.p.sub r.o).dot (s.p.sub r.o) - s.rad * s.rad) = 0 := by
  unfold Sphere.hitAt Sphere.bOf Vec.dot Vec.sub Vec.add Vec.mul
  constructor
  · intro h; linear_combination h
  · intro h; linear_combination h

/-- For a unit direction the surface equation is `(t - b)^2 = det`. -/
lemma Sphere.hitAt_iff_unit (s : Sphere K) (r : Ray K) (hd : r.d.dot r.d = 1) (t : K) :
    s.hitAt r t ↔ (t - s.bOf r) ^ 2 = s.detOf r := by
  rw [Sphere.hitAt_iff_quadratic, hd]
  unfold Sphere.detOf
  constructor
  · intro h; linear_combination h
  · intro h; linear_combination h

end SphereFacts
/-! ## C9: the result is 0 or greater than eps -/

/-- C9: for every sphere and ray, over any ordered field and with any
`sqrt`, the result of `Sphere::intersect` is either 0 or greater than `eps`;
it is never negative and never in `(0, eps]`; so it is non-zero exactly when
one of the two roots was accepted (it exceeds `eps`). -/
theorem Sphere.intersect_zero_or_gt_eps {K : Type} [LinearOrderedField K] (sqrt : K → K)
    (s : Sphere K) (r : Ray K) :
    (s.intersect sqrt r = 0 ∨ eps < s.intersect sqrt r) ∧
    0 ≤ s.intersect sqrt r ∧
    ¬ (0 < s.intersect sqrt r ∧ s.intersect sqrt r ≤ eps) ∧
    (s.intersect sqrt r ≠ 0 ↔ eps < s.intersect sqrt r) := by
  have hpos : (0 : K) < eps := eps_pos
  rcases Sphere.intersect_cases sqrt s r with h | h
  · refine ⟨Or.inl h, h.ge, ?_, ?_⟩
    · rw [h]; exact fun hh => lt_irrefl _ hh.1
    · rw [h]; exact ⟨fun hh => absurd rfl hh, fun hh => absurd hh (not_lt.mpr hpos.le)⟩
  · refine ⟨Or.inr h, (hpos.trans h).le, ?_, ?_⟩
    · exact fun hh => absurd h (not_lt.mpr hh.2)
    · exact ⟨fun _ => h, fun _ => (hpos.trans h).ne.symm⟩
/-! ## C10: clamp -/

/-- C10: `clamp` is idempotent, and it is 0 below 0, 1 above 1 and the
identity in between (over any ordered field). -/
theorem clamp_idempotent {K : Type} [LinearOrderedField K] (v : K) :
    clamp (clamp v) = clamp v ∧
    (v < 0 → clamp v = 0) ∧ (1 < v → clamp v = 1) ∧ (0 ≤ v → v ≤ 1 → clamp v = v) := by
  refine ⟨?_, ?_, ?_, ?_⟩
  · unfold clamp
    split_ifs <;> first | rfl | (exfalso; linarith)
  · intro h; unfold clamp; rw [if_pos h]
  · intro h
    unfold clamp
    rw [if_neg (not_lt.mpr (zero_le_one.trans h.le)), if_pos h]
  · intro h0 h1
    unfold clamp
    rw [if_neg (not_lt.mpr h0), if_neg (not_lt.mpr h1)]
/-! ## C3, C4: the scene-level intersect -/

section Scene

variable {K : Type} [LinearOrderedField K]

/-- Invariant of the scan: the final `t` is at most the initial one and at
most every non-zero distance of the scanned spheres; and either nothing was
accepted (state unchanged, every scanned sphere misses or is not below the
initial `t`), or the final `(t, id)` is the distance and index of a scanned
sphere, strictly below the initial `t`, every earlier scanned sphere missing
or being strictly farther. -/
lemma intersectLoop_spec (sqrt : K → K) (r : Ray K) (l : List (Sphere K)) :
    ∀ (i : Nat) (t0 : K) (id0 : Int),
    (intersectLoop sqrt r l i t0 id0).1 ≤ t0 ∧
    (∀ j s, l.get? j = some s → s.intersect sqrt r ≠ 0 →
      (intersectLoop sqrt r l i t0 id0).1 ≤ s.intersect sqrt r) ∧
    ((intersectLoop sqrt r l i t0 id0 = (t0, id0) ∧
        ∀ j s, l.get? j = some s → s.intersect sqrt r = 0 ∨ t0 ≤ s.intersect sqrt r) ∨
      ∃ k s, l.get? k = some s ∧
        (intersectLoop sqrt r l i t0 id0).2 = ((i + k : Nat) : Int) ∧
        (intersectLoop sqrt r l i t0 id0).1 = s.intersect sqrt r ∧
        s.intersect sqrt r ≠ 0 ∧ s.intersect sqrt r < t0 ∧
        ∀ j sj, j < k → l.get? j = some sj →
          sj.intersect sqrt r = 0 ∨
            (intersectLoop sqrt r l i t0 id0).1 < sj.intersect sqrt r) := by
  induction l with
  | nil =>
    intro i t0 id0
    refine ⟨le_refl _, ?_, Or.inl ⟨rfl, ?_⟩⟩
    · intro j s hj; simp at hj
    · intro j s hj; simp at hj
  | cons s rest ih =>
    intro i t0 id0
    by_cases hc : s.intersect sqrt r ≠ 0 ∧ s.intersect sqrt r < t0
    · have hstep : intersectLoop sqrt r (s :: rest) i t0 id0
          = intersectLoop sqrt r rest (i + 1) (s.intersect sqrt r) (i : Int) := by
        simp only [intersectLoop]; rw [if_pos hc]
      rw [hstep]
      obtain ⟨h1, h2, h3⟩ := ih (i + 1) (s.intersect sqrt r) (i : Int)
      refine ⟨h1.trans hc.2.le, ?_, Or.inr ?_⟩
      · intro j sj hj hne
        cases j with
        | zero =>
          simp at hj; subst hj; exact h1
        | succ j =>
          simp at hj; exact h2 j sj (by simpa using hj) hne
      · rcases h3 with ⟨heq, _⟩ | ⟨k, sk, hk, hid, ht, hne, hlt, hearlier⟩
        · refine ⟨0, s, by simp, ?_, ?_, hc.1, hc.2, ?_⟩
          · rw [heq]; simp
          · rw [heq]
          · intro j sj hj; exact absurd hj (Nat.not_lt_zero j)
        · refine ⟨k + 1, sk, by simpa using hk, ?_, ht, hne, hlt.trans hc.2, ?_⟩
          · rw [hid]; congr 1; omega
          · intro j sj hj hget
            cases j with
            | zero =>
              simp at hget; subst hget
              right; rw [ht]; exact hlt
            | succ j =>
              exact hearlier j sj (by omega) (by simpa using hget)
    · have hstep : intersectLoop sqrt r (s :: rest) i t0 id0
          = intersectLoop sqrt r rest (i + 1) t0 id0 := by
        simp only [intersectLoop]; rw [if_neg hc]
      rw [hstep]
      have hs : s.intersect sqrt r = 0 ∨ t0 ≤ s.intersect sqrt r := by
        by_cases h0 : s.intersect sqrt r = 0
        · exact Or.inl h0
        · exact Or.inr (not_lt.mp fun hlt => hc ⟨h0, hlt⟩)
      obtain ⟨h1, h2, h3⟩ := ih (i + 1) t0 id0
      refine ⟨h1, ?_, ?_⟩
      · intro j sj hj hne
        cases j with
        | zero =>
          simp at hj; subst hj
          rcases hs with h0 | hge
          · exact absurd h0 hne
          · exact h1.trans hge
        | succ j =>
          exact h2 j sj (by simpa using hj) hne
      · rcases h3 with ⟨heq, hall⟩ | ⟨k, sk, hk, hid, ht, hne, hlt, hearlier⟩
        · refine Or.inl ⟨heq, ?_⟩
          intro j sj hj
          cases j with
          | zero => simp at hj; subst hj; exact hs
          | succ j => exact hall j sj (by simpa using hj)
        · refine Or.inr ⟨k + 1, sk, by simpa using hk, ?_, ht, hne, hlt, ?_⟩
          · rw [hid]; congr 1; omega
          · intro j sj hj hget
            cases j with
            | zero =>
              simp at hget; subst hget
              rcases hs with h0 | hge
              · exact Or.inl h0
              · right; rw [ht]; exact lt_of_lt_of_le hlt hge
            | succ j =>
              exact hearlier j sj (by omega) (by simpa using hget)

lemma index_natCast {α : Type} (xs : List α) (k : Nat) : index xs (k : Int) = xs.get? k := by
  unfold index
  rw [if_neg (by omega)]
  simp

/-- On a hit, the scan ended on a sphere `k` of the scene: `id = k`,
`t` is its distance, that distance is non-zero and below the sentinel, every
earlier sphere misses or is strictly farther, and every sphere with a
non-zero distance is at least as far. -/
lemma intersect_hit_spec (sqrt : K → K) (r : Ray K) (id0 : Int) (spheres : List (Sphere K))
    (hhit : (intersect sqrt r id0 spheres).1 = true) :
    ∃ k s, spheres.get? k = some s ∧ (intersect sqrt r id0 spheres).2.2 = (k : Int) ∧
      (intersect sqrt r id0 spheres).2.1 = s.intersect sqrt r ∧
      s.intersect sqrt r ≠ 0 ∧ s.intersect sqrt r < 10 ^ 20 ∧
      (∀ j sj, j < k → spheres.get? j = some sj →
        sj.intersect sqrt r = 0 ∨ (intersect sqrt r id0 spheres).2.1 < sj.intersect sqrt r) ∧
      (∀ j sj, spheres.get? j = some sj → sj.intersect sqrt r ≠ 0 →
        (intersect sqrt r id0 spheres).2.1 ≤ sj.intersect sqrt r) := by
  obtain ⟨_, h2, h3⟩ := intersectLoop_spec sqrt r spheres 0 (10 ^ 20) id0
  simp only [intersect, decide_eq_true_eq] at hhit ⊢
  rcases h3 with ⟨heq, _⟩ | ⟨k, s, hk, hid, ht, hne, hlt, hearlier⟩
  · rw [heq] at hhit; exact absurd hhit (lt_irrefl _)
  · exact ⟨k, s, hk, by rw [hid]; simp, ht, hne, hlt, hearlier, h2⟩

end Scene

/-- C3: the scene-level `intersect` returns true exactly when some sphere has
a non-zero distance below the sentinel `1e20`; and on true, `spheres[id]`
exists, `t` is its distance, and `t` is at most every non-zero distance of
the scene. -/
theorem intersect_nearest {K : Type} [LinearOrderedField K] (sqrt : K → K) (r : Ray K)
    (id0 : Int) (spheres : List (Sphere K)) :
    ((intersect sqrt r id0 spheres).1 = true ↔
      ∃ i s, spheres.get? i = some s ∧ s.intersect sqrt r ≠ 0 ∧ s.intersect sqrt r < 10 ^ 20) ∧
    ((intersect sqrt r id0 spheres).1 = true →
      ∃ s, index spheres (intersect sqrt r id0 spheres).2.2 = some s ∧
        (intersect sqrt r id0 spheres).2.1 = s.intersect sqrt r ∧
        ∀ j sj, spheres.get? j = some sj → sj.intersect sqrt r ≠ 0 →
          (intersect sqrt r id0 spheres).2.1 ≤ sj.intersect sqrt r) := by
  constructor
  · constructor
    · intro hhit
      obtain ⟨k, s, hk, _, _, hne, hlt, _⟩ := intersect_hit_spec sqrt r id0 spheres hhit
      exact ⟨k, s, hk, hne, hlt⟩
    · rintro ⟨i, s, hi, hne, hlt⟩
      obtain ⟨_, h2, _⟩ := intersectLoop_spec sqrt r spheres 0 (10 ^ 20) id0
      simp only [intersect, decide_eq_true_eq]
      exact lt_of_le_of_lt (h2 i s hi hne) hlt
  · intro hhit
    obtain ⟨k, s, hk, hid, ht, _, _, _, hmin⟩ := intersect_hit_spec sqrt r id0 spheres hhit
    exact ⟨s, by rw [hid, index_natCast]; exact hk, ht, hmin⟩

/-- C4: on a hit, the reported `id` is the smallest index whose distance
equals the reported `t`; so if spheres `i < j` are both at distance `t`, the
reported `id` is not `j`. -/
theorem intersect_tie_break {K : Type} [LinearOrderedField K] (sqrt : K → K) (r : Ray K)
    (id0 : Int) (spheres : List (Sphere K))
    (hhit : (intersect sqrt r id0 spheres).1 = true) :
    (∃ (k : Nat) (s : Sphere K),
      (intersect sqrt r id0 spheres).2.2 = (k : Int) ∧ spheres.get? k = some s ∧
      s.intersect sqrt r = (intersect sqrt r id0 spheres).2.1 ∧
      ∀ j sj, spheres.get? j = some sj →
        sj.intersect sqrt r = (intersect sqrt r id0 spheres).2.1 → k ≤ j) ∧
    (∀ (i j : Nat) (si sj : Sphere K),
      i < j → spheres.get? i = some si → spheres.get? j = some sj →
      si.intersect sqrt r = (intersect sqrt r id0 spheres).2.1 →
      sj.intersect sqrt r = (intersect sqrt r id0 spheres).2.1 →
      (intersect sqrt r id0 spheres).2.2 ≠ (j : Int)) := by
  obtain ⟨k, s, hk, hid, ht, hne, _, hearlier, _⟩ := intersect_hit_spec sqrt r id0 spheres hhit
  have hsmall : ∀ j sj, spheres.get? j = some sj →
      sj.intersect sqrt r = (intersect sqrt r id0 spheres).2.1 → k ≤ j := by
    intro j sj hj heq
    by_contra hlt
    rcases hearlier j sj (not_le.mp hlt) hj with h0 | hgt
    · rw [heq, ht] at h0; exact hne h0
    · rw [heq] at hgt; exact lt_irrefl _ hgt
  refine ⟨⟨k, s, hid, hk, ht.symm, hsmall⟩, ?_⟩
  intro i j si sj hij hi _ hsi _ hidj
  have hki := hsmall i si hi hsi
  rw [hid] at hidj
  have : k = j := by exact_mod_cast hidj
  omega

/-- A concrete distance: the unit sphere at `(0,0,2)`, whatever its colour,
is met at distance 1 from the origin along the z-axis. -/
lemma Sphere.intersect_example (c : Vec ℝ) :
    (⟨1, ⟨0, 0, 2⟩, c⟩ : Sphere ℝ).intersect Real.sqrt ⟨⟨0, 0, 0⟩, ⟨0, 0, 1⟩⟩ = 1 := by
  rw [Sphere.intersect_unfold]
  have hb : (⟨1, ⟨0, 0, 2⟩, c⟩ : Sphere ℝ).bOf ⟨⟨0, 0, 0⟩, ⟨0, 0, 1⟩⟩ = 2 := by
    norm_num [Sphere.bOf, Vec.dot, Vec.sub]
  have hdet : (⟨1, ⟨0, 0, 2⟩, c⟩ : Sphere ℝ).detOf ⟨⟨0, 0, 0⟩, ⟨0, 0, 1⟩⟩ = 1 := by
    norm_num [Sphere.detOf, Sphere.bOf, Vec.dot, Vec.sub]
  rw [hb, hdet, Real.sqrt_one]
  norm_num [eps]

/-- Two coincident spheres of different colour are hit along the z-axis. -/
lemma intersect_example_hit :
    (intersect Real.sqrt (⟨⟨0, 0, 0⟩, ⟨0, 0, 1⟩⟩ : Ray ℝ) 0
      [⟨1, ⟨0, 0, 2⟩, ⟨1, 0, 0⟩⟩, ⟨1, ⟨0, 0, 2⟩, ⟨0, 1, 0⟩⟩]).1 = true := by
  simp only [intersect, intersectLoop, Sphere.intersect_example]
  norm_num

/-- Witness for C4: of two coincident spheres the second is not reported. -/
theorem intersect_tie_break_witness :
    (intersect Real.sqrt (⟨⟨0, 0, 0⟩, ⟨0, 0, 1⟩⟩ : Ray ℝ) 0
      [⟨1, ⟨0, 0, 2⟩, ⟨1, 0, 0⟩⟩, ⟨1, ⟨0, 0, 2⟩, ⟨0, 1, 0⟩⟩]).1 = true ∧
    (intersect Real.sqrt (⟨⟨0, 0, 0⟩, ⟨0, 0, 1⟩⟩ : Ray ℝ) 0
      [⟨1, ⟨0, 0, 2⟩, ⟨1, 0, 0⟩⟩, ⟨1, ⟨0, 0, 2⟩, ⟨0, 1, 0⟩⟩]).2.2 ≠ ((1 : Nat) : Int) := by
  refine ⟨intersect_example_hit, ?_⟩
  have hloop : intersectLoop Real.sqrt (⟨⟨0, 0, 0⟩, ⟨0, 0, 1⟩⟩ : Ray ℝ)
      [⟨1, ⟨0, 0, 2⟩, ⟨1, 0, 0⟩⟩, ⟨1, ⟨0, 0, 2⟩, ⟨0, 1, 0⟩⟩] 0 (10 ^ 20) 0 = (1, 0) := by
    simp only [intersectLoop, Sphere.intersect_example]
    norm_num
  have ht : (intersect Real.sqrt (⟨⟨0, 0, 0⟩, ⟨0, 0, 1⟩⟩ : Ray ℝ) 0
      [⟨1, ⟨0, 0, 2⟩, ⟨1, 0, 0⟩⟩, ⟨1, ⟨0, 0, 2⟩, ⟨0, 1, 0⟩⟩]).2.1 = 1 := by
    simp only [intersect, hloop]
  exact (intersect_tie_break Real.sqrt _ 0 _ intersect_example_hit).2 0 1 _ _ (by decide)
    rfl rfl (by rw [ht]; exact Sphere.intersect_example _)
    (by rw [ht]; exact Sphere.intersect_example _)
/-! ## C5: radiance -/

/-- C5: when the scene-level `intersect` reports a hit, `spheres[id]` exists
and `radiance` is its stored colour `c`; when it reports a miss, `radiance`
is the black vector `(0,0,0)`. -/
theorem radiance_flat {K : Type} [LinearOrderedField K] (sqrt : K → K) (r : Ray K)
    (spheres : List (Sphere K)) :
    ((intersect sqrt r 0 spheres).1 = true →
      ∃ s, index spheres (intersect sqrt r 0 spheres).2.2 = some s ∧
        radiance sqrt r spheres = some s.c) ∧
    ((intersect sqrt r 0 spheres).1 = false →
      radiance sqrt r spheres = some ⟨0, 0, 0⟩) := by
  constructor
  · intro hhit
    obtain ⟨k, s, hk, hid, _⟩ := intersect_hit_spec sqrt r 0 spheres hhit
    have hs : index spheres (intersect sqrt r 0 spheres).2.2 = some s := by
      rw [hid, index_natCast]; exact hk
    refine ⟨s, hs, ?_⟩
    simp only [radiance, hhit, hs]
    simp
  · intro hmiss
    simp only [radiance, hmiss]
    rfl
/-! ## The empty scene and the value zero -/

section EmptyScene

variable {K : Type} [LinearOrderedField K]

lemma intersect_nil (sqrt : K → K) (r : Ray K) (id0 : Int) :
    intersect sqrt r id0 [] = (false, 10 ^ 20, id0) := by
  simp [intersect, intersectLoop]

lemma radiance_nil (sqrt : K → K) (r : Ray K) : radiance sqrt r [] = some ⟨0, 0, 0⟩ := by
  simp [radiance, intersect_nil, Vec.zero]

lemma clamp_zero : clamp (0 : K) = 0 := by
  simp [clamp]

end EmptyScene

lemma lround_zero : lround (0 : ℝ) = 0 := by
  unfold lround
  rw [if_pos (le_refl _)]
  rw [Int.floor_eq_iff]
  norm_num

lemma toInt_zero : toInt Real.rpow 0 = 0 := by
  unfold toInt
  rw [clamp_zero]
  have h : Real.rpow 0 (1 / (22 / 10)) = 0 := by
    show (0 : ℝ) ^ ((1 : ℝ) / (22 / 10)) = 0
    exact Real.zero_rpow (by norm_num)
  rw [h, zero_mul, lround_zero]
/-! ## C18: radiance stays inside the scene -/

section Bounds

variable {K : Type} [LinearOrderedField K]

/-- On a miss nothing was accepted by the scan: `id` keeps its initial
value and `t` is the sentinel. -/
lemma intersect_miss_spec (sqrt : K → K) (r : Ray K) (id0 : Int) (spheres : List (Sphere K))
    (hmiss : (intersect sqrt r id0 spheres).1 = false) :
    (intersect sqrt r id0 spheres).2.2 = id0 ∧ (intersect sqrt r id0 spheres).2.1 = 10 ^ 20 := by
  obtain ⟨_, _, h3⟩ := intersectLoop_spec sqrt r spheres 0 (10 ^ 20) id0
  simp only [intersect, decide_eq_false_iff_not] at hmiss ⊢
  rcases h3 with ⟨heq, _⟩ | ⟨k, s, _, _, ht, _, hlt, _⟩
  · rw [heq]; exact ⟨rfl, rfl⟩
  · rw [ht] at hmiss; exact absurd hlt hmiss

/-- `radiance` always has a value: the access `spheres[id]` never fails. -/
lemma radiance_some (sqrt : K → K) (r : Ray K) (spheres : List (Sphere K)) :
    ∃ v, radiance sqrt r spheres = some v := by
  cases hres : (intersect sqrt r 0 spheres).1 with
  | false => exact ⟨Vec.zero, by simp only [radiance, hres]; rfl⟩
  | true =>
    obtain ⟨k, s, hk, hid, _⟩ := intersect_hit_spec sqrt r 0 spheres hres
    refine ⟨s.c, ?_⟩
    simp only [radiance, hres, hid, index_natCast, hk]
    simp

end Bounds

/-- C18: whenever the scene-level `intersect` returns true, the output `id`
satisfies `0 <= id < spheres.size()`, the access `spheres[id]` succeeds and
`radiance` has a value; whenever it returns false, `id` is left at its
initial value and `radiance` is black without any access to the scene (so
also for the empty scene); in all cases `radiance` has a value. -/
theorem radiance_in_bounds {K : Type} [LinearOrderedField K] (sqrt : K → K) (r : Ray K)
    (id0 : Int) (spheres : List (Sphere K)) :
    ((intersect sqrt r id0 spheres).1 = true →
      0 ≤ (intersect sqrt r id0 spheres).2.2 ∧
      (intersect sqrt r id0 spheres).2.2 < (spheres.length : Int) ∧
      ∃ s, index spheres (intersect sqrt r id0 spheres).2.2 = some s) ∧
    ((intersect sqrt r id0 spheres).1 = false →
      (intersect sqrt r id0 spheres).2.2 = id0) ∧
    ((intersect sqrt r 0 spheres).1 = false → radiance sqrt r spheres = some Vec.zero) ∧
    radiance sqrt r [] = some Vec.zero ∧
    ∃ v, radiance sqrt r spheres = some v := by
  refine ⟨?_, ?_, ?_, radiance_nil sqrt r, radiance_some sqrt r spheres⟩
  · intro hhit
    obtain ⟨k, s, hk, hid, _⟩ := intersect_hit_spec sqrt r id0 spheres hhit
    have hlen : k < spheres.length := by
      rw [List.get?_eq_some] at hk
      exact hk.1
    rw [hid]
    refine ⟨Int.natCast_nonneg k, by exact_mod_cast hlen, s, ?_⟩
    rw [index_natCast]; exact hk
  · intro hmiss
    exact (intersect_miss_spec sqrt r id0 spheres hmiss).1
  · intro hmiss
    simp only [radiance, hmiss]
    rfl
/-! ## C11, C12, C13: the output encoding -/

section ClampFacts
variable {K : Type} [LinearOrderedField K]

lemma clamp_nonneg (x : K) : 0 ≤ clamp x := by
  unfold clamp
  split_ifs with h1 h2
  · exact le_refl _
  · exact zero_le_one
  · exact not_lt.mp h1

lemma clamp_le_one (x : K) : clamp x ≤ 1 := by
  unfold clamp
  split_ifs with h1 h2
  · exact zero_le_one
  · exact le_refl _
  · exact not_lt.mp h2

lemma clamp_mono {u v : K} (huv : u ≤ v) : clamp u ≤ clamp v := by
  unfold clamp
  split_ifs <;> linarith

lemma clamp_of_one_le {v : K} (hv : 1 ≤ v) : clamp v = 1 := by
  unfold clamp
  rw [if_neg (not_lt.mpr (zero_le_one.trans hv))]
  split_ifs with h
  · rfl
  · exact le_antisymm (not_lt.mp h) hv

lemma clamp_of_nonpos {v : K} (hv : v ≤ 0) : clamp v = 0 := by
  unfold clamp
  split_ifs with h1 h2
  · rfl
  · linarith
  · exact le_antisymm hv (not_lt.mp h1)

lemma clamp_clamp (v : K) : clamp (clamp v) = clamp v := by
  unfold clamp
  split_ifs <;> first | rfl | (exfalso; linarith)

end ClampFacts

lemma lround_of_nonneg {x : ℝ} (hx : 0 ≤ x) : lround x = Int.floor (x + 1 / 2) := by
  unfold lround
  rw [if_pos hx]

lemma lround_mono_of_nonneg {x y : ℝ} (hx : 0 ≤ x) (hxy : x ≤ y) : lround x ≤ lround y := by
  rw [lround_of_nonneg hx, lround_of_nonneg (hx.trans hxy)]
  exact Int.floor_le_floor (by linarith)

/-- The value handed to `lround` by `toInt`: `pow(clamp(x),1/2.2)*255`. -/
lemma toInt_arg_bounds (x : ℝ) :
    0 ≤ Real.rpow (clamp x) (1 / (22 / 10)) * 255 ∧
      Real.rpow (clamp x) (1 / (22 / 10)) * 255 ≤ 255 := by
  have h0 : 0 ≤ Real.rpow (clamp x) (1 / (22 / 10)) := Real.rpow_nonneg (clamp_nonneg x) _
  have h1 : Real.rpow (clamp x) (1 / (22 / 10)) ≤ 1 :=
    Real.rpow_le_one (clamp_nonneg x) (clamp_le_one x) (by norm_num)
  constructor
  · positivity
  · linarith

/-- C11: `toInt` is monotonically non-decreasing: `u <= v` implies
`toInt(u) <= toInt(v)`, for all reals and so in particular on `[0,1]`. -/
theorem toInt_mono (u v : ℝ) (huv : u ≤ v) :
    toInt Real.rpow u ≤ toInt Real.rpow v := by
  unfold toInt
  apply lround_mono_of_nonneg (toInt_arg_bounds u).1
  have h : Real.rpow (clamp u) (1 / (22 / 10)) ≤ Real.rpow (clamp v) (1 / (22 / 10)) :=
    Real.rpow_le_rpow (clamp_nonneg u) (clamp_mono huv) (by norm_num)
  linarith

/-- Witness for C11: the inputs 1/4 and 1/2. -/
theorem toInt_mono_witness :
    (1 / 4 : ℝ) ≤ 1 / 2 ∧ toInt Real.rpow (1 / 4) ≤ toInt Real.rpow (1 / 2) :=
  ⟨by norm_num, toInt_mono (1 / 4) (1 / 2) (by norm_num)⟩

/-- C12: for every real `x`, also outside `[0,1]`, `0 <= toInt(x) <= 255`. -/
theorem toInt_range (x : ℝ) : 0 ≤ toInt Real.rpow x ∧ toInt Real.rpow x ≤ 255 := by
  obtain ⟨h0, h1⟩ := toInt_arg_bounds x
  unfold toInt
  rw [lround_of_nonneg h0]
  constructor
  · exact Int.floor_nonneg.mpr (by linarith)
  · have : Int.floor (Real.rpow (clamp x) (1 / (22 / 10)) * 255 + 1 / 2) < 256 := by
      rw [Int.floor_lt]
      push_cast
      linarith
    omega

lemma toInt_of_one_le {v : ℝ} (hv : 1 ≤ v) : toInt Real.rpow v = 255 := by
  unfold toInt
  rw [clamp_of_one_le hv]
  have h : Real.rpow 1 (1 / (22 / 10)) = 1 := Real.one_rpow _
  rw [h, one_mul, lround_of_nonneg (by norm_num), Int.floor_eq_iff]
  norm_num

lemma toInt_of_nonpos {v : ℝ} (hv : v ≤ 0) : toInt Real.rpow v = 0 := by
  unfold toInt
  rw [clamp_of_nonpos hv]
  have h := toInt_zero
  unfold toInt at h
  rw [clamp_zero] at h
  exact h

/-- C13: for every `v >= 1`, `clamp(v) = 1` and `toInt(v) = 255`; for every
`v <= 0`, `toInt(v) = 0`; the colour `(1,1,1)` encodes to `(255,255,255)` and
`(0,0,0)` to `(0,0,0)`. -/
theorem toInt_saturation :
    (∀ v : ℝ, 1 ≤ v → clamp v = 1 ∧ toInt Real.rpow v = 255) ∧
    (∀ v : ℝ, v ≤ 0 → toInt Real.rpow v = 0) ∧
    encode Real.rpow (⟨1, 1, 1⟩ : Vec ℝ) = (255, 255, 255) ∧
    encode Real.rpow (⟨0, 0, 0⟩ : Vec ℝ) = (0, 0, 0) := by
  refine ⟨fun v hv => ⟨clamp_of_one_le hv, toInt_of_one_le hv⟩,
    fun v hv => toInt_of_nonpos hv, ?_, ?_⟩
  · simp only [encode, toInt_of_one_le (le_refl (1 : ℝ))]
  · simp only [encode, toInt_of_nonpos (le_refl (0 : ℝ))]
/-! ## The pixel index (used for C15, C17, C20) -/

lemma pixelIndex_lt (w h x y : Nat) (hx : x < w) (hy : y < h) : pixelIndex w h x y < w * h := by
  unfold pixelIndex
  have h1 : (h - y - 1) * w + w = (h - y) * w := by
    have : h - y = (h - y - 1) + 1 := by omega
    rw [this, Nat.add_sub_cancel, Nat.add_mul, Nat.one_mul]
  have h2 : (h - y) * w ≤ h * w := Nat.mul_le_mul_right w (Nat.sub_le h y)
  rw [Nat.mul_comm w h]
  omega

lemma pixelIndex_inj (w h x y x1 y1 : Nat) (hx : x < w) (hy : y < h) (hx1 : x1 < w)
    (hy1 : y1 < h) (heq : pixelIndex w h x y = pixelIndex w h x1 y1) : x = x1 ∧ y = y1 := by
  unfold pixelIndex at heq
  have hw : 0 < w := Nat.lt_of_le_of_lt (Nat.zero_le x) hx
  have hmod : ((h - y - 1) * w + x) % w = ((h - y1 - 1) * w + x1) % w := by rw [heq]
  have hdiv : ((h - y - 1) * w + x) / w = ((h - y1 - 1) * w + x1) / w := by rw [heq]
  rw [Nat.mul_comm (h - y - 1) w, Nat.mul_comm (h - y1 - 1) w] at hmod hdiv
  rw [Nat.mul_add_mod, Nat.mul_add_mod, Nat.mod_eq_of_lt hx, Nat.mod_eq_of_lt hx1] at hmod
  rw [Nat.mul_add_div hw, Nat.mul_add_div hw, Nat.div_eq_of_lt hx, Nat.div_eq_of_lt hx1] at hdiv
  exact ⟨hmod, by omega⟩

lemma pixelIndex_surj (w h i : Nat) (hi : i < w * h) :
    ∃ x y, x < w ∧ y < h ∧ pixelIndex w h x y = i := by
  have hw : 0 < w := by
    rcases Nat.eq_zero_or_pos w with h0 | h0
    · rw [h0, Nat.zero_mul] at hi; exact absurd hi (Nat.not_lt_zero _)
    · exact h0
  have hdiv : i / w < h := by
    rw [Nat.div_lt_iff_lt_mul hw, Nat.mul_comm]; exact hi
  have hmain : ∀ q, q = i / w → q < h → ∃ x y, x < w ∧ y < h ∧ pixelIndex w h x y = i := by
    intro q hq hqh
    refine ⟨i % w, h - 1 - q, Nat.mod_lt _ hw, by omega, ?_⟩
    unfold pixelIndex
    have hsub : h - (h - 1 - q) - 1 = q := by omega
    rw [hsub, hq, Nat.mul_comm]
    exact Nat.div_add_mod i w
  exact hmain _ rfl hdiv
/-! ## The driver loops (used for C6, C15, C17, C20) -/

lemma pixelIndexInt_some (w h x y : Nat) (hx : x < w) (hy : y < h) (hwh : w * h < 2 ^ 31) :
    pixelIndexInt w h x y = some (pixelIndex w h x y) := by
  unfold pixelIndexInt
  rw [if_pos (lt_trans (pixelIndex_lt w h x y hx hy) hwh)]

lemma pixelIndexInt_eq (w h x y i : Nat) (hi : pixelIndexInt w h x y = some i) :
    i = pixelIndex w h x y ∧ i < 2 ^ 31 := by
  unfold pixelIndexInt at hi
  split_ifs at hi with hlt
  simp only [Option.some.injEq] at hi
  exact ⟨hi.symm, hi ▸ hlt⟩

section Driver

variable {K : Type} [LinearOrderedField K]

lemma Vec.zero_add (v : Vec K) : Vec.zero.add v = v := by
  simp [Vec.add, Vec.zero]

lemma bufferInv_congr (sqrt tan : K → K) (pi : K) (cam : Ray K) (spheres : List (Sphere K))
    (w h y x y2 x2 : Nat) (c : List (Vec K))
    (hiff : ∀ x1 y1, x1 < w → y1 < h →
      ((y1 < y ∨ (y1 = y ∧ x1 < x)) ↔ (y1 < y2 ∨ (y1 = y2 ∧ x1 < x2))))
    (hinv : bufferInv sqrt tan pi cam spheres w h y x c) :
    bufferInv sqrt tan pi cam spheres w h y2 x2 c := by
  refine ⟨hinv.1, ?_⟩
  intro x1 y1 hx1 hy1
  obtain ⟨r, hr, hget⟩ := hinv.2 x1 y1 hx1 hy1
  refine ⟨r, hr, ?_⟩
  rw [hget]
  by_cases hc : y1 < y ∨ (y1 = y ∧ x1 < x)
  · rw [if_pos hc, if_pos ((hiff x1 y1 hx1 hy1).mp hc)]
  · rw [if_neg hc, if_neg (fun h2 => hc ((hiff x1 y1 hx1 hy1).mpr h2))]

lemma bufferInv_init (sqrt tan : K → K) (pi : K) (cam : Ray K) (spheres : List (Sphere K))
    (w h : Nat) :
    bufferInv sqrt tan pi cam spheres w h 0 0 (List.replicate (w * h) Vec.zero) := by
  refine ⟨List.length_replicate _ _, ?_⟩
  intro x1 y1 hx1 hy1
  obtain ⟨r, hr⟩ := radiance_some sqrt (pixelRay sqrt tan pi cam w h x1 y1) spheres
  refine ⟨r, hr, ?_⟩
  rw [if_neg (by omega), List.get?_eq_getElem?,
    List.getElem?_replicate_of_lt (pixelIndex_lt w h x1 y1 hx1 hy1)]

/-- When the body of the column loop succeeds, its index computation had a
value. -/
lemma pixelStep_some_index (sqrt tan : K → K) (pi : K) (cam : Ray K)
    (spheres : List (Sphere K)) (w h y x : Nat) (c c1 : List (Vec K))
    (hstep : pixelStep sqrt tan pi cam spheres w h y x c = some c1) :
    pixelIndexInt w h x y = some (pixelIndex w h x y) := by
  cases hi : pixelIndexInt w h x y with
  | none => simp [pixelStep, hi] at hstep
  | some i => rw [(pixelIndexInt_eq w h x y i hi).1]

lemma pixelStep_spec (sqrt tan : K → K) (pi : K) (cam : Ray K) (spheres : List (Sphere K))
    (w h y x : Nat) (c : List (Vec K))
    (hint : pixelIndexInt w h x y = some (pixelIndex w h x y)) (hx : x < w) (hy : y < h)
    (hinv : bufferInv sqrt tan pi cam spheres w h y x c) :
    ∃ c1, pixelStep sqrt tan pi cam spheres w h y x c = some c1 ∧
      bufferInv sqrt tan pi cam spheres w h y (x + 1) c1 := by
  obtain ⟨r, hr, hget⟩ := hinv.2 x y hx hy
  rw [if_neg (by omega)] at hget
  have hr2 : radiance sqrt ⟨cam.o, (pixelDir tan pi w h x y).norm sqrt⟩ spheres = some r := hr
  have hidx : pixelIndex w h x y < c.length := by
    rw [hinv.1]; exact pixelIndex_lt w h x y hx hy
  refine ⟨c.set (pixelIndex w h x y) (clampVec r), ?_, ?_, ?_⟩
  · simp only [pixelStep, hint, hr2, hget, Vec.zero_add]
    rfl
  · rw [List.length_set]; exact hinv.1
  · intro x1 y1 hx1 hy1
    obtain ⟨r1, hr1, hget1⟩ := hinv.2 x1 y1 hx1 hy1
    by_cases hsame : x1 = x ∧ y1 = y
    · obtain ⟨h1, h2⟩ := hsame
      subst h1; subst h2
      refine ⟨r, hr, ?_⟩
      rw [if_pos (by omega), List.get?_eq_getElem?, List.getElem?_set_self hidx]
    · have hne : pixelIndex w h x y ≠ pixelIndex w h x1 y1 := by
        intro heq
        obtain ⟨h1, h2⟩ := pixelIndex_inj w h x y x1 y1 hx hy hx1 hy1 heq
        exact hsame ⟨h1.symm, h2.symm⟩
      refine ⟨r1, hr1, ?_⟩
      rw [List.get?_eq_getElem?, List.getElem?_set_ne hne, ← List.get?_eq_getElem?, hget1]
      by_cases hc : y1 < y ∨ (y1 = y ∧ x1 < x)
      · rw [if_pos hc, if_pos (by omega)]
      · rw [if_neg hc, if_neg (by omega)]

/-- For `w <= 65535` the column loop ends, given fuel. -/
lemma colLoop_spec (sqrt tan : K → K) (pi : K) (cam : Ray K) (spheres : List (Sphere K))
    (w h y : Nat) (hw : w ≤ 65535) (hwh : w * h < 2 ^ 31) (hy : y < h) :
    ∀ (fuel x : Nat) (c : List (Vec K)), x ≤ w → w - x < fuel →
      bufferInv sqrt tan pi cam spheres w h y x c →
      ∃ c1, colLoop sqrt tan pi cam spheres w h y fuel x c = some c1 ∧
        bufferInv sqrt tan pi cam spheres w h y w c1 := by
  intro fuel
  induction fuel with
  | zero => intro x c _ hf; omega
  | succ fuel ih =>
    intro x c hxw hf hinv
    simp only [colLoop]
    by_cases hx : x < w
    · rw [if_pos hx]
      obtain ⟨c1, hstep, hinv1⟩ := pixelStep_spec sqrt tan pi cam spheres w h y x c
        (pixelIndexInt_some w h x y hx hy hwh) hx hy hinv
      rw [hstep]
      have hmod : (x + 1) % 65536 = x + 1 := Nat.mod_eq_of_lt (by omega)
      simp only [hmod]
      exact ih (x + 1) c1 (by omega) (by omega) hinv1
    · rw [if_neg hx]
      have hxeq : x = w := by omega
      subst hxeq
      exact ⟨c, rfl, hinv⟩

/-- Whenever the column loop ends, it has visited the columns up to `w`. -/
lemma colLoop_partial (sqrt tan : K → K) (pi : K) (cam : Ray K) (spheres : List (Sphere K))
    (w h y : Nat) (hw : w ≤ 65535) (hy : y < h) :
    ∀ (fuel x : Nat) (c c1 : List (Vec K)), x ≤ w →
      bufferInv sqrt tan pi cam spheres w h y x c →
      colLoop sqrt tan pi cam spheres w h y fuel x c = some c1 →
      bufferInv sqrt tan pi cam spheres w h y w c1 := by
  intro fuel
  induction fuel with
  | zero => intro x c c1 _ _ hrun; simp [colLoop] at hrun
  | succ fuel ih =>
    intro x c c1 hxw hinv hrun
    simp only [colLoop] at hrun
    by_cases hx : x < w
    · rw [if_pos hx] at hrun
      have hint : pixelIndexInt w h x y = some (pixelIndex w h x y) := by
        cases hstep : pixelStep sqrt tan pi cam spheres w h y x c with
        | none => rw [hstep] at hrun; exact Option.noConfusion hrun
        | some c3 => exact pixelStep_some_index sqrt tan pi cam spheres w h y x c c3 hstep
      obtain ⟨c2, hstep, hinv2⟩ :=
        pixelStep_spec sqrt tan pi cam spheres w h y x c hint hx hy hinv
      rw [hstep] at hrun
      have hmod : (x + 1) % 65536 = x + 1 := Nat.mod_eq_of_lt (by omega)
      simp only [hmod] at hrun
      exact ih (x + 1) c2 c1 (by omega) hinv2 hrun
    · rw [if_neg hx] at hrun
      have hxeq : x = w := by omega
      subst hxeq
      simp only [Option.some.injEq] at hrun
      rw [← hrun]; exact hinv

/-- For `w >= 65536` the condition `x < w` of the column loop holds for
every value of the `unsigned short` counter: the loop does not end. -/
lemma colLoop_wide_none (sqrt tan : K → K) (pi : K) (cam : Ray K)
    (spheres : List (Sphere K)) (w h y : Nat) (hw : 65536 ≤ w) :
    ∀ (fuel x : Nat) (c : List (Vec K)), x < 65536 →
      colLoop sqrt tan pi cam spheres w h y fuel x c = none := by
  intro fuel
  induction fuel with
  | zero => intro x c _; rfl
  | succ fuel ih =>
    intro x c hx
    simp only [colLoop]
    rw [if_pos (lt_of_lt_of_le hx hw)]
    cases pixelStep sqrt tan pi cam spheres w h y x c with
    | none => rfl
    | some c1 => exact ih _ c1 (Nat.mod_lt _ (by decide))

/-- For `w <= 65535` the row loop ends, given fuel. -/
lemma rowLoop_spec (sqrt tan : K → K) (pi : K) (cam : Ray K) (spheres : List (Sphere K))
    (w h : Nat) (hw : w ≤ 65535) (hwh : w * h < 2 ^ 31) :
    ∀ (fuel y : Nat) (c : List (Vec K)), y ≤ h → w + (h - y) < fuel →
      bufferInv sqrt tan pi cam spheres w h y 0 c →
      ∃ c1, rowLoop sqrt tan pi cam spheres w h fuel y c = some c1 ∧
        bufferInv sqrt tan pi cam spheres w h h 0 c1 := by
  intro fuel
  induction fuel with
  | zero => intro y c _ hf; omega
  | succ fuel ih =>
    intro y c hyh hf hinv
    simp only [rowLoop]
    by_cases hy : y < h
    · rw [if_pos hy]
      obtain ⟨c1, hcol, hinv1⟩ := colLoop_spec sqrt tan pi cam spheres w h y hw hwh hy fuel 0 c
        (Nat.zero_le w) (by omega) hinv
      rw [hcol]
      have hinv2 : bufferInv sqrt tan pi cam spheres w h (y + 1) 0 c1 :=
        bufferInv_congr sqrt tan pi cam spheres w h y w (y + 1) 0 c1
          (fun x1 y1 hx1 _ => by omega) hinv1
      exact ih (y + 1) c1 (by omega) (by omega) hinv2
    · rw [if_neg hy]
      have hyeq : y = h := by omega
      subst hyeq
      exact ⟨c, rfl, hinv⟩

/-- Whenever the row loop ends, every pixel has been visited, whatever `w`
and `h`. -/
lemma rowLoop_partial (sqrt tan : K → K) (pi : K) (cam : Ray K) (spheres : List (Sphere K))
    (w h : Nat) :
    ∀ (fuel y : Nat) (c c1 : List (Vec K)), y ≤ h →
      bufferInv sqrt tan pi cam spheres w h y 0 c →
      rowLoop sqrt tan pi cam spheres w h fuel y c = some c1 →
      bufferInv sqrt tan pi cam spheres w h h 0 c1 := by
  intro fuel
  induction fuel with
  | zero => intro y c c1 _ _ hrun; simp [rowLoop] at hrun
  | succ fuel ih =>
    intro y c c1 hyh hinv hrun
    simp only [rowLoop] at hrun
    by_cases hy : y < h
    · rw [if_pos hy] at hrun
      cases hcol : colLoop sqrt tan pi cam spheres w h y fuel 0 c with
      | none => rw [hcol] at hrun; simp at hrun
      | some c2 =>
        rw [hcol] at hrun
        by_cases hw : w ≤ 65535
        · have hinv1 := colLoop_partial sqrt tan pi cam spheres w h y hw hy fuel 0 c c2
            (Nat.zero_le w) hinv hcol
          have hinv2 : bufferInv sqrt tan pi cam spheres w h (y + 1) 0 c2 :=
            bufferInv_congr sqrt tan pi cam spheres w h y w (y + 1) 0 c2
              (fun x1 y1 hx1 _ => by omega) hinv1
          exact ih (y + 1) c2 c1 (by omega) hinv2 hrun
        · rw [colLoop_wide_none sqrt tan pi cam spheres w h y (by omega) fuel 0 c (by decide)]
            at hcol
          exact Option.noConfusion hcol
    · rw [if_neg hy] at hrun
      have hyeq : y = h := by omega
      subst hyeq
      simp only [Option.some.injEq] at hrun
      rw [← hrun]; exact hinv

lemma clampVec_inUnit (r : Vec K) : inUnit (clampVec r) :=
  ⟨⟨clamp_nonneg _, clamp_le_one _⟩, ⟨clamp_nonneg _, clamp_le_one _⟩,
    ⟨clamp_nonneg _, clamp_le_one _⟩⟩

lemma toInt_clamp [FloorRing K] (pow : K → K → K) (v : K) :
    toInt pow (clamp v) = toInt pow v := by
  unfold toInt
  rw [clamp_clamp]

lemma encode_clampVec [FloorRing K] (pow : K → K → K) (r : Vec K) :
    encode pow (clampVec r) = encode pow r := by
  simp only [encode, clampVec, toInt_clamp]

/-- What a finished buffer gives: `w*h` slots with channels in `[0,1]`, each
pixel's slot holding its clamped radiance, and the encoded output. -/
lemma buffer_final [FloorRing K] (sqrt : K → K) (pow : K → K → K) (tan : K → K) (pi : K)
    (cam : Ray K) (spheres : List (Sphere K)) (w h : Nat) (c : List (Vec K))
    (hinv : bufferInv sqrt tan pi cam spheres w h h 0 c) :
    (c.map (encode pow)).length = w * h ∧ (∀ v ∈ c, inUnit v) ∧
    (∀ x y, x < w → y < h →
      ∃ r, radiance sqrt (pixelRay sqrt tan pi cam w h x y) spheres = some r ∧
        c.get? (pixelIndex w h x y) = some (clampVec r) ∧
        (c.map (encode pow)).get? (pixelIndex w h x y) = some (encode pow r)) := by
  refine ⟨?_, ?_, ?_⟩
  · rw [List.length_map]; exact hinv.1
  · intro v hv
    obtain ⟨i, hi, hvi⟩ := List.getElem_of_mem hv
    rw [hinv.1] at hi
    obtain ⟨x, y, hx, hy, hxy⟩ := pixelIndex_surj w h i hi
    obtain ⟨r, _, hget⟩ := hinv.2 x y hx hy
    rw [if_pos (by omega), hxy, List.get?_eq_getElem?, List.getElem?_eq_getElem (by omega)] at hget
    simp only [Option.some.injEq] at hget
    rw [← hvi, hget]
    exact clampVec_inUnit r
  · intro x y hx hy
    obtain ⟨r, hr, hget⟩ := hinv.2 x y hx hy
    rw [if_pos (by omega)] at hget
    refine ⟨r, hr, hget, ?_⟩
    rw [List.get?_eq_getElem?, List.getElem?_map, ← List.get?_eq_getElem?, hget]
    simp only [Option.map_some']
    rw [encode_clampVec]

/-- The driver, for `w <= 65535`, `w*h < 2^31` and fuel above `w + h`: the
loops end with a buffer of `w*h` slots whose channels lie in `[0,1]`, the
output is the encoding of that buffer, and the output triple at the index of
pixel `(x, y)` is the encoding of the radiance of its ray. -/
lemma render_spec [FloorRing K] (sqrt : K → K) (pow : K → K → K) (tan : K → K) (pi : K)
    (cam : Ray K) (spheres : List (Sphere K)) (w h fuel : Nat)
    (hw : w ≤ 65535) (hwh : w * h < 2 ^ 31) (hfuel : w + h < fuel) :
    ∃ c out, rowLoop sqrt tan pi cam spheres w h fuel 0 (List.replicate (w * h) Vec.zero) = some c ∧
      render sqrt pow tan pi fuel w h cam spheres = some out ∧
      out = c.map (encode pow) ∧ out.length = w * h ∧ (∀ v ∈ c, inUnit v) ∧
      ∀ x y, x < w → y < h →
        ∃ r, radiance sqrt (pixelRay sqrt tan pi cam w h x y) spheres = some r ∧
          out.get? (pixelIndex w h x y) = some (encode pow r) := by
  obtain ⟨c, hrow, hinv⟩ := rowLoop_spec sqrt tan pi cam spheres w h hw hwh fuel 0
    (List.replicate (w * h) Vec.zero) (Nat.zero_le h) (by omega)
    (bufferInv_init sqrt tan pi cam spheres w h)
  obtain ⟨hlen, hunit, hpix⟩ := buffer_final sqrt pow tan pi cam spheres w h c hinv
  refine ⟨c, c.map (encode pow), hrow, ?_, rfl, hlen, hunit, ?_⟩
  · unfold render
    rw [if_neg (by omega), hrow]
    rfl
  · intro x y hx hy
    obtain ⟨r, hr, _, hout⟩ := hpix x y hx hy
    exact ⟨r, hr, hout⟩

/-- Whenever the driver produces an output, whatever `w`, `h` and the fuel:
the loops have ended with a finished buffer, and the output is its encoding. -/
lemma render_partial [FloorRing K] (sqrt : K → K) (pow : K → K → K) (tan : K → K) (pi : K)
    (cam : Ray K) (spheres : List (Sphere K)) (w h fuel : Nat) (out : List (Int × Int × Int))
    (hren : render sqrt pow tan pi fuel w h cam spheres = some out) :
    ∃ c, rowLoop sqrt tan pi cam spheres w h fuel 0 (List.replicate (w * h) Vec.zero) = some c ∧
      out = c.map (encode pow) ∧ bufferInv sqrt tan pi cam spheres w h h 0 c := by
  unfold render at hren
  split_ifs at hren with hbig
  cases hrow : rowLoop sqrt tan pi cam spheres w h fuel 0 (List.replicate (w * h) Vec.zero) with
  | none => rw [hrow] at hren; simp at hren
  | some c =>
    rw [hrow] at hren
    simp only [Option.some.injEq] at hren
    refine ⟨c, rfl, hren.symm, ?_⟩
    exact rowLoop_partial sqrt tan pi cam spheres w h fuel 0 _ c (Nat.zero_le h)
      (bufferInv_init sqrt tan pi cam spheres w h) hrow

end Driver
/-! ## The order of the writes (used for C15) -/

lemma colWrites_spec (w h y : Nat) (hw : w ≤ 65535) :
    ∀ (fuel x : Nat) (l : List Nat), x ≤ w → colWrites w h y fuel x = some l →
      l = (List.range' x (w - x)).map (fun x1 => pixelIndex w h x1 y) := by
  intro fuel
  induction fuel with
  | zero => intro x l _ hrun; simp [colWrites] at hrun
  | succ fuel ih =>
    intro x l hxw hrun
    simp only [colWrites] at hrun
    by_cases hx : x < w
    · rw [if_pos hx] at hrun
      cases hi : pixelIndexInt w h x y with
      | none => rw [hi] at hrun; exact Option.noConfusion hrun
      | some i =>
        rw [hi] at hrun
        have hmod : (x + 1) % 65536 = x + 1 := Nat.mod_eq_of_lt (by omega)
        simp only [hmod] at hrun
        cases hrest : colWrites w h y fuel (x + 1) with
        | none => rw [hrest] at hrun; exact Option.noConfusion hrun
        | some l1 =>
          rw [hrest] at hrun
          simp only [Option.some.injEq] at hrun
          have hl1 := ih (x + 1) l1 (by omega) hrest
          have hsplit : w - x = (w - (x + 1)) + 1 := by omega
          rw [← hrun, hl1, hsplit, List.range'_succ, List.map_cons,
            (pixelIndexInt_eq w h x y i hi).1]
    · rw [if_neg hx] at hrun
      have hxeq : w - x = 0 := by omega
      simp only [Option.some.injEq] at hrun
      rw [← hrun, hxeq]
      rfl

lemma colWrites_total (w h y : Nat) (hw : w ≤ 65535) (hwh : w * h < 2 ^ 31) (hy : y < h) :
    ∀ (fuel x : Nat), x ≤ w → w - x < fuel → ∃ l, colWrites w h y fuel x = some l := by
  intro fuel
  induction fuel with
  | zero => intro x _ hf; omega
  | succ fuel ih =>
    intro x hxw hf
    simp only [colWrites]
    by_cases hx : x < w
    · rw [if_pos hx, pixelIndexInt_some w h x y hx hy hwh]
      have hmod : (x + 1) % 65536 = x + 1 := Nat.mod_eq_of_lt (by omega)
      simp only [hmod]
      obtain ⟨l, hl⟩ := ih (x + 1) (by omega) (by omega)
      rw [hl]
      exact ⟨_, rfl⟩
    · rw [if_neg hx]
      exact ⟨_, rfl⟩

lemma colWrites_wide_none (w h y : Nat) (hw : 65536 ≤ w) :
    ∀ (fuel x : Nat), x < 65536 → colWrites w h y fuel x = none := by
  intro fuel
  induction fuel with
  | zero => intro x _; rfl
  | succ fuel ih =>
    intro x hx
    simp only [colWrites]
    rw [if_pos (lt_of_lt_of_le hx hw)]
    cases pixelIndexInt w h x y with
    | none => rfl
    | some i => simp only [ih _ (Nat.mod_lt _ (by decide))]

lemma rowWrites_spec (w h : Nat) :
    ∀ (fuel y : Nat) (l : List Nat), y ≤ h → rowWrites w h fuel y = some l →
      l = (List.range' y (h - y)).flatMap
        (fun y1 => (List.range' 0 w).map (fun x1 => pixelIndex w h x1 y1)) := by
  intro fuel
  induction fuel with
  | zero => intro y l _ hrun; simp [rowWrites] at hrun
  | succ fuel ih =>
    intro y l hyh hrun
    simp only [rowWrites] at hrun
    by_cases hy : y < h
    · rw [if_pos hy] at hrun
      cases hcol : colWrites w h y fuel 0 with
      | none => rw [hcol] at hrun; exact Option.noConfusion hrun
      | some l0 =>
        rw [hcol] at hrun
        cases hrest : rowWrites w h fuel (y + 1) with
        | none => rw [hrest] at hrun; exact Option.noConfusion hrun
        | some l1 =>
          rw [hrest] at hrun
          simp only [Option.some.injEq] at hrun
          by_cases hw : w ≤ 65535
          · have hl0 := colWrites_spec w h y hw fuel 0 l0 (Nat.zero_le w) hcol
            have hl1 := ih (y + 1) l1 (by omega) hrest
            have hsplit : h - y = (h - (y + 1)) + 1 := by omega
            rw [← hrun, hl0, hl1, hsplit, List.range'_succ, List.flatMap_cons, Nat.sub_zero]
          · rw [colWrites_wide_none w h y (by omega) fuel 0 (by decide)] at hcol
            exact Option.noConfusion hcol
    · rw [if_neg hy] at hrun
      have hyeq : h - y = 0 := by omega
      simp only [Option.some.injEq] at hrun
      rw [← hrun, hyeq]
      rfl

lemma rowWrites_total (w h : Nat) (hw : w ≤ 65535) (hwh : w * h < 2 ^ 31) :
    ∀ (fuel y : Nat), y ≤ h → w + (h - y) < fuel → ∃ l, rowWrites w h fuel y = some l := by
  intro fuel
  induction fuel with
  | zero => intro y _ hf; omega
  | succ fuel ih =>
    intro y hyh hf
    simp only [rowWrites]
    by_cases hy : y < h
    · rw [if_pos hy]
      obtain ⟨l0, hl0⟩ := colWrites_total w h y hw hwh hy fuel 0 (Nat.zero_le w) (by omega)
      obtain ⟨l1, hl1⟩ := ih (y + 1) (by omega) (by omega)
      rw [hl0, hl1]
      exact ⟨_, rfl⟩
    · rw [if_neg hy]
      exact ⟨_, rfl⟩

/-- The list of all pixel indices, row by row, holds every index of the
buffer exactly once. -/
lemma allWrites_count (w h i : Nat) (hi : i < w * h) :
    ((List.range' 0 h).flatMap
      (fun y1 => (List.range' 0 w).map (fun x1 => pixelIndex w h x1 y1))).count i = 1 := by
  apply List.count_eq_one_of_mem
  · rw [List.nodup_flatMap]
    constructor
    · intro y1 hy1
      rw [List.mem_range'_1] at hy1
      refine List.Nodup.map_on ?_ (List.nodup_range' 0 w)
      intro a ha b hb hab
      rw [List.mem_range'_1] at ha hb
      exact (pixelIndex_inj w h a y1 b y1 (by omega) (by omega) (by omega) (by omega) hab).1
    · refine List.Pairwise.imp_of_mem ?_ (List.nodup_range' 0 h)
      intro a b ha hb hab
      rw [List.mem_range'_1] at ha hb
      intro j h1 h2
      rw [List.mem_map] at h1 h2
      obtain ⟨x1, hx1, he1⟩ := h1
      obtain ⟨x2, hx2, he2⟩ := h2
      rw [List.mem_range'_1] at hx1 hx2
      exact absurd (pixelIndex_inj w h x1 a x2 b (by omega) (by omega) (by omega) (by omega)
        (he1.trans he2.symm)).2 hab
  · obtain ⟨x, y, hx, hy, hxy⟩ := pixelIndex_surj w h i hi
    rw [List.mem_flatMap]
    refine ⟨y, by rw [List.mem_range'_1]; omega, ?_⟩
    rw [List.mem_map]
    exact ⟨x, by rw [List.mem_range'_1]; omega, hxy⟩

lemma allWrites_lt (w h i : Nat)
    (hi : i ∈ (List.range' 0 h).flatMap
      (fun y1 => (List.range' 0 w).map (fun x1 => pixelIndex w h x1 y1))) : i < w * h := by
  rw [List.mem_flatMap] at hi
  obtain ⟨y, hy, hi⟩ := hi
  rw [List.mem_map] at hi
  obtain ⟨x, hx, hxy⟩ := hi
  rw [List.mem_range'_1] at hx hy
  rw [← hxy]
  exact pixelIndex_lt w h x y (by omega) (by omega)

/-- The writes of the loops of `colLoop` are those listed by `colWrites`. -/
lemma colLoop_writes {K : Type} [LinearOrderedField K] (sqrt tan : K → K) (pi : K)
    (cam : Ray K) (spheres : List (Sphere K)) (w h y : Nat) :
    ∀ (fuel x : Nat) (c c1 : List (Vec K)),
      colLoop sqrt tan pi cam spheres w h y fuel x c = some c1 →
      ∃ l, colWrites w h y fuel x = some l := by
  intro fuel
  induction fuel with
  | zero => intro x c c1 hrun; simp [colLoop] at hrun
  | succ fuel ih =>
    intro x c c1 hrun
    simp only [colLoop] at hrun
    simp only [colWrites]
    by_cases hx : x < w
    · rw [if_pos hx] at hrun ⊢
      cases hstep : pixelStep sqrt tan pi cam spheres w h y x c with
      | none => rw [hstep] at hrun; exact Option.noConfusion hrun
      | some c2 =>
        rw [hstep] at hrun
        rw [pixelStep_some_index sqrt tan pi cam spheres w h y x c c2 hstep]
        obtain ⟨l, hl⟩ := ih _ c2 c1 hrun
        simp only [hl]
        exact ⟨_, rfl⟩
    · rw [if_neg hx]
      exact ⟨_, rfl⟩

lemma rowLoop_writes {K : Type} [LinearOrderedField K] (sqrt tan : K → K) (pi : K)
    (cam : Ray K) (spheres : List (Sphere K)) (w h : Nat) :
    ∀ (fuel y : Nat) (c c1 : List (Vec K)),
      rowLoop sqrt tan pi cam spheres w h fuel y c = some c1 →
      ∃ l, rowWrites w h fuel y = some l := by
  intro fuel
  induction fuel with
  | zero => intro y c c1 hrun; simp [rowLoop] at hrun
  | succ fuel ih =>
    intro y c c1 hrun
    simp only [rowLoop] at hrun
    simp only [rowWrites]
    by_cases hy : y < h
    · rw [if_pos hy] at hrun ⊢
      cases hcol : colLoop sqrt tan pi cam spheres w h y fuel 0 c with
      | none => rw [hcol] at hrun; exact Option.noConfusion hrun
      | some c2 =>
        rw [hcol] at hrun
        obtain ⟨l0, hl0⟩ := colLoop_writes sqrt tan pi cam spheres w h y fuel 0 c c2 hcol
        obtain ⟨l1, hl1⟩ := ih _ c2 c1 hrun
        simp only [hl0, hl1]
        exact ⟨_, rfl⟩
    · rw [if_neg hy]
      exact ⟨_, rfl⟩

lemma allWrites_length (w h : Nat) :
    ((List.range' 0 h).flatMap
      (fun y1 => (List.range' 0 w).map (fun x1 => pixelIndex w h x1 y1))).length = w * h := by
  have hgen : ∀ (l : List Nat),
      (l.flatMap (fun y1 => (List.range' 0 w).map (fun x1 => pixelIndex w h x1 y1))).length
        = w * l.length := by
    intro l
    induction l with
    | nil => rfl
    | cons a l ih =>
      rw [List.flatMap_cons, List.length_append, ih, List.length_map, List.length_range',
        List.length_cons, Nat.mul_succ, Nat.add_comm]
  rw [hgen, List.length_range']

/-! ## C6: the empty scene -/

/-- C6: for the empty scene and every ray the scene-level `intersect`
returns false and `radiance` returns `(0,0,0)`; for all `w`, `h`, whatever
output the driver produces is `w*h` pixels `(0,0,0)`; and the driver does
produce it for all `w <= 65535` with `w*h < 2^31` (with fuel above
`w + h`), among them the `256 x 192` of `main`. For `w >= 65536` the column
counter wraps before it reaches `w` and no output is produced. -/
theorem render_empty_scene (r : Ray ℝ) (id0 : Int) (w h fuel : Nat) (cam0 : Ray ℝ) :
    (intersect Real.sqrt r id0 []).1 = false ∧
    radiance Real.sqrt r [] = some ⟨0, 0, 0⟩ ∧
    (∀ out, render Real.sqrt Real.rpow Real.tan Real.pi fuel w h cam0 [] = some out →
      out = List.replicate (w * h) (0, 0, 0)) ∧
    (w ≤ 65535 → w * h < 2 ^ 31 → w + h < fuel →
      render Real.sqrt Real.rpow Real.tan Real.pi fuel w h cam0 []
        = some (List.replicate (w * h) (0, 0, 0))) := by
  have hpart : ∀ out, render Real.sqrt Real.rpow Real.tan Real.pi fuel w h cam0 [] = some out →
      out = List.replicate (w * h) (0, 0, 0) := by
    intro out hout
    obtain ⟨c, _, hmap, hinv⟩ :=
      render_partial Real.sqrt Real.rpow Real.tan Real.pi cam0 [] w h fuel out hout
    obtain ⟨hlen, _, hpix⟩ := buffer_final Real.sqrt Real.rpow Real.tan Real.pi cam0 [] w h c hinv
    rw [← hmap] at hlen hpix
    apply List.ext_get?
    intro i
    by_cases hi : i < w * h
    · obtain ⟨x, y, hx, hy, hxy⟩ := pixelIndex_surj w h i hi
      obtain ⟨r1, hr1, _, hget⟩ := hpix x y hx hy
      rw [radiance_nil] at hr1
      simp only [Option.some.injEq] at hr1
      rw [← hxy, hget, ← hr1, List.get?_eq_getElem?,
        List.getElem?_replicate_of_lt (pixelIndex_lt w h x y hx hy)]
      simp [encode, toInt_zero]
    · rw [List.get?_eq_none.mpr (by omega), List.get?_eq_none.mpr (by simp; omega)]
  refine ⟨by rw [intersect_nil], radiance_nil Real.sqrt r, hpart, ?_⟩
  intro hw hwh hfuel
  obtain ⟨_, out, _, hren, _⟩ :=
    render_spec Real.sqrt Real.rpow Real.tan Real.pi cam0 [] w h fuel hw hwh hfuel
  rw [hren, hpart out hren]

/-- Witness for C6: the `256 x 192` render of `main` over the empty scene. -/
theorem render_empty_scene_witness :
    render Real.sqrt Real.rpow Real.tan Real.pi 449 256 192 (cam Real.sqrt) []
      = some (List.replicate (256 * 192) (0, 0, 0)) :=
  (render_empty_scene ⟨⟨0, 0, 0⟩, ⟨0, 0, 1⟩⟩ 0 256 192 449 (cam Real.sqrt)).2.2.2
    (by norm_num) (by norm_num) (by norm_num)

/-! ## C20: clamp, accumulate, encode -/

/-- C20: for all `w`, `h`, every scene and every fuel, whenever the driver
produces an output, the pixel loops have ended with a buffer `c` of `w*h`
slots, every stored buffer channel lies in `[0,1]`, and for every pixel
`(x, y)` in range with `r = radiance(Ray(cam.o, normalised direction of
pixel (x, y)), spheres)` the slot at index `(h - y - 1) * w + x` holds
`0 + clamp(r)` and the triple written to the output for that index is
`(toInt(r.x), toInt(r.y), toInt(r.z))`; adding to the zero slot and clamping
again inside `toInt` change nothing; and the driver does produce an output
for all `w <= 65535` with `w*h < 2^31` (fuel above `w + h`), among them the
`256 x 192` of `main`. For `w >= 65536` the column counter wraps before it
reaches `w` and no output is produced. Holds over every ordered field and
for every `sqrt`, `pow`, `tan`. -/
theorem render_direct_encoding {K : Type} [LinearOrderedField K] [FloorRing K]
    (sqrt : K → K) (pow : K → K → K) (tan : K → K) (pi : K) (cam0 : Ray K)
    (spheres : List (Sphere K)) (w h fuel : Nat) :
    (∀ out, render sqrt pow tan pi fuel w h cam0 spheres = some out →
      ∃ c, rowLoop sqrt tan pi cam0 spheres w h fuel 0 (List.replicate (w * h) Vec.zero)
          = some c ∧
        c.length = w * h ∧ out.length = w * h ∧
        (∀ v ∈ c, (0 ≤ v.x ∧ v.x ≤ 1) ∧ (0 ≤ v.y ∧ v.y ≤ 1) ∧ (0 ≤ v.z ∧ v.z ≤ 1)) ∧
        ∀ x y, x < w → y < h →
          ∃ r, radiance sqrt ⟨cam0.o, (pixelDir tan pi w h x y).norm sqrt⟩ spheres = some r ∧
            c.get? ((h - y - 1) * w + x)
              = some (Vec.add Vec.zero ⟨clamp r.x, clamp r.y, clamp r.z⟩) ∧
            out.get? ((h - y - 1) * w + x)
              = some (toInt pow r.x, toInt pow r.y, toInt pow r.z)) ∧
    (∀ v : Vec K, Vec.add Vec.zero v = v) ∧
    (∀ v : K, toInt pow (clamp v) = toInt pow v) ∧
    (w ≤ 65535 → w * h < 2 ^ 31 → w + h < fuel →
      ∃ out, render sqrt pow tan pi fuel w h cam0 spheres = some out) := by
  refine ⟨?_, Vec.zero_add, toInt_clamp pow, ?_⟩
  · intro out hout
    obtain ⟨c, hrow, hmap, hinv⟩ := render_partial sqrt pow tan pi cam0 spheres w h fuel out hout
    obtain ⟨hlen, hunit, hpix⟩ := buffer_final sqrt pow tan pi cam0 spheres w h c hinv
    rw [← hmap] at hlen hpix
    refine ⟨c, hrow, hinv.1, hlen, hunit, ?_⟩
    intro x y hx hy
    obtain ⟨r, hr, hget, hout⟩ := hpix x y hx hy
    refine ⟨r, hr, ?_, hout⟩
    rw [Vec.zero_add]
    exact hget
  · intro hw hwh hfuel
    obtain ⟨_, out, _, hren, _⟩ :=
      render_spec sqrt pow tan pi cam0 spheres w h fuel hw hwh hfuel
    exact ⟨out, hren⟩

/-- Witness for C20: the `256 x 192` render of the scene of `main`. -/
theorem render_direct_encoding_witness :
    ∃ out, render Real.sqrt Real.rpow Real.tan Real.pi 449 256 192 (cam Real.sqrt) scene
      = some out :=
  (render_direct_encoding Real.sqrt Real.rpow Real.tan Real.pi (cam Real.sqrt) scene
    256 192 449).2.2.2 (by norm_num) (by norm_num) (by norm_num)

/-! ## C15: every slot is written once -/

/-- C15: for all `w`, `h`, the map `(x, y) -> (h - y - 1) * w + x` sends
the pixels `x < w`, `y < h` into the buffer `0 .. w*h - 1`, no two pixels
share an index, every index of the buffer is the index of a pixel, and the
loop row `y = 0` lands in the last buffer row. The `int` computation of the
index, whenever it has a value, has this value, and it has a value whenever
`w*h` is an `int`. Whenever the loops end, the list of the indices they
wrote, in order, holds every index of the buffer exactly once and nothing
else, and the slot of every pixel holds exactly one contribution
`Vec(clamp(r.x), clamp(r.y), clamp(r.z))` added to its initial zero. The
loops do end for all `w <= 65535` with `w*h < 2^31` (fuel above `w + h`),
among them the `256 x 192` of `main`; for `w >= 65536` the column counter
wraps before it reaches `w` and the loops do not end. -/
theorem pixelIndex_bijective (w h : Nat) :
    (∀ x y, x < w → y < h → pixelIndex w h x y < w * h) ∧
    (∀ x y x1 y1, x < w → y < h → x1 < w → y1 < h →
      pixelIndex w h x y = pixelIndex w h x1 y1 → x = x1 ∧ y = y1) ∧
    (∀ i, i < w * h → ∃ x y, x < w ∧ y < h ∧ pixelIndex w h x y = i) ∧
    Set.BijOn (fun p : Nat × Nat => pixelIndex w h p.1 p.2)
      {p | p.1 < w ∧ p.2 < h} {i | i < w * h} ∧
    (∀ x, x < w → 0 < h →
      (h - 1) * w ≤ pixelIndex w h x 0 ∧ pixelIndex w h x 0 < (h - 1) * w + w) ∧
    (∀ x y i, pixelIndexInt w h x y = some i → i = (h - y - 1) * w + x) ∧
    (∀ x y, x < w → y < h → w * h < 2 ^ 31 →
      pixelIndexInt w h x y = some ((h - y - 1) * w + x)) ∧
    (∀ (fuel : Nat) (l : List Nat), rowWrites w h fuel 0 = some l →
      l.length = w * h ∧ (∀ i, i < w * h → l.count i = 1) ∧ (∀ i ∈ l, i < w * h)) ∧
    (∀ (fuel : Nat) (cam0 : Ray ℝ) (spheres : List (Sphere ℝ)) (c : List (Vec ℝ)),
      rowLoop Real.sqrt Real.tan Real.pi cam0 spheres w h fuel 0
          (List.replicate (w * h) Vec.zero) = some c →
      (∃ l, rowWrites w h fuel 0 = some l) ∧
      c.length = w * h ∧
      ∀ x y, x < w → y < h →
        ∃ r, radiance Real.sqrt ⟨cam0.o, (pixelDir Real.tan Real.pi w h x y).norm Real.sqrt⟩
            spheres = some r ∧
          c.get? (pixelIndex w h x y)
            = some (Vec.add Vec.zero ⟨clamp r.x, clamp r.y, clamp r.z⟩)) ∧
    (∀ (fuel : Nat) (cam0 : Ray ℝ) (spheres : List (Sphere ℝ)),
      w ≤ 65535 → w * h < 2 ^ 31 → w + h < fuel →
      (∃ l, rowWrites w h fuel 0 = some l) ∧
      ∃ c, rowLoop Real.sqrt Real.tan Real.pi cam0 spheres w h fuel 0
          (List.replicate (w * h) Vec.zero) = some c) := by
  refine ⟨pixelIndex_lt w h, pixelIndex_inj w h, pixelIndex_surj w h, ⟨?_, ?_, ?_⟩, ?_, ?_, ?_,
    ?_, ?_, ?_⟩
  · rintro ⟨x, y⟩ ⟨hx, hy⟩
    exact pixelIndex_lt w h x y hx hy
  · rintro ⟨x, y⟩ ⟨hx, hy⟩ ⟨x1, y1⟩ ⟨hx1, hy1⟩ heq
    obtain ⟨h1, h2⟩ := pixelIndex_inj w h x y x1 y1 hx hy hx1 hy1 heq
    simp [h1, h2]
  · intro i hi
    obtain ⟨x, y, hx, hy, hxy⟩ := pixelIndex_surj w h i hi
    exact ⟨(x, y), ⟨hx, hy⟩, hxy⟩
  · intro x hx _
    unfold pixelIndex
    simp only [Nat.sub_zero]
    omega
  · intro x y i hi
    exact (pixelIndexInt_eq w h x y i hi).1
  · intro x y hx hy hwh
    exact pixelIndexInt_some w h x y hx hy hwh
  · intro fuel l hl
    have hspec := rowWrites_spec w h fuel 0 l (Nat.zero_le h) hl
    rw [Nat.sub_zero] at hspec
    refine ⟨?_, ?_, ?_⟩
    · rw [hspec]
      exact allWrites_length w h
    · intro i hi
      rw [hspec]
      exact allWrites_count w h i hi
    · intro i hi
      rw [hspec] at hi
      exact allWrites_lt w h i hi
  · intro fuel cam0 spheres c hrow
    have hinv := rowLoop_partial Real.sqrt Real.tan Real.pi cam0 spheres w h fuel 0 _ c
      (Nat.zero_le h) (bufferInv_init Real.sqrt Real.tan Real.pi cam0 spheres w h) hrow
    refine ⟨rowLoop_writes Real.sqrt Real.tan Real.pi cam0 spheres w h fuel 0 _ c hrow,
      hinv.1, ?_⟩
    intro x y hx hy
    obtain ⟨r, hr, hget⟩ := hinv.2 x y hx hy
    rw [if_pos (by omega)] at hget
    refine ⟨r, hr, ?_⟩
    rw [hget, Vec.zero_add]
    rfl
  · intro fuel cam0 spheres hw hwh hfuel
    refine ⟨rowWrites_total w h hw hwh fuel 0 (Nat.zero_le h) (by omega), ?_⟩
    obtain ⟨c, hrow, _⟩ := rowLoop_spec Real.sqrt Real.tan Real.pi cam0 spheres w h hw hwh fuel 0
      (List.replicate (w * h) Vec.zero) (Nat.zero_le h) (by omega)
      (bufferInv_init Real.sqrt Real.tan Real.pi cam0 spheres w h)
    exact ⟨c, hrow⟩

/-- Witness for C15: the loops of `main` (`256 x 192`, its scene and camera)
end, and their writes are listed. -/
theorem pixelIndex_bijective_witness :
    (∃ l, rowWrites 256 192 449 0 = some l) ∧
    ∃ c, rowLoop Real.sqrt Real.tan Real.pi (cam Real.sqrt) scene 256 192 449 0
      (List.replicate (256 * 192) Vec.zero) = some c :=
  (pixelIndex_bijective 256 192).2.2.2.2.2.2.2.2.2 449 (cam Real.sqrt) scene
    (by norm_num) (by norm_num) (by norm_num)
/-! ## C17: the floor scenario -/

/-- A scene of one sphere: the flag of the scene-level `intersect` and the
value of `radiance` in terms of the distance of that sphere. -/
lemma radiance_single {K : Type} [LinearOrderedField K] (sqrt : K → K) (r : Ray K)
    (s : Sphere K) :
    (s.intersect sqrt r ≠ 0 ∧ s.intersect sqrt r < 10 ^ 20 →
      (intersect sqrt r 0 [s]).1 = true ∧ radiance sqrt r [s] = some s.c) ∧
    (s.intersect sqrt r = 0 →
      (intersect sqrt r 0 [s]).1 = false ∧ radiance sqrt r [s] = some Vec.zero) := by
  constructor
  · intro hc
    have hloop : intersectLoop sqrt r [s] 0 (10 ^ 20) 0 = (s.intersect sqrt r, 0) := by
      simp only [intersectLoop]; rw [if_pos hc]; rfl
    have hflag : (intersect sqrt r 0 [s]).1 = true := by
      simp only [intersect, hloop, decide_eq_true_eq]; exact hc.2
    refine ⟨hflag, ?_⟩
    simp only [radiance, hflag]
    simp [intersect, hloop, index]
  · intro h0
    have hloop : intersectLoop sqrt r [s] 0 (10 ^ 20) 0 = (10 ^ 20, 0) := by
      simp only [intersectLoop]; rw [if_neg (fun hc => hc.1 h0)]
    have hflag : (intersect sqrt r 0 [s]).1 = false := by
      simp only [intersect, hloop, decide_eq_false_iff_not]; exact lt_irrefl _
    refine ⟨hflag, ?_⟩
    simp only [radiance, hflag]
    rfl

/-- The normalised direction `(a, e, -1) * s` with `s = 1/sqrt(a*a+e*e+1)`. -/
lemma norm_dir (a e : ℝ) :
    ∃ s : ℝ, 0 < s ∧ s ≤ 1 ∧ s * s * (a * a + e * e + 1) = 1 ∧
      Vec.norm Real.sqrt ⟨a, e, -1⟩ = ⟨a * s, e * s, -1 * s⟩ := by
  have hN1 : a * a + e * e + -1 * -1 = a * a + e * e + 1 := by ring
  have hN : (0 : ℝ) < a * a + e * e + 1 := by nlinarith [mul_self_nonneg a, mul_self_nonneg e]
  have hq : 0 < Real.sqrt (a * a + e * e + 1) := Real.sqrt_pos.mpr hN
  have hqq : Real.sqrt (a * a + e * e + 1) * Real.sqrt (a * a + e * e + 1)
      = a * a + e * e + 1 := Real.mul_self_sqrt hN.le
  have hq1 : 1 ≤ Real.sqrt (a * a + e * e + 1) := by
    rw [Real.one_le_sqrt]
    nlinarith [mul_self_nonneg a, mul_self_nonneg e]
  refine ⟨1 / Real.sqrt (a * a + e * e + 1), one_div_pos.mpr hq, ?_, ?_, ?_⟩
  · rw [div_le_one hq]; exact hq1
  · generalize Real.sqrt (a * a + e * e + 1) = q at hq hqq
    have hsplit : 1 / q * (1 / q) * (a * a + e * e + 1) = (a * a + e * e + 1) / (q * q) := by
      field_simp
    rw [hsplit, hqq, div_self hN.ne.symm]
  · simp only [Vec.norm, Vec.mul]
    rw [hN1]

/-- `b` and `det` of the floor sphere seen from the camera position along
`(a, e, -1) * s`. -/
lemma floor_b_det (col : Vec ℝ) (a e s : ℝ) :
    (floorSphere col).bOf ⟨⟨50, 40, 305⟩, ⟨a * s, e * s, -1 * s⟩⟩
      = s * (2234 / 10 - 100040 * e) ∧
    (floorSphere col).detOf ⟨⟨50, 40, 305⟩, ⟨a * s, e * s, -1 * s⟩⟩
      = (s * (2234 / 10 - 100040 * e)) * (s * (2234 / 10 - 100040 * e)) - 805150756 / 100 := by
  constructor
  · simp only [Sphere.bOf, floorSphere, Vec.dot, Vec.sub]; ring
  · simp only [Sphere.detOf, Sphere.bOf, floorSphere, Vec.dot, Vec.sub]; ring

/-- A ray from the camera position that does not point downward misses the
floor sphere. -/
lemma floor_miss (col : Vec ℝ) (a e : ℝ) (he : 0 ≤ e) :
    (floorSphere col).intersect Real.sqrt ⟨⟨50, 40, 305⟩, Vec.norm Real.sqrt ⟨a, e, -1⟩⟩ = 0 := by
  obtain ⟨s, hs0, hs1, _, hnorm⟩ := norm_dir a e
  obtain ⟨hb, hdet⟩ := floor_b_det col a e s
  rw [hnorm, Sphere.intersect_unfold, hdet, hb]
  have hpos : (0 : ℝ) < eps := eps_pos
  generalize hk : (2234 / 10 - 100040 * e : ℝ) = k
  have hk1 : k ≤ 2234 / 10 := by rw [← hk]; linarith
  by_cases hk0 : k ≤ 0
  · have hb0 : s * k ≤ 0 := mul_nonpos_of_nonneg_of_nonpos hs0.le hk0
    split_ifs with h1 h2 h3
    · rfl
    · have := Real.sqrt_nonneg (s * k * (s * k) - 805150756 / 100)
      linarith
    · have hle : Real.sqrt (s * k * (s * k) - 805150756 / 100) ≤ Real.sqrt (s * k * (s * k)) :=
        Real.sqrt_le_sqrt (by linarith)
      rw [Real.sqrt_mul_self_eq_abs, abs_of_nonpos hb0] at hle
      linarith
    · rfl
  · have hk2 : 0 < k := not_le.mp hk0
    have hsk : s * k ≤ 2234 / 10 := by nlinarith
    have hsk0 : 0 ≤ s * k := (mul_pos hs0 hk2).le
    have hneg : s * k * (s * k) - 805150756 / 100 < 0 := by nlinarith
    rw [if_pos hneg]

/-- A ray from the camera position that points downward steeply enough hits
the floor sphere, at a distance below the sentinel. -/
lemma floor_hit (col : Vec ℝ) (a e : ℝ) (ha : a * a ≤ 1) (he : e ≤ -(3 / 20)) (he1 : -1 ≤ e) :
    eps < (floorSphere col).intersect Real.sqrt
        ⟨⟨50, 40, 305⟩, Vec.norm Real.sqrt ⟨a, e, -1⟩⟩ ∧
    (floorSphere col).intersect Real.sqrt
        ⟨⟨50, 40, 305⟩, Vec.norm Real.sqrt ⟨a, e, -1⟩⟩ < 10 ^ 20 := by
  obtain ⟨s, hs0, hs1, hsN, hnorm⟩ := norm_dir a e
  obtain ⟨hb, hdet⟩ := floor_b_det col a e s
  rw [hnorm, Sphere.intersect_unfold, hdet, hb]
  have hpos : (0 : ℝ) < eps := eps_pos
  have heps : (eps : ℝ) < 1 := by unfold eps; norm_num
  generalize hk : (2234 / 10 - 100040 * e : ℝ) = k
  have hk1 : 152294 / 10 ≤ k := by rw [← hk]; linarith
  have hk2 : k ≤ 1002634 / 10 := by rw [← hk]; linarith
  have hee : e * e ≤ 1 := by nlinarith
  have hss : 1 / 3 ≤ s * s := by nlinarith [mul_self_nonneg s]
  have hkk : (152294 / 10 : ℝ) * (152294 / 10) ≤ k * k := by nlinarith
  have hbb : 77000000 ≤ s * k * (s * k) := by
    have : s * k * (s * k) = (s * s) * (k * k) := by ring
    rw [this]
    nlinarith [mul_self_nonneg k]
  have hb0 : 0 < s * k := mul_pos hs0 (by linarith)
  have hb1 : 1 < s * k := by nlinarith
  have hbk : s * k ≤ 1002634 / 10 := by nlinarith
  have hq0 := Real.sqrt_nonneg (s * k * (s * k) - 805150756 / 100)
  have hle : Real.sqrt (s * k * (s * k) - 805150756 / 100) ≤ s * k := by
    have h1 : Real.sqrt (s * k * (s * k) - 805150756 / 100) ≤ Real.sqrt (s * k * (s * k)) :=
      Real.sqrt_le_sqrt (by linarith)
    rw [Real.sqrt_mul_self_eq_abs, abs_of_pos hb0] at h1
    exact h1
  rw [if_neg (by linarith)]
  split_ifs with h2 h3
  · constructor
    · exact h2
    · have : (1002634 / 10 : ℝ) < 10 ^ 20 := by norm_num
      linarith
  · constructor
    · exact h3
    · have : (2 * (1002634 / 10) : ℝ) < 10 ^ 20 := by norm_num
      linarith
  · exfalso; linarith

/-- Bounds on `tan(pi/10)`. -/
lemma tan_pi_div_ten_bounds : 3 / 10 < Real.tan (Real.pi / 10) ∧ Real.tan (Real.pi / 10) < 1 := by
  have hpi3 := Real.pi_gt_three
  have hpi0 := Real.pi_pos
  constructor
  · have h := Real.lt_tan (by linarith : (0 : ℝ) < Real.pi / 10) (by linarith)
    linarith
  · have h := Real.tan_lt_tan_of_nonneg_of_lt_pi_div_two
      (by linarith : (0 : ℝ) ≤ Real.pi / 10) (by linarith : Real.pi / 4 < Real.pi / 2)
      (by linarith : Real.pi / 10 < Real.pi / 4)
    rw [Real.tan_pi_div_four] at h
    exact h

/-- The direction of pixel `(x, y)` of the 4 x 4 image. -/
lemma pixelDir_four (x y : Nat) :
    pixelDir Real.tan Real.pi 4 4 x y
      = ⟨(2 * (x : ℝ) - 4) / 4 * Real.tan (Real.pi / 10),
          (2 * (y : ℝ) - 4) / 4 * Real.tan (Real.pi / 10), -1⟩ := by
  simp only [pixelDir, Nat.cast_ofNat]
  norm_num

/-- C17: the floor sphere (radius 1e5, centre `(50, -1e5, 81.6)`, colour
`col`) rendered at 4 x 4 from the reference camera, with fuel above 8: the
driver outputs 16 triples; for `y` in `{0, 1}` the direction of pixel
`(x, y)` points downward, the ray hits and the output at its index is the
encoded colour of the sphere; for `y` in `{2, 3}` the direction does not
point downward, the ray misses and the output at its index is `(0,0,0)`. -/
theorem render_floor (col : Vec ℝ) (fuel : Nat) (hfuel : 8 < fuel) :
    ∃ out,
      render Real.sqrt Real.rpow Real.tan Real.pi fuel 4 4 (cam Real.sqrt) [floorSphere col]
        = some out ∧
      out.length = 16 ∧
      ∀ x y, x < 4 → y < 4 →
        (y < 2 →
          (pixelDir Real.tan Real.pi 4 4 x y).y < 0 ∧
          (intersect Real.sqrt (pixelRay Real.sqrt Real.tan Real.pi (cam Real.sqrt) 4 4 x y) 0
            [floorSphere col]).1 = true ∧
          out.get? (pixelIndex 4 4 x y)
            = some (toInt Real.rpow col.x, toInt Real.rpow col.y, toInt Real.rpow col.z)) ∧
        (2 ≤ y →
          0 ≤ (pixelDir Real.tan Real.pi 4 4 x y).y ∧
          (intersect Real.sqrt (pixelRay Real.sqrt Real.tan Real.pi (cam Real.sqrt) 4 4 x y) 0
            [floorSphere col]).1 = false ∧
          out.get? (pixelIndex 4 4 x y) = some (0, 0, 0)) := by
  obtain ⟨_, out, _, hren, _, hlen, _, hpix⟩ :=
    render_spec Real.sqrt Real.rpow Real.tan Real.pi (cam Real.sqrt) [floorSphere col] 4 4 fuel
      (by decide) (by decide) (by omega)
  refine ⟨out, hren, hlen, ?_⟩
  intro x y hx hy
  obtain ⟨r, hr, hget⟩ := hpix x y hx hy
  obtain ⟨hT0, hT1⟩ := tan_pi_div_ten_bounds
  have hray : pixelRay Real.sqrt Real.tan Real.pi (cam Real.sqrt) 4 4 x y
      = ⟨⟨50, 40, 305⟩, Vec.norm Real.sqrt
          ⟨(2 * (x : ℝ) - 4) / 4 * Real.tan (Real.pi / 10),
            (2 * (y : ℝ) - 4) / 4 * Real.tan (Real.pi / 10), -1⟩⟩ := by
    simp only [pixelRay, pixelDir_four, cam]
  have hx0 : (0 : ℝ) ≤ (x : ℝ) := Nat.cast_nonneg x
  have hx3 : (x : ℝ) ≤ 3 := by exact_mod_cast Nat.lt_succ_iff.mp hx
  have hy0 : (0 : ℝ) ≤ (y : ℝ) := Nat.cast_nonneg y
  rw [hray] at hr ⊢
  rw [pixelDir_four]
  constructor
  · intro hy2
    have hy1 : (y : ℝ) ≤ 1 := by exact_mod_cast Nat.lt_succ_iff.mp hy2
    have he : (2 * (y : ℝ) - 4) / 4 * Real.tan (Real.pi / 10) ≤ -(3 / 20) := by nlinarith
    have he1 : -1 ≤ (2 * (y : ℝ) - 4) / 4 * Real.tan (Real.pi / 10) := by nlinarith
    have ha : (2 * (x : ℝ) - 4) / 4 * Real.tan (Real.pi / 10)
        * ((2 * (x : ℝ) - 4) / 4 * Real.tan (Real.pi / 10)) ≤ 1 := by
      have h1 : -1 ≤ (2 * (x : ℝ) - 4) / 4 * Real.tan (Real.pi / 10) := by nlinarith
      have h2 : (2 * (x : ℝ) - 4) / 4 * Real.tan (Real.pi / 10) ≤ 1 := by nlinarith
      nlinarith
    obtain ⟨hgt, hlt⟩ := floor_hit col _ _ ha he he1
    have hpos : (0 : ℝ) < eps := eps_pos
    obtain ⟨hflag, hrad⟩ := (radiance_single Real.sqrt _ (floorSphere col)).1
      ⟨(hpos.trans hgt).ne.symm, hlt⟩
    rw [hrad] at hr
    simp only [Option.some.injEq] at hr
    refine ⟨by simp only; linarith, hflag, ?_⟩
    rw [hget, ← hr]
    rfl
  · intro hy2
    have hy2r : (2 : ℝ) ≤ (y : ℝ) := by exact_mod_cast hy2
    have he : 0 ≤ (2 * (y : ℝ) - 4) / 4 * Real.tan (Real.pi / 10) := by
      apply mul_nonneg <;> linarith
    obtain ⟨hflag, hrad⟩ := (radiance_single Real.sqrt _ (floorSphere col)).2
      (floor_miss col _ _ he)
    rw [hrad] at hr
    simp only [Option.some.injEq] at hr
    refine ⟨he, hflag, ?_⟩
    rw [hget, ← hr]
    simp only [encode, Vec.zero, toInt_zero]

/-- Witness for C17: grey floor, fuel 9. -/
theorem render_floor_witness :
    (8 : Nat) < 9 ∧
    ∃ out,
      render Real.sqrt Real.rpow Real.tan Real.pi 9 4 4 (cam Real.sqrt)
        [floorSphere ⟨3 / 4, 3 / 4, 3 / 4⟩] = some out ∧ out.length = 16 := by
  refine ⟨by decide, ?_⟩
  obtain ⟨out, hren, hlen, _⟩ := render_floor ⟨3 / 4, 3 / 4, 3 / 4⟩ 9 (by decide)
  exact ⟨out, hren, hlen⟩
/-! ## Sphere::intersect in `double` arithmetic: basic facts -/

section SelectFacts

variable {K : Type} [LinearOrderedField K]

/-- With a unit direction and a square root `q` of `det`, the points of the
ray on the sphere are exactly `b - q` and `b + q`. -/
lemma Sphere.hitAt_iff_pm (s : Sphere K) (r : Ray K) (q : K) (hd : r.d.dot r.d = 1)
    (hq : q * q = s.detOf r) (t : K) :
    s.hitAt r t ↔ t = s.bOf r - q ∨ t = s.bOf r + q := by
  rw [Sphere.hitAt_iff_unit s r hd]
  constructor
  · intro h
    have h2 : (t - s.bOf r - q) * (t - s.bOf r + q) = 0 := by
      linear_combination h - hq
    rcases mul_eq_zero.mp h2 with h3 | h3
    · right; linarith
    · left; linarith
  · rintro (h | h)
    · rw [h]; linear_combination hq
    · rw [h]; linear_combination hq

lemma Sphere.not_hitAt_of_det_neg (s : Sphere K) (r : Ray K) (hd : r.d.dot r.d = 1)
    (hdet : s.detOf r < 0) (t : K) : ¬ s.hitAt r t := by
  rw [Sphere.hitAt_iff_unit s r hd]
  intro h
  have := sq_nonneg (t - s.bOf r)
  linarith

lemma Sphere.select_cases (e b det q : K) :
    Sphere.select e b det q = 0 ∨ e < Sphere.select e b det q := by
  unfold Sphere.select
  split_ifs with h1 h2 h3
  · exact Or.inl rfl
  · exact Or.inr h2
  · exact Or.inr h3
  · exact Or.inl rfl

/-- For a unit direction, a threshold `e > 0` and a square root `q >= 0` of
`det`: if some `u > e` lies on the sphere, the selected value is such a
point and the least one; and the selected value is 0 exactly when there is
no such point. -/
lemma Sphere.select_nearest (s : Sphere K) (r : Ray K) (e q : K) (he : 0 < e)
    (hd : r.d.dot r.d = 1) (hq : 0 ≤ s.detOf r → 0 ≤ q ∧ q * q = s.detOf r) :
    ((∃ u, e < u ∧ s.hitAt r u) →
      e < Sphere.select e (s.bOf r) (s.detOf r) q ∧
      s.hitAt r (Sphere.select e (s.bOf r) (s.detOf r) q) ∧
      ∀ u, e < u → s.hitAt r u → Sphere.select e (s.bOf r) (s.detOf r) q ≤ u) ∧
    (Sphere.select e (s.bOf r) (s.detOf r) q = 0 ↔ ¬ ∃ u, e < u ∧ s.hitAt r u) := by
  by_cases hdet : s.detOf r < 0
  · have hsel : Sphere.select e (s.bOf r) (s.detOf r) q = 0 := by
      unfold Sphere.select; rw [if_pos hdet]
    refine ⟨?_, ?_⟩
    · rintro ⟨u, _, hu⟩
      exact absurd hu (Sphere.not_hitAt_of_det_neg s r hd hdet u)
    · rw [hsel]
      refine ⟨fun _ => ?_, fun _ => rfl⟩
      rintro ⟨u, _, hu⟩
      exact Sphere.not_hitAt_of_det_neg s r hd hdet u hu
  · obtain ⟨hq0, hqq⟩ := hq (not_lt.mp hdet)
    have hroots := Sphere.hitAt_iff_pm s r q hd hqq
    by_cases h1 : s.bOf r - q > e
    · have hsel : Sphere.select e (s.bOf r) (s.detOf r) q = s.bOf r - q := by
        unfold Sphere.select; rw [if_neg hdet, if_pos h1]
      rw [hsel]
      refine ⟨fun _ => ⟨h1, (hroots _).mpr (Or.inl rfl), ?_⟩, ?_⟩
      · intro u _ hu
        rcases (hroots u).mp hu with h | h <;> linarith
      · refine ⟨fun h0 => ?_, fun hno => ?_⟩
        · rw [h0] at h1; exact absurd h1 (not_lt.mpr he.le)
        · exact absurd ⟨_, h1, (hroots _).mpr (Or.inl rfl)⟩ hno
    · by_cases h2 : s.bOf r + q > e
      · have hsel : Sphere.select e (s.bOf r) (s.detOf r) q = s.bOf r + q := by
          unfold Sphere.select; rw [if_neg hdet, if_neg h1, if_pos h2]
        rw [hsel]
        refine ⟨fun _ => ⟨h2, (hroots _).mpr (Or.inr rfl), ?_⟩, ?_⟩
        · intro u hu1 hu
          rcases (hroots u).mp hu with h | h
          · exact absurd (h ▸ hu1) h1
          · exact h.ge
        · refine ⟨fun h0 => ?_, fun hno => ?_⟩
          · rw [h0] at h2; exact absurd h2 (not_lt.mpr he.le)
          · exact absurd ⟨_, h2, (hroots _).mpr (Or.inr rfl)⟩ hno
      · have hsel : Sphere.select e (s.bOf r) (s.detOf r) q = 0 := by
          unfold Sphere.select; rw [if_neg hdet, if_neg h1, if_neg h2]
        have hno : ¬ ∃ u, e < u ∧ s.hitAt r u := by
          rintro ⟨u, hu1, hu⟩
          rcases (hroots u).mp hu with h | h
          · exact h1 (h ▸ hu1)
          · exact h2 (h ▸ hu1)
        rw [hsel]
        exact ⟨fun hex => absurd hex hno, ⟨fun _ => hno, fun _ => rfl⟩⟩

/-- For `rad >= 0`, a unit direction and `p - o = d * k`: `det = rad^2`, the
square root is `rad`, the ray meets the sphere exactly at `b - rad` and
`b + rad`, and `b - rad` is selected whenever it exceeds the threshold. -/
lemma Sphere.select_through_center (s : Sphere K) (r : Ray K) (e q k : K)
    (hrad : 0 ≤ s.rad) (hd : r.d.dot r.d = 1) (hk : s.p.sub r.o = r.d.mul k)
    (hq : 0 ≤ s.detOf r → 0 ≤ q ∧ q * q = s.detOf r) :
    s.detOf r = s.rad * s.rad ∧ q = s.rad ∧
    (∀ t, s.hitAt r t ↔ t = s.bOf r - s.rad ∨ t = s.bOf r + s.rad) ∧
    (s.bOf r - s.rad > e → Sphere.select e (s.bOf r) (s.detOf r) q = s.bOf r - s.rad) := by
  have hb : s.bOf r = k := by
    unfold Sphere.bOf
    rw [hk]
    simp only [Vec.dot, Vec.mul] at hd ⊢
    linear_combination k * hd
  have hdet : s.detOf r = s.rad * s.rad := by
    unfold Sphere.detOf
    rw [hb, hk]
    simp only [Vec.dot, Vec.mul] at hd ⊢
    linear_combination (-(k * k)) * hd
  have hdet0 : 0 ≤ s.detOf r := by rw [hdet]; exact mul_self_nonneg _
  obtain ⟨hq0, hqq⟩ := hq hdet0
  have hqrad : q = s.rad := by
    have h1 : (q - s.rad) * (q + s.rad) = 0 := by linear_combination hqq + hdet
    rcases mul_eq_zero.mp h1 with h2 | h2
    · linarith
    · have h3 : q = 0 := by linarith
      have h4 : s.rad = 0 := by linarith
      rw [h3, h4]
  have hroots := Sphere.hitAt_iff_pm s r q hd hqq
  rw [hqrad] at hroots
  refine ⟨hdet, hqrad, hroots, ?_⟩
  intro h1
  unfold Sphere.select
  rw [if_neg (not_lt.mpr hdet0), hqrad, if_pos h1]

/-- With the origin on the sphere and the direction pointing outward,
nothing is selected. -/
lemma Sphere.select_on_surface (s : Sphere K) (r : Ray K) (e q : K) (he : 0 < e)
    (hon : (r.o.sub s.p).dot (r.o.sub s.p) = s.rad * s.rad)
    (hout : 0 ≤ (r.o.sub s.p).dot r.d)
    (hq : 0 ≤ s.detOf r → 0 ≤ q ∧ q * q = s.detOf r) :
    s.detOf r = s.bOf r * s.bOf r ∧ q = -s.bOf r ∧
    Sphere.select e (s.bOf r) (s.detOf r) q = 0 := by
  have hb : s.bOf r ≤ 0 := by
    unfold Sphere.bOf Vec.dot Vec.sub
    unfold Vec.dot Vec.sub at hout
    simp only at hout ⊢
    linarith
  have hdet : s.detOf r = s.bOf r * s.bOf r := by
    unfold Sphere.detOf
    unfold Vec.dot Vec.sub at hon ⊢
    simp only at hon ⊢
    linear_combination (-1 : K) * hon
  have hdet0 : 0 ≤ s.detOf r := by rw [hdet]; exact mul_self_nonneg _
  obtain ⟨hq0, hqq⟩ := hq hdet0
  have hqb : q = -s.bOf r := by
    have h1 : (q - s.bOf r) * (q + s.bOf r) = 0 := by linear_combination hqq + hdet
    rcases mul_eq_zero.mp h1 with h2 | h2
    · have h3 : q = 0 := by linarith
      have h4 : s.bOf r = 0 := by linarith
      rw [h3, h4, neg_zero]
    · linarith
  refine ⟨hdet, hqb, ?_⟩
  unfold Sphere.select
  rw [if_neg (not_lt.mpr hdet0), hqb]
  split_ifs with h1 h2
  · linarith
  · linarith
  · rfl

/-- Cauchy-Schwarz for `Vec`, by Lagrange's identity. -/
lemma Vec.dot_sq_le (a d : Vec K) : a.dot d * a.dot d ≤ a.dot a * d.dot d := by
  simp only [Vec.dot]
  nlinarith [sq_nonneg (a.x * d.y - a.y * d.x), sq_nonneg (a.y * d.z - a.z * d.y),
    sq_nonneg (a.z * d.x - a.x * d.z)]

/-- From an origin at distance `m < rad - e` of the centre and along a unit
direction, the far root `b + q` is selected; it exceeds `e`, is at least
`rad - m` and below `2 * rad`. -/
lemma Sphere.select_inside (s : Sphere K) (r : Ray K) (e q m : K) (he : 0 < e)
    (hd : r.d.dot r.d = 1) (hm0 : 0 ≤ m)
    (hm : m * m = (r.o.sub s.p).dot (r.o.sub s.p)) (hin : m < s.rad - e)
    (hq : 0 ≤ s.detOf r → 0 ≤ q ∧ q * q = s.detOf r) :
    0 ≤ s.detOf r ∧
    Sphere.select e (s.bOf r) (s.detOf r) q = s.bOf r + q ∧
    e < Sphere.select e (s.bOf r) (s.detOf r) q ∧
    s.rad - m ≤ Sphere.select e (s.bOf r) (s.detOf r) q ∧
    Sphere.select e (s.bOf r) (s.detOf r) q < 2 * s.rad := by
  have hm2 : m * m = (s.p.sub r.o).dot (s.p.sub r.o) := by
    rw [hm]
    simp only [Vec.dot, Vec.sub]
    ring
  have hcs : s.bOf r * s.bOf r ≤ m * m := by
    have := Vec.dot_sq_le (s.p.sub r.o) r.d
    rw [hd, mul_one, ← hm2] at this
    exact this
  have hbm : -m ≤ s.bOf r ∧ s.bOf r ≤ m := by
    constructor <;> nlinarith
  have hdet : s.detOf r = s.bOf r * s.bOf r - m * m + s.rad * s.rad := by
    unfold Sphere.detOf; rw [hm2]
  have hdet0 : 0 ≤ s.detOf r := by rw [hdet]; nlinarith
  obtain ⟨hq0, hqq⟩ := hq hdet0
  rw [hdet] at hqq
  have hlt : s.bOf r < q := by
    by_contra hcon
    have hle : q ≤ s.bOf r := not_lt.mp hcon
    nlinarith
  have hge : s.rad - m - s.bOf r ≤ q := by
    by_contra hcon
    have hlt2 : q < s.rad - m - s.bOf r := not_le.mp hcon
    nlinarith [mul_nonneg (by linarith : (0 : K) ≤ s.rad - m) (by linarith : 0 ≤ m + s.bOf r)]
  have hle : q ≤ s.rad := by
    by_contra hcon
    have hlt2 : s.rad < q := not_le.mp hcon
    nlinarith
  have hval : Sphere.select e (s.bOf r) (s.detOf r) q = s.bOf r + q := by
    unfold Sphere.select
    rw [if_neg (not_lt.mpr hdet0), if_neg (by linarith), if_pos (by linarith)]
  refine ⟨hdet0, hval, ?_, ?_, ?_⟩ <;> rw [hval] <;> linarith

end SelectFacts

lemma epsD_eq : epsD = Dbl.fin eps64 := by decide!

lemma eps64_pos : 0 < eps64 := by norm_num [eps64]

/-- When the `double` evaluation incurs no rounding, `Sphere::intersect`
returns the value selected from the exact `b`, `det` and `sqrt(det)`. -/
lemma Sphere.intersectD_of_exact (s : Sphere ℚ) (r : Ray ℚ) (hex : s.exactD r) :
    s.dbl.intersectD r.dbl
      = Dbl.fin (Sphere.select eps64 (s.bOf r) (s.detOf r) (s.sqrtDet r)) := by
  obtain ⟨h1, h2, h3, h4⟩ := hex
  have hval : s.dbl.intersectD r.dbl =
      if Dbl.lt (Dbl.fin (s.detOf r)) (Dbl.fin 0) then Dbl.fin 0
      else if Dbl.lt epsD (Dbl.sub (Dbl.fin (s.bOf r)) (Dbl.sqrt (Dbl.fin (s.detOf r)))) then
        Dbl.sub (Dbl.fin (s.bOf r)) (Dbl.sqrt (Dbl.fin (s.detOf r)))
      else if Dbl.lt epsD (Dbl.add (Dbl.fin (s.bOf r)) (Dbl.sqrt (Dbl.fin (s.detOf r)))) then
        Dbl.add (Dbl.fin (s.bOf r)) (Dbl.sqrt (Dbl.fin (s.detOf r)))
      else Dbl.fin 0 := by
    have hp : s.dbl.p = s.p.dbl := rfl
    have ho : r.dbl.o = r.o.dbl := rfl
    have hdd : r.dbl.d = r.d.dbl := rfl
    have hr : s.dbl.rad = Dbl.fin s.rad := rfl
    simp only [Sphere.intersectD, hp, ho, hdd, hr, h1, h2, h3]
  rw [hval]
  unfold Sphere.select
  by_cases hdet : s.detOf r < 0
  · have hlt : Dbl.lt (Dbl.fin (s.detOf r)) (Dbl.fin 0) = true := by
      simp only [Dbl.lt, decide_eq_true_eq]; exact hdet
    rw [if_pos hlt, if_pos hdet]
  · have hlt : ¬ (Dbl.lt (Dbl.fin (s.detOf r)) (Dbl.fin 0) = true) := by
      simp only [Dbl.lt, decide_eq_true_eq]; exact hdet
    obtain ⟨hs, _, _, hsub, hadd⟩ := h4 (not_lt.mp hdet)
    rw [if_neg hlt, if_neg hdet, hs, hsub, hadd, epsD_eq]
    simp only [Dbl.lt, decide_eq_true_eq, gt_iff_lt]
    split_ifs <;> rfl

lemma Sphere.exactD_sqrt (s : Sphere ℚ) (r : Ray ℚ) (hex : s.exactD r) :
    0 ≤ s.detOf r → 0 ≤ s.sqrtDet r ∧ s.sqrtDet r * s.sqrtDet r = s.detOf r :=
  fun h => ⟨(hex.2.2.2 h).2.1, (hex.2.2.2 h).2.2.1⟩

/-! ### From rational to real values -/

lemma Vec.real_dot (a b : Vec ℚ) : a.real.dot b.real = ((a.dot b : ℚ) : ℝ) := by
  simp only [Vec.dot, Vec.real]; push_cast; ring

lemma Vec.real_sub (a b : Vec ℚ) : a.real.sub b.real = (a.sub b).real := by
  simp only [Vec.sub, Vec.real]; push_cast; rfl

lemma Vec.real_mul (a : Vec ℚ) (k : ℚ) : a.real.mul (k : ℝ) = (a.mul k).real := by
  simp only [Vec.mul, Vec.real]; push_cast; rfl

lemma Sphere.real_bOf (s : Sphere ℚ) (r : Ray ℚ) : s.real.bOf r.real = ((s.bOf r : ℚ) : ℝ) := by
  simp only [Sphere.bOf, Sphere.real, Ray.real, Vec.real_sub, Vec.real_dot]

lemma Sphere.real_detOf (s : Sphere ℚ) (r : Ray ℚ) :
    s.real.detOf r.real = ((s.detOf r : ℚ) : ℝ) := by
  unfold Sphere.detOf
  rw [Sphere.real_bOf]
  simp only [Sphere.real, Ray.real, Vec.real_sub, Vec.real_dot]
  push_cast; ring

lemma Sphere.select_cast (e b det q : ℚ) :
    ((Sphere.select e b det q : ℚ) : ℝ) = Sphere.select (e : ℝ) (b : ℝ) (det : ℝ) (q : ℝ) := by
  unfold Sphere.select
  have h0 : ((det : ℝ) < 0) ↔ det < 0 := by exact_mod_cast Iff.rfl
  have h1 : ((b : ℝ) - (q : ℝ) > (e : ℝ)) ↔ b - q > e := by exact_mod_cast Iff.rfl
  have h2 : ((b : ℝ) + (q : ℝ) > (e : ℝ)) ↔ b + q > e := by exact_mod_cast Iff.rfl
  simp only [h0, h1, h2]
  split_ifs <;> push_cast <;> rfl

/-- The facts on the selected value, for a sphere and a ray of `double`s
whose evaluation incurs no rounding, stated over the reals. -/
lemma Sphere.real_sqrt (s : Sphere ℚ) (r : Ray ℚ) (hex : s.exactD r) :
    0 ≤ s.real.detOf r.real →
      0 ≤ ((s.sqrtDet r : ℚ) : ℝ) ∧
      ((s.sqrtDet r : ℚ) : ℝ) * ((s.sqrtDet r : ℚ) : ℝ) = s.real.detOf r.real := by
  intro h
  rw [Sphere.real_detOf] at h ⊢
  have h0 : 0 ≤ s.detOf r := by exact_mod_cast h
  obtain ⟨ha, hb⟩ := Sphere.exactD_sqrt s r hex h0
  exact ⟨by exact_mod_cast ha, by exact_mod_cast hb⟩

lemma Sphere.real_select (s : Sphere ℚ) (r : Ray ℚ) :
    ((Sphere.select eps64 (s.bOf r) (s.detOf r) (s.sqrtDet r) : ℚ) : ℝ)
      = Sphere.select ((eps64 : ℚ) : ℝ) (s.real.bOf r.real) (s.real.detOf r.real)
          ((s.sqrtDet r : ℚ) : ℝ) := by
  rw [Sphere.select_cast, Sphere.real_bOf, Sphere.real_detOf]

lemma Ray.real_unit (r : Ray ℚ) (hd : r.d.dot r.d = 1) : r.real.d.dot r.real.d = 1 := by
  show r.d.real.dot r.d.real = 1
  rw [Vec.real_dot, hd]; norm_num

lemma eps64_real_pos : (0 : ℝ) < ((eps64 : ℚ) : ℝ) := by exact_mod_cast eps64_pos

/-! ## Rounding: facts used for C14 -/

lemma bitLen_spec : ∀ (fuel n : Nat), n ≤ fuel →
    n < 2 ^ bitLen fuel n ∧ (0 < n → 2 ^ (bitLen fuel n - 1) ≤ n) := by
  intro fuel
  induction fuel with
  | zero =>
    intro n hn
    have h0 : n = 0 := by omega
    subst h0
    exact ⟨by simp [bitLen], fun h => absurd h (lt_irrefl _)⟩
  | succ fuel ih =>
    intro n hn
    by_cases h0 : n = 0
    · subst h0
      exact ⟨by simp [bitLen], fun h => absurd h (lt_irrefl _)⟩
    · have hb : bitLen (fuel + 1) n = bitLen fuel (n / 2) + 1 := by
        simp [bitLen, h0]
      obtain ⟨h1, h2⟩ := ih (n / 2) (by omega)
      rw [hb]
      refine ⟨?_, fun _ => ?_⟩
      · rw [pow_succ]; omega
      · rw [Nat.add_sub_cancel]
        by_cases hhalf : n / 2 = 0
        · have hB : bitLen fuel (n / 2) = 0 := by
            rw [hhalf]; cases fuel <;> simp [bitLen]
          rw [hB]; simp; omega
        · have h3 := h2 (Nat.pos_of_ne_zero hhalf)
          have hB : 1 ≤ bitLen fuel (n / 2) := by
            by_contra hcon
            have hB0 : bitLen fuel (n / 2) = 0 := by omega
            rw [hB0] at h1
            simp at h1
            exact hhalf h1
          have hsplit : bitLen fuel (n / 2) = (bitLen fuel (n / 2) - 1) + 1 := by omega
          rw [hsplit, pow_succ]
          omega

/-- For a positive rational, `2 ^ ilog2 a <= a`. -/
lemma ilog2_le (a : ℚ) (ha : 0 < a) : (2 : ℚ) ^ ilog2 a ≤ a := by
  unfold ilog2
  simp only
  split_ifs with h
  · exact h
  · have hnum : 0 < a.num := Rat.num_pos.mpr ha
    have hN : 0 < a.num.natAbs := Int.natAbs_pos.mpr hnum.ne.symm
    obtain ⟨_, hlo⟩ := bitLen_spec a.num.natAbs a.num.natAbs (le_refl _)
    obtain ⟨hhi, _⟩ := bitLen_spec a.den a.den (le_refl _)
    have hlo2 := hlo hN
    have hB : 1 ≤ bitLen a.num.natAbs a.num.natAbs := by
      by_contra hcon
      have hB0 : bitLen a.num.natAbs a.num.natAbs = 0 := by omega
      have hlt := (bitLen_spec a.num.natAbs a.num.natAbs (le_refl _)).1
      rw [hB0, pow_zero] at hlt
      exact hN.ne.symm (Nat.lt_one_iff.mp hlt)
    have hden : (0 : ℚ) < a.den := by exact_mod_cast a.den_pos
    have hNq : ((2 : ℚ) ^ (bitLen a.num.natAbs a.num.natAbs - 1)) ≤ (a.num.natAbs : ℚ) := by
      exact_mod_cast hlo2
    have hDq : (a.den : ℚ) ≤ (2 : ℚ) ^ bitLen a.den a.den := by
      exact_mod_cast hhi.le
    have hnumq : ((a.num.natAbs : ℚ)) = (a.num : ℚ) := by
      rw [← Int.cast_natCast, Int.natAbs_of_nonneg hnum.le]
    have hp : (0 : ℚ) < (2 : ℚ) ^ bitLen a.den a.den := by positivity
    have hN0 : (0 : ℚ) ≤ (a.num.natAbs : ℚ) := by positivity
    have key : (2 : ℚ) ^ (bitLen a.num.natAbs a.num.natAbs - 1) / (2 : ℚ) ^ bitLen a.den a.den
        ≤ (a.num : ℚ) / (a.den : ℚ) := by
      rw [← hnumq, div_le_div_iff₀ hp hden]
      calc (2 : ℚ) ^ (bitLen a.num.natAbs a.num.natAbs - 1) * (a.den : ℚ)
          ≤ (a.num.natAbs : ℚ) * (a.den : ℚ) := mul_le_mul_of_nonneg_right hNq hden.le
        _ ≤ (a.num.natAbs : ℚ) * (2 : ℚ) ^ bitLen a.den a.den :=
            mul_le_mul_of_nonneg_left hDq hN0
    have hexp : ∀ (B D : Nat), 1 ≤ B →
        (2 : ℚ) ^ ((B : Int) - (D : Int) - 1) = (2 : ℚ) ^ (B - 1) / (2 : ℚ) ^ D := by
      intro B D hB1
      have h1 : ((B : Int) - (D : Int) - 1) = ((B - 1 : Nat) : Int) - (D : Int) := by omega
      rw [h1, zpow_sub₀ (by norm_num : (2 : ℚ) ≠ 0), zpow_natCast, zpow_natCast]
    rw [hexp _ _ hB]
    calc _ ≤ (a.num : ℚ) / (a.den : ℚ) := key
      _ = a := Rat.num_div_den a

lemma roundEven_ge_floor (s : ℚ) : Int.floor s ≤ roundEven s := by
  unfold roundEven
  simp only
  split_ifs <;> omega

/-- Rounding never yields NaN. -/
lemma rnd_ne_nan (q : ℚ) : rnd q ≠ Dbl.nan := by
  unfold rnd
  simp only
  split_ifs <;> exact Dbl.noConfusion

/-- Rounding of a rational that is at least the integer `c`, `c` being 0 or
1, is a `double` that is at least `c`. -/
lemma rnd_atLeast_zero (q : ℚ) (hq : 0 ≤ q) : Dbl.atLeast 0 (rnd q) := by
  unfold rnd
  simp only
  have hnot : ¬ q < 0 := not_lt.mpr hq
  split_ifs with h0 h1
  · exact le_refl _
  · simp [Dbl.atLeast, hnot]
  · show (0 : ℚ) ≤ _
    have hfl : 0 ≤ Int.floor (|q| / (2 : ℚ) ^ max (ilog2 |q| - 52) (-1074)) := by
      apply Int.floor_nonneg.mpr
      positivity
    have hR := roundEven_ge_floor (|q| / (2 : ℚ) ^ max (ilog2 |q| - 52) (-1074))
    have hRq : (0 : ℚ) ≤ (roundEven (|q| / (2 : ℚ) ^ max (ilog2 |q| - 52) (-1074)) : ℚ) := by
      exact_mod_cast hfl.trans hR
    positivity

lemma rnd_atLeast_one (q : ℚ) (hq : 1 ≤ q) : Dbl.atLeast 1 (rnd q) := by
  have hq0 : 0 < q := lt_of_lt_of_le one_pos hq
  have habs : |q| = q := abs_of_pos hq0
  have hnot : ¬ q < 0 := not_lt.mpr hq0.le
  have hmain : (1 : ℚ) ≤ (roundEven (q / (2 : ℚ) ^ max (ilog2 q - 52) (-1074)) : ℚ)
      * (2 : ℚ) ^ max (ilog2 q - 52) (-1074) := by
    generalize he : max (ilog2 q - 52) (-1074) = e
    have hpe : (0 : ℚ) < (2 : ℚ) ^ e := by positivity
    by_cases hle : e ≤ 0
    · -- `2 ^ (-e)` is an integer, and `q / 2 ^ e` is at least this integer
      obtain ⟨n, hn⟩ : ∃ n : Nat, -e = (n : Int) := ⟨(-e).toNat, (Int.toNat_of_nonneg (by omega)).symm⟩
      have hint : ((2 : ℚ) ^ (-e)) = (((2 : Int) ^ n : Int) : ℚ) := by
        rw [hn, zpow_natCast]
        push_cast
        rfl
      have hs : (((2 : Int) ^ n : Int) : ℚ) ≤ q / (2 : ℚ) ^ e := by
        rw [← hint, zpow_neg, le_div_iff₀ hpe, inv_mul_cancel₀ hpe.ne.symm]
        exact hq
      have hfl : ((2 : Int) ^ n : Int) ≤ Int.floor (q / (2 : ℚ) ^ e) := Int.le_floor.mpr hs
      have hR : (((2 : Int) ^ n : Int) : ℚ) ≤ (roundEven (q / (2 : ℚ) ^ e) : ℚ) := by
        exact_mod_cast hfl.trans (roundEven_ge_floor _)
      calc (1 : ℚ) = (2 : ℚ) ^ (-e) * (2 : ℚ) ^ e := by
            rw [zpow_neg, inv_mul_cancel₀ hpe.ne.symm]
        _ = (((2 : Int) ^ n : Int) : ℚ) * (2 : ℚ) ^ e := by rw [hint]
        _ ≤ (roundEven (q / (2 : ℚ) ^ e) : ℚ) * (2 : ℚ) ^ e :=
            mul_le_mul_of_nonneg_right hR hpe.le
    · have hepos : 0 < e := not_le.mp hle
      have heq : e = ilog2 q - 52 := by
        rw [← he]
        rcases max_cases (ilog2 q - 52) (-1074) with ⟨h1, _⟩ | ⟨h1, _⟩
        · exact h1
        · rw [h1] at he; omega
      have hlog := ilog2_le q hq0
      have hs : ((2 ^ 52 : Int) : ℚ) ≤ q / (2 : ℚ) ^ e := by
        rw [le_div_iff₀ hpe]
        have : ((2 ^ 52 : Int) : ℚ) * (2 : ℚ) ^ e = (2 : ℚ) ^ ilog2 q := by
          have h52 : ((2 ^ 52 : Int) : ℚ) = (2 : ℚ) ^ (52 : Int) := by norm_num
          rw [h52, ← zpow_add₀ (by norm_num : (2 : ℚ) ≠ 0), heq]
          congr 1
          omega
        rw [this]
        exact hlog
      have hfl : (2 ^ 52 : Int) ≤ Int.floor (q / (2 : ℚ) ^ e) := Int.le_floor.mpr hs
      have hR : (1 : ℚ) ≤ (roundEven (q / (2 : ℚ) ^ e) : ℚ) := by
        have h1 : (1 : Int) ≤ roundEven (q / (2 : ℚ) ^ e) :=
          le_trans (by norm_num) (hfl.trans (roundEven_ge_floor _))
        exact_mod_cast h1
      have hpe1 : (1 : ℚ) ≤ (2 : ℚ) ^ e := one_le_zpow₀ (by norm_num) hepos.le
      calc (1 : ℚ) = 1 * 1 := by norm_num
        _ ≤ (roundEven (q / (2 : ℚ) ^ e) : ℚ) * (2 : ℚ) ^ e :=
            mul_le_mul hR hpe1 (by norm_num) (le_trans (by norm_num) hR)
  unfold rnd
  simp only
  rw [habs]
  split_ifs with h0 h1
  · exact absurd h0 hq0.ne.symm
  · simp [Dbl.atLeast, hnot]
  · exact hmain
/-! ## Rounding: relative error -/

/-- For a positive rational, `a < 2 ^ (ilog2 a + 1)`. -/
lemma ilog2_lt (a : ℚ) (ha : 0 < a) : a < (2 : ℚ) ^ (ilog2 a + 1) := by
  unfold ilog2
  simp only
  split_ifs with h
  · have hnum : 0 < a.num := Rat.num_pos.mpr ha
    have hN : 0 < a.num.natAbs := Int.natAbs_pos.mpr hnum.ne.symm
    obtain ⟨hhi, _⟩ := bitLen_spec a.num.natAbs a.num.natAbs (le_refl _)
    obtain ⟨hDhi, hlo⟩ := bitLen_spec a.den a.den (le_refl _)
    have hlo2 := hlo a.den_pos
    have hD : 1 ≤ bitLen a.den a.den := by
      by_contra hcon
      have hB0 : bitLen a.den a.den = 0 := by omega
      rw [hB0, pow_zero] at hDhi
      exact a.den_pos.ne.symm (Nat.lt_one_iff.mp hDhi)
    have hden : (0 : ℚ) < a.den := by exact_mod_cast a.den_pos
    have hNq : (a.num.natAbs : ℚ) < (2 : ℚ) ^ bitLen a.num.natAbs a.num.natAbs := by
      exact_mod_cast hhi
    have hDq : (2 : ℚ) ^ (bitLen a.den a.den - 1) ≤ (a.den : ℚ) := by
      exact_mod_cast hlo2
    have hnumq : ((a.num.natAbs : ℚ)) = (a.num : ℚ) := by
      rw [← Int.cast_natCast, Int.natAbs_of_nonneg hnum.le]
    have hp : (0 : ℚ) < (2 : ℚ) ^ (bitLen a.den a.den - 1) := by positivity
    have key : (a.num : ℚ) / (a.den : ℚ)
        < (2 : ℚ) ^ bitLen a.num.natAbs a.num.natAbs / (2 : ℚ) ^ (bitLen a.den a.den - 1) := by
      rw [← hnumq, div_lt_div_iff₀ hden hp]
      calc (a.num.natAbs : ℚ) * (2 : ℚ) ^ (bitLen a.den a.den - 1)
          ≤ (a.num.natAbs : ℚ) * (a.den : ℚ) :=
            mul_le_mul_of_nonneg_left hDq (by positivity)
        _ < (2 : ℚ) ^ bitLen a.num.natAbs a.num.natAbs * (a.den : ℚ) :=
            mul_lt_mul_of_pos_right hNq hden
    have hexp : ∀ (B D : Nat), 1 ≤ D →
        (2 : ℚ) ^ ((B : Int) - (D : Int) + 1) = (2 : ℚ) ^ B / (2 : ℚ) ^ (D - 1) := by
      intro B D hD1
      have h1 : ((B : Int) - (D : Int) + 1) = (B : Int) - ((D - 1 : Nat) : Int) := by omega
      rw [h1, zpow_sub₀ (by norm_num : (2 : ℚ) ≠ 0), zpow_natCast, zpow_natCast]
    rw [hexp _ _ hD]
    calc a = (a.num : ℚ) / (a.den : ℚ) := (Rat.num_div_den a).symm
      _ < _ := key
  · have h1 : (↑(bitLen a.num.natAbs a.num.natAbs) - ↑(bitLen a.den a.den) - 1 + 1 : Int)
        = ↑(bitLen a.num.natAbs a.num.natAbs) - ↑(bitLen a.den a.den) := by ring
    rw [h1]
    exact not_le.mp h

lemma roundEven_err (s : ℚ) : |(roundEven s : ℚ) - s| ≤ 1 / 2 := by
  have hf1 : (Int.floor s : ℚ) ≤ s := Int.floor_le s
  have hf2 : s < (Int.floor s : ℚ) + 1 := Int.lt_floor_add_one s
  unfold roundEven
  simp only
  rw [abs_le]
  split_ifs with h1 h2 h3
  · constructor <;> linarith
  · push_cast; constructor <;> linarith
  · have h4 : s - (Int.floor s : ℚ) = 1 / 2 := le_antisymm (not_lt.mp h2) (not_lt.mp h1)
    constructor <;> linarith
  · have h4 : s - (Int.floor s : ℚ) = 1 / 2 := le_antisymm (not_lt.mp h2) (not_lt.mp h1)
    push_cast; constructor <;> linarith

/-- Rounding a positive rational of the normal range: the relative error is
at most `2^-53`. -/
lemma rnd_pos_rel (q : ℚ) (h1 : (2 : ℚ) ^ (-1022 : Int) ≤ q) (h2 : q ≤ (2 : ℚ) ^ (1023 : Int)) :
    ∃ v : ℚ, rnd q = Dbl.fin v ∧ q * (1 - 1 / 2 ^ 53) ≤ v ∧ v ≤ q * (1 + 1 / 2 ^ 53) := by
  have hq0 : 0 < q := lt_of_lt_of_le (by positivity) h1
  have habs : |q| = q := abs_of_pos hq0
  have hnot : ¬ q < 0 := not_lt.mpr hq0.le
  have hlo := ilog2_le q hq0
  have hhi := ilog2_lt q hq0
  have hL : -1022 ≤ ilog2 q := by
    by_contra hcon
    have h3 : ilog2 q + 1 ≤ -1022 := by omega
    have h4 : (2 : ℚ) ^ (ilog2 q + 1) ≤ (2 : ℚ) ^ (-1022 : Int) :=
      zpow_le_zpow_right₀ (by norm_num) h3
    linarith
  have he : max (ilog2 q - 52) (-1074) = ilog2 q - 52 := max_eq_left (by omega)
  have hpe : (0 : ℚ) < (2 : ℚ) ^ (ilog2 q - 52) := by positivity
  have hrel : (2 : ℚ) ^ (ilog2 q - 52) ≤ q * (1 / 2 ^ 52) := by
    rw [zpow_sub₀ (by norm_num : (2 : ℚ) ≠ 0)]
    have h52 : ((2 : ℚ) ^ (52 : Int)) = 2 ^ 52 := by norm_num
    rw [h52, div_eq_mul_one_div]
    exact mul_le_mul_of_nonneg_right hlo (by positivity)
  have herr := roundEven_err (q / (2 : ℚ) ^ (ilog2 q - 52))
  rw [abs_le] at herr
  have hv1 : q - (2 : ℚ) ^ (ilog2 q - 52) / 2 ≤
      (roundEven (q / (2 : ℚ) ^ (ilog2 q - 52)) : ℚ) * (2 : ℚ) ^ (ilog2 q - 52) := by
    have := mul_le_mul_of_nonneg_right herr.1 hpe.le
    rw [sub_mul, div_mul_cancel₀ _ hpe.ne.symm] at this
    linarith
  have hv2 : (roundEven (q / (2 : ℚ) ^ (ilog2 q - 52)) : ℚ) * (2 : ℚ) ^ (ilog2 q - 52)
      ≤ q + (2 : ℚ) ^ (ilog2 q - 52) / 2 := by
    have := mul_le_mul_of_nonneg_right herr.2 hpe.le
    rw [sub_mul, div_mul_cancel₀ _ hpe.ne.symm] at this
    linarith
  have hbig : ¬ ((2 : ℚ) ^ (1024 : Int) ≤
      (roundEven (q / (2 : ℚ) ^ (ilog2 q - 52)) : ℚ) * (2 : ℚ) ^ (ilog2 q - 52)) := by
    intro hcon
    have h3 : (2 : ℚ) ^ (1024 : Int) = 2 * (2 : ℚ) ^ (1023 : Int) := by
      rw [show (1024 : Int) = 1 + 1023 by norm_num, zpow_add₀ (by norm_num : (2 : ℚ) ≠ 0)]
      norm_num
    have h4 : q * (1 / 2 ^ 52) ≤ q / 2 := by
      rw [div_eq_mul_one_div q 2]
      exact mul_le_mul_of_nonneg_left (by norm_num) hq0.le
    linarith
  refine ⟨(roundEven (q / (2 : ℚ) ^ (ilog2 q - 52)) : ℚ) * (2 : ℚ) ^ (ilog2 q - 52), ?_, ?_, ?_⟩
  · unfold rnd
    simp only
    rw [habs, he, if_neg hq0.ne.symm, if_neg hbig, if_neg hnot]
  · have : q * (1 - 1 / 2 ^ 53) = q - q * (1 / 2 ^ 52) / 2 := by ring
    rw [this]; linarith
  · have : q * (1 + 1 / 2 ^ 53) = q + q * (1 / 2 ^ 52) / 2 := by ring
    rw [this]; linarith

lemma rnd_neg (q : ℚ) : rnd (-q) = Dbl.neg (rnd q) := by
  by_cases h0 : q = 0
  · subst h0; simp [rnd, Dbl.neg]
  · have hn0 : -q ≠ 0 := neg_ne_zero.mpr h0
    unfold rnd
    simp only [abs_neg, if_neg h0, if_neg hn0]
    by_cases hneg : q < 0
    · have hpos : ¬ (-q < 0) := by linarith
      split_ifs <;> simp_all [Dbl.neg]
    · have hpos : -q < 0 := by
        rcases lt_or_gt_of_ne h0 with h | h
        · exact absurd h hneg
        · linarith
      split_ifs <;> simp_all [Dbl.neg]

lemma isqrtAux_spec : ∀ (b n r : Nat), r * r ≤ n → n < (r + 2 ^ b) * (r + 2 ^ b) →
    isqrtAux b n r * isqrtAux b n r ≤ n ∧ n < (isqrtAux b n r + 1) * (isqrtAux b n r + 1) := by
  intro b
  induction b with
  | zero =>
    intro n r h1 h2
    simpa [isqrtAux] using And.intro h1 h2
  | succ b ih =>
    intro n r h1 h2
    simp only [isqrtAux]
    split_ifs with h
    · apply ih n (r + 2 ^ b) h
      have : r + 2 ^ b + 2 ^ b = r + 2 ^ (b + 1) := by rw [pow_succ]; ring
      rw [this]; exact h2
    · exact ih n r h1 (not_le.mp h)

lemma isqrt_spec (n : Nat) : isqrt n * isqrt n ≤ n ∧ n < (isqrt n + 1) * (isqrt n + 1) := by
  unfold isqrt
  apply isqrtAux_spec
  · simp
  · have h1 := (bitLen_spec n n (le_refl _)).1
    have h2 : 1 ≤ 2 ^ bitLen n n := Nat.one_le_two_pow
    calc n < 2 ^ bitLen n n := h1
      _ = 2 ^ bitLen n n * 1 := (Nat.mul_one _).symm
      _ ≤ 2 ^ bitLen n n * 2 ^ bitLen n n := Nat.mul_le_mul_left _ h2
      _ = (0 + 2 ^ bitLen n n) * (0 + 2 ^ bitLen n n) := by rw [Nat.zero_add]

/-- The correctly rounded square root of a positive rational: the result
`v` is positive and `a` lies between the squares of `v (1 - 2^-53)` and
`v (1 + 2^-53)`. -/
lemma rndSqrt_rel (a : ℚ) (ha : 0 < a) :
    ∃ v : ℚ, rndSqrt a = Dbl.fin v ∧ 0 < v ∧
      (v * (1 - 1 / 2 ^ 53)) * (v * (1 - 1 / 2 ^ 53)) ≤ a ∧
      a ≤ (v * (1 + 1 / 2 ^ 53)) * (v * (1 + 1 / 2 ^ 53)) := by
  have hlo := ilog2_le a ha
  generalize hL : ilog2 a = L at hlo
  generalize he : L / 2 - 52 = e
  have h2e : 2 * e + 104 ≤ L := by
    have := Int.ediv_mul_le L (by norm_num : (2 : Int) ≠ 0)
    omega
  have hp2e : (0 : ℚ) < (2 : ℚ) ^ (2 * e) := by positivity
  have hpe : (0 : ℚ) < (2 : ℚ) ^ e := by positivity
  have hsq : (2 : ℚ) ^ (2 * e) = (2 : ℚ) ^ e * (2 : ℚ) ^ e := by
    rw [two_mul, zpow_add₀ (by norm_num : (2 : ℚ) ≠ 0)]
  -- the scaled argument is at least `2^104`
  have hx : ((2 : ℚ) ^ (104 : Nat)) ≤ a / (2 : ℚ) ^ (2 * e) := by
    rw [le_div_iff₀ hp2e]
    have h1 : ((2 : ℚ) ^ (104 : Nat)) * (2 : ℚ) ^ (2 * e) = (2 : ℚ) ^ (2 * e + 104) := by
      rw [zpow_add₀ (by norm_num : (2 : ℚ) ≠ 0), mul_comm]
      norm_num
    rw [h1]
    exact le_trans (zpow_le_zpow_right₀ (by norm_num) h2e) hlo
  generalize hxdef : a / (2 : ℚ) ^ (2 * e) = x at hx
  have hx0 : 0 ≤ x := le_trans (by positivity) hx
  have hF0 : 0 ≤ Int.floor x := Int.floor_nonneg.mpr hx0
  generalize hn : (Int.floor x).toNat = n
  have hnF : ((n : Int)) = Int.floor x := by rw [← hn]; exact Int.toNat_of_nonneg hF0
  have hnx : (n : ℚ) ≤ x := by
    have : ((n : Int) : ℚ) ≤ x := by rw [hnF]; exact Int.floor_le x
    exact_mod_cast this
  have hxn : x < (n : ℚ) + 1 := by
    have : x < ((n : Int) : ℚ) + 1 := by rw [hnF]; exact Int.lt_floor_add_one x
    exact_mod_cast this
  have hn104 : 2 ^ 104 ≤ n := by
    have h1 : ((2 ^ 104 : Int)) ≤ Int.floor x := by
      apply Int.le_floor.mpr
      exact_mod_cast hx
    rw [← hnF] at h1
    exact_mod_cast h1
  obtain ⟨hf1, hf2⟩ := isqrt_spec n
  generalize hf : isqrt n = f at hf1 hf2
  have hf52 : 2 ^ 52 ≤ f := by
    by_contra hcon
    have h1 : f + 1 ≤ 2 ^ 52 := by omega
    have h2 : (f + 1) * (f + 1) ≤ 2 ^ 52 * 2 ^ 52 := Nat.mul_le_mul h1 h1
    have h3 : (2 : Nat) ^ 52 * 2 ^ 52 = 2 ^ 104 := by norm_num
    omega
  have hfq1 : (f : ℚ) * (f : ℚ) ≤ x := by
    have : ((f * f : Nat) : ℚ) ≤ (n : ℚ) := by exact_mod_cast hf1
    push_cast at this
    linarith
  have hfq2 : x < ((f : ℚ) + 1) * ((f : ℚ) + 1) := by
    have h1 : n + 1 ≤ (f + 1) * (f + 1) := hf2
    have : ((n + 1 : Nat) : ℚ) ≤ (((f + 1) * (f + 1) : Nat) : ℚ) := by exact_mod_cast h1
    push_cast at this
    linarith
  have hfq52 : (2 : ℚ) ^ 52 ≤ (f : ℚ) := by exact_mod_cast hf52
  -- the chosen integer `m` is within 1/2 of the square root
  have hm : ∃ m : Nat, (rndSqrt a = Dbl.fin ((m : ℚ) * (2 : ℚ) ^ e)) ∧ (2 : ℚ) ^ 52 ≤ (m : ℚ) ∧
      ((m : ℚ) - 1 / 2) * ((m : ℚ) - 1 / 2) ≤ x ∧ x ≤ ((m : ℚ) + 1 / 2) * ((m : ℚ) + 1 / 2) := by
    have hval : rndSqrt a = Dbl.fin (((if x < ((f : ℚ) + 1 / 2) * ((f : ℚ) + 1 / 2) then f
        else if ((f : ℚ) + 1 / 2) * ((f : ℚ) + 1 / 2) < x then f + 1
        else if f % 2 = 0 then f else f + 1 : Nat) : ℚ) * (2 : ℚ) ^ e) := by
      unfold rndSqrt
      simp only
      rw [hL, he, hxdef, hn, hf]
    rw [hval]
    have hf1q : (1 : ℚ) ≤ (f : ℚ) := le_trans (by norm_num) hfq52
    have e1 : ((f : ℚ) - 1 / 2) * ((f : ℚ) - 1 / 2) = (f : ℚ) * (f : ℚ) - (f : ℚ) + 1 / 4 := by
      ring
    have e2 : ((f : ℚ) + 1 + 1 / 2) * ((f : ℚ) + 1 + 1 / 2)
        = ((f : ℚ) + 1) * ((f : ℚ) + 1) + (f : ℚ) + 5 / 4 := by ring
    have e3 : ((f : ℚ) + 1 - 1 / 2) * ((f : ℚ) + 1 - 1 / 2)
        = ((f : ℚ) + 1 / 2) * ((f : ℚ) + 1 / 2) := by ring
    split_ifs with c1 c2 c3
    · refine ⟨f, rfl, hfq52, ?_, c1.le⟩
      rw [e1]; linarith
    · refine ⟨f + 1, rfl, by push_cast; linarith, ?_, ?_⟩
      · push_cast; rw [e3]; exact c2.le
      · push_cast; rw [e2]; linarith
    · have heq : x = ((f : ℚ) + 1 / 2) * ((f : ℚ) + 1 / 2) :=
        le_antisymm (not_lt.mp c2) (not_lt.mp c1)
      refine ⟨f, rfl, hfq52, ?_, heq.le⟩
      rw [e1]; linarith
    · have heq : x = ((f : ℚ) + 1 / 2) * ((f : ℚ) + 1 / 2) :=
        le_antisymm (not_lt.mp c2) (not_lt.mp c1)
      refine ⟨f + 1, rfl, by push_cast; linarith, ?_, ?_⟩
      · push_cast; rw [e3]; exact heq.ge
      · push_cast; rw [e2]; linarith
  obtain ⟨m, hres, hm52, hm1, hm2⟩ := hm
  have hmpos : (0 : ℚ) < (m : ℚ) := lt_of_lt_of_le (by positivity) hm52
  have hu1 : (m : ℚ) * (1 - 1 / 2 ^ 53) ≤ (m : ℚ) - 1 / 2 := by
    have : (m : ℚ) * (1 / 2 ^ 53) ≥ 1 / 2 := by
      have h1 : (2 : ℚ) ^ 52 * (1 / 2 ^ 53) = 1 / 2 := by norm_num
      rw [← h1]
      exact mul_le_mul_of_nonneg_right hm52 (by positivity)
    linarith
  have hu2 : (m : ℚ) + 1 / 2 ≤ (m : ℚ) * (1 + 1 / 2 ^ 53) := by
    have : (m : ℚ) * (1 / 2 ^ 53) ≥ 1 / 2 := by
      have h1 : (2 : ℚ) ^ 52 * (1 / 2 ^ 53) = 1 / 2 := by norm_num
      rw [← h1]
      exact mul_le_mul_of_nonneg_right hm52 (by positivity)
    linarith
  have hu0 : (0 : ℚ) ≤ (m : ℚ) * (1 - 1 / 2 ^ 53) := by
    apply mul_nonneg hmpos.le; norm_num
  have haeq : a = x * ((2 : ℚ) ^ e * (2 : ℚ) ^ e) := by
    rw [← hxdef, ← hsq, div_mul_cancel₀ _ hp2e.ne.symm]
  refine ⟨(m : ℚ) * (2 : ℚ) ^ e, hres, mul_pos hmpos hpe, ?_, ?_⟩
  · have h1 : ((m : ℚ) * (1 - 1 / 2 ^ 53)) * ((m : ℚ) * (1 - 1 / 2 ^ 53)) ≤ x :=
      le_trans (mul_le_mul hu1 hu1 hu0 (le_trans hu0 hu1)) hm1
    have h2 := mul_le_mul_of_nonneg_right h1 (mul_pos hpe hpe).le
    rw [haeq]
    calc _ = ((m : ℚ) * (1 - 1 / 2 ^ 53)) * ((m : ℚ) * (1 - 1 / 2 ^ 53))
          * ((2 : ℚ) ^ e * (2 : ℚ) ^ e) := by ring
      _ ≤ _ := h2
  · have h0 : (0 : ℚ) ≤ (m : ℚ) + 1 / 2 := by linarith
    have h1 : x ≤ ((m : ℚ) * (1 + 1 / 2 ^ 53)) * ((m : ℚ) * (1 + 1 / 2 ^ 53)) :=
      le_trans hm2 (mul_le_mul hu2 hu2 h0 (le_trans h0 hu2))
    have h2 := mul_le_mul_of_nonneg_right h1 (mul_pos hpe hpe).le
    rw [haeq]
    calc _ ≤ _ := h2
      _ = _ := by ring

/-- Rounding a rational of the normal range, or zero: the relative error is
at most `2^-53` and the sign is kept. -/
lemma rnd_rel (q : ℚ) (h : q = 0 ∨ (1 / 2 ^ 1022 ≤ |q| ∧ |q| ≤ 2 ^ 1023)) :
    ∃ w : ℚ, rnd q = Dbl.fin w ∧ |w - q| ≤ |q| * (1 / 2 ^ 53) ∧ 0 ≤ q * w := by
  have c1 : (2 : ℚ) ^ (-1022 : Int) = 1 / 2 ^ 1022 := by
    have h : ((1022 : ℕ) : ℤ) = (1022 : ℤ) := Nat.cast_ofNat
    rw [zpow_neg, one_div, ← h, zpow_natCast]
  have c2 : (2 : ℚ) ^ (1023 : Int) = 2 ^ 1023 := by
    have h : ((1023 : ℕ) : ℤ) = (1023 : ℤ) := Nat.cast_ofNat
    rw [← h, zpow_natCast]
  rcases h with h0 | ⟨h1, h2⟩
  · subst h0
    exact ⟨0, by simp [rnd], by simp, by simp⟩
  · rcases le_or_lt 0 q with hq | hq
    · rw [abs_of_nonneg hq] at h1 h2 ⊢
      obtain ⟨v, hv, hv1, hv2⟩ := rnd_pos_rel q (by rw [c1]; exact h1) (by rw [c2]; exact h2)
      refine ⟨v, hv, ?_, ?_⟩
      · rw [abs_le]; constructor <;> linarith
      · have hu : (0 : ℚ) ≤ 1 - 1 / 2 ^ 53 := by norm_num
        exact mul_nonneg hq (le_trans (mul_nonneg hq hu) hv1)
    · rw [abs_of_neg hq] at h1 h2 ⊢
      obtain ⟨v, hv, hv1, hv2⟩ := rnd_pos_rel (-q) (by rw [c1]; exact h1) (by rw [c2]; exact h2)
      have hq2 : rnd q = Dbl.fin (-v) := by
        have := rnd_neg (-q)
        rw [neg_neg, hv] at this
        exact this
      have hnq : 0 < -q := by linarith
      have hu : (0 : ℚ) ≤ 1 - 1 / 2 ^ 53 := by norm_num
      have hv0 : 0 ≤ v := le_trans (mul_nonneg hnq.le hu) hv1
      refine ⟨-v, hq2, ?_, ?_⟩
      · rw [abs_le]; constructor <;> linarith
      · nlinarith

/-- The square of a `double` that is zero or of magnitude between `2^-500`
and `2^500`. -/
lemma Dbl.mul_self_rel (c : ℚ) (hc : c = 0 ∨ (1 / 2 ^ 500 ≤ |c| ∧ |c| ≤ 2 ^ 500)) :
    ∃ r : ℚ, Dbl.mul (Dbl.fin c) (Dbl.fin c) = Dbl.fin r ∧
      c * c * (1 - 1 / 2 ^ 53) ≤ r ∧ r ≤ c * c * (1 + 1 / 2 ^ 53) ∧
      (r = 0 ∨ (1 / 2 ^ 1001 ≤ r ∧ r ≤ 2 ^ 1001)) := by
  have hcc : c * c = |c| * |c| := (abs_mul_abs_self c).symm
  have hnn : 0 ≤ c * c := mul_self_nonneg c
  rcases hc with h0 | ⟨h1, h2⟩
  · subst h0
    refine ⟨0, by simp [Dbl.mul, rnd], by simp, by simp, Or.inl rfl⟩
  · have ha0 : (0 : ℚ) ≤ 1 / 2 ^ 500 := by positivity
    have hlo : (1 : ℚ) / 2 ^ 1000 ≤ c * c := by
      rw [hcc]
      have := mul_le_mul h1 h1 ha0 (le_trans ha0 h1)
      have e : (1 : ℚ) / 2 ^ 500 * (1 / 2 ^ 500) = 1 / 2 ^ 1000 := by norm_num
      linarith
    have hhi : c * c ≤ 2 ^ 1000 := by
      rw [hcc]
      have := mul_le_mul h2 h2 (abs_nonneg c) (by positivity : (0 : ℚ) ≤ 2 ^ 500)
      have e : (2 : ℚ) ^ 500 * 2 ^ 500 = 2 ^ 1000 := by norm_num
      linarith
    obtain ⟨w, hw, herr, _⟩ := rnd_rel (c * c) (Or.inr (by
      rw [abs_of_nonneg hnn]
      exact ⟨le_trans (by norm_num) hlo, le_trans hhi (by norm_num)⟩))
    rw [abs_of_nonneg hnn, abs_le] at herr
    have e1 : (1 : ℚ) / 2 ^ 1001 ≤ 1 / 2 ^ 1000 * (1 - 1 / 2 ^ 53) := by norm_num
    have e2 : (2 : ℚ) ^ 1000 * (1 + 1 / 2 ^ 53) ≤ 2 ^ 1001 := by norm_num
    have hu1 : (0 : ℚ) ≤ 1 - 1 / 2 ^ 53 := by norm_num
    have hu2 : (0 : ℚ) ≤ 1 + 1 / 2 ^ 53 := by norm_num
    refine ⟨w, hw, by linarith, by linarith, Or.inr ⟨?_, ?_⟩⟩
    · have := mul_le_mul_of_nonneg_right hlo hu1
      linarith
    · have := mul_le_mul_of_nonneg_right hhi hu2
      linarith

/-- The sum of two non-negative `double`s, each zero or between `m` and
`M`, where sums stay in the normal range. -/
lemma Dbl.add_rel (p q m M : ℚ) (hm : 1 / 2 ^ 1022 ≤ m) (hmM : m ≤ M)
    (hM : 2 * M ≤ 2 ^ 1023)
    (hp : p = 0 ∨ (m ≤ p ∧ p ≤ M)) (hq : q = 0 ∨ (m ≤ q ∧ q ≤ M)) :
    ∃ s : ℚ, Dbl.add (Dbl.fin p) (Dbl.fin q) = Dbl.fin s ∧
      (p + q) * (1 - 1 / 2 ^ 53) ≤ s ∧ s ≤ (p + q) * (1 + 1 / 2 ^ 53) ∧
      (s = 0 ∨ (m * (1 - 1 / 2 ^ 53) ≤ s ∧ s ≤ 2 * M * (1 + 1 / 2 ^ 53))) := by
  have hm0 : (0 : ℚ) < m := lt_of_lt_of_le (by positivity) hm
  have hp0 : 0 ≤ p := by
    rcases hp with h | h
    · rw [h]
    · linarith
  have hq0 : 0 ≤ q := by
    rcases hq with h | h
    · rw [h]
    · linarith
  have hpM : p ≤ M := by
    rcases hp with h | h
    · rw [h]; linarith
    · exact h.2
  have hqM : q ≤ M := by
    rcases hq with h | h
    · rw [h]; linarith
    · exact h.2
  have hu1 : (0 : ℚ) ≤ 1 - 1 / 2 ^ 53 := by norm_num
  have hu2 : (0 : ℚ) ≤ 1 + 1 / 2 ^ 53 := by norm_num
  have hsum0 : 0 ≤ p + q := add_nonneg hp0 hq0
  by_cases hz : p + q = 0
  · refine ⟨0, ?_, by rw [hz]; simp, by rw [hz]; simp, Or.inl rfl⟩
    show rnd (p + q) = Dbl.fin 0
    rw [hz]; simp [rnd]
  · have hsm : m ≤ p + q := by
      rcases hp with h | h
      · rcases hq with h2 | h2
        · exact absurd (by rw [h, h2]; simp) hz
        · linarith
      · linarith
    obtain ⟨w, hw, herr, _⟩ := rnd_rel (p + q) (Or.inr (by
      rw [abs_of_nonneg hsum0]
      exact ⟨le_trans hm hsm, by linarith⟩))
    rw [abs_of_nonneg hsum0, abs_le] at herr
    refine ⟨w, hw, by linarith, by linarith, Or.inr ⟨?_, ?_⟩⟩
    · have := mul_le_mul_of_nonneg_right hsm hu1
      linarith
    · have h2 : p + q ≤ 2 * M := by linarith
      have := mul_le_mul_of_nonneg_right h2 hu2
      linarith

/-- The `double` sum of squares of a vector whose components are zero or of
magnitude between `2^-500` and `2^500`, not all zero. -/
lemma Vec.sumSqD_rel (v : Vec ℚ)
    (hx : v.x = 0 ∨ (1 / 2 ^ 500 ≤ |v.x| ∧ |v.x| ≤ 2 ^ 500))
    (hy : v.y = 0 ∨ (1 / 2 ^ 500 ≤ |v.y| ∧ |v.y| ≤ 2 ^ 500))
    (hz : v.z = 0 ∨ (1 / 2 ^ 500 ≤ |v.z| ∧ |v.z| ≤ 2 ^ 500))
    (hv : 0 < v.dot v) :
    ∃ s : ℚ, v.dbl.sumSqD = Dbl.fin s ∧
      v.dot v * ((1 - 1 / 2 ^ 53) * (1 - 1 / 2 ^ 53) * (1 - 1 / 2 ^ 53)) ≤ s ∧
      s ≤ v.dot v * ((1 + 1 / 2 ^ 53) * (1 + 1 / 2 ^ 53) * (1 + 1 / 2 ^ 53)) ∧
      1 / 2 ^ 1004 ≤ s ∧ s ≤ 2 ^ 1004 := by
  obtain ⟨rx, hrx, hx1, hx2, hxr⟩ := Dbl.mul_self_rel v.x hx
  obtain ⟨ry, hry, hy1, hy2, hyr⟩ := Dbl.mul_self_rel v.y hy
  obtain ⟨rz, hrz, hz1, hz2, hzr⟩ := Dbl.mul_self_rel v.z hz
  obtain ⟨s1, hs1, ha1, ha2, har⟩ := Dbl.add_rel rx ry (1 / 2 ^ 1001) (2 ^ 1001)
    (by norm_num) (by norm_num) (by norm_num) hxr hyr
  have hu1 : (0 : ℚ) ≤ 1 - 1 / 2 ^ 53 := by norm_num
  have hu1' : (1 : ℚ) - 1 / 2 ^ 53 ≤ 1 := by norm_num
  have hu2 : (1 : ℚ) ≤ 1 + 1 / 2 ^ 53 := by norm_num
  have hzr2 : rz = 0 ∨ (1 / 2 ^ 1001 * (1 - 1 / 2 ^ 53) ≤ rz ∧
      rz ≤ 2 * 2 ^ 1001 * (1 + 1 / 2 ^ 53)) := by
    rcases hzr with h | ⟨h1, h2⟩
    · exact Or.inl h
    · refine Or.inr ⟨le_trans ?_ h1, le_trans h2 ?_⟩
      · norm_num
      · norm_num
  obtain ⟨s, hs, hb1, hb2, hbr⟩ := Dbl.add_rel s1 rz (1 / 2 ^ 1001 * (1 - 1 / 2 ^ 53))
    (2 * 2 ^ 1001 * (1 + 1 / 2 ^ 53)) (by norm_num) (by norm_num) (by norm_num) har hzr2
  have hxx : 0 ≤ v.x * v.x := mul_self_nonneg _
  have hyy : 0 ≤ v.y * v.y := mul_self_nonneg _
  have hzz : 0 ≤ v.z * v.z := mul_self_nonneg _
  have hval : v.dbl.sumSqD = Dbl.fin s := by
    show Dbl.add (Dbl.add (Dbl.mul (Dbl.fin v.x) (Dbl.fin v.x))
      (Dbl.mul (Dbl.fin v.y) (Dbl.fin v.y))) (Dbl.mul (Dbl.fin v.z) (Dbl.fin v.z)) = Dbl.fin s
    rw [hrx, hry, hrz, hs1, hs]
  have hS : v.dot v = v.x * v.x + v.y * v.y + v.z * v.z := rfl
  -- lower and upper bound in terms of the exact sum
  have hlow : v.dot v * ((1 - 1 / 2 ^ 53) * (1 - 1 / 2 ^ 53) * (1 - 1 / 2 ^ 53)) ≤ s := by
    have t1 : (v.x * v.x + v.y * v.y) * (1 - 1 / 2 ^ 53) ≤ rx + ry := by linarith
    have t2 : (v.x * v.x + v.y * v.y) * (1 - 1 / 2 ^ 53) * (1 - 1 / 2 ^ 53) ≤ s1 :=
      le_trans (mul_le_mul_of_nonneg_right t1 hu1) ha1
    have t3 : v.z * v.z * (1 - 1 / 2 ^ 53) * (1 - 1 / 2 ^ 53) ≤ rz := by
      have : v.z * v.z * (1 - 1 / 2 ^ 53) * (1 - 1 / 2 ^ 53) ≤ v.z * v.z * (1 - 1 / 2 ^ 53) := by
        have h0 : 0 ≤ v.z * v.z * (1 - 1 / 2 ^ 53) := mul_nonneg hzz hu1
        nlinarith
      linarith
    have t4 : v.dot v * ((1 - 1 / 2 ^ 53) * (1 - 1 / 2 ^ 53)) ≤ s1 + rz := by
      rw [hS]; linarith
    have t5 := mul_le_mul_of_nonneg_right t4 hu1
    calc _ = v.dot v * ((1 - 1 / 2 ^ 53) * (1 - 1 / 2 ^ 53)) * (1 - 1 / 2 ^ 53) := by ring
      _ ≤ (s1 + rz) * (1 - 1 / 2 ^ 53) := t5
      _ ≤ s := hb1
  have hupp : s ≤ v.dot v * ((1 + 1 / 2 ^ 53) * (1 + 1 / 2 ^ 53) * (1 + 1 / 2 ^ 53)) := by
    have hu20 : (0 : ℚ) ≤ 1 + 1 / 2 ^ 53 := by norm_num
    have t1 : rx + ry ≤ (v.x * v.x + v.y * v.y) * (1 + 1 / 2 ^ 53) := by linarith
    have t2 : s1 ≤ (v.x * v.x + v.y * v.y) * (1 + 1 / 2 ^ 53) * (1 + 1 / 2 ^ 53) :=
      le_trans ha2 (mul_le_mul_of_nonneg_right t1 hu20)
    have t3 : rz ≤ v.z * v.z * (1 + 1 / 2 ^ 53) * (1 + 1 / 2 ^ 53) := by
      have : v.z * v.z * (1 + 1 / 2 ^ 53) ≤ v.z * v.z * (1 + 1 / 2 ^ 53) * (1 + 1 / 2 ^ 53) := by
        have h0 : 0 ≤ v.z * v.z * (1 + 1 / 2 ^ 53) := mul_nonneg hzz hu20
        nlinarith
      linarith
    have t4 : s1 + rz ≤ v.dot v * ((1 + 1 / 2 ^ 53) * (1 + 1 / 2 ^ 53)) := by
      rw [hS]; linarith
    have t5 := mul_le_mul_of_nonneg_right t4 hu20
    calc s ≤ (s1 + rz) * (1 + 1 / 2 ^ 53) := hb2
      _ ≤ v.dot v * ((1 + 1 / 2 ^ 53) * (1 + 1 / 2 ^ 53)) * (1 + 1 / 2 ^ 53) := t5
      _ = _ := by ring
  have hspos : 0 < s := by
    have h3 : (0 : ℚ) < (1 - 1 / 2 ^ 53) * (1 - 1 / 2 ^ 53) * (1 - 1 / 2 ^ 53) := by norm_num
    exact lt_of_lt_of_le (mul_pos hv h3) hlow
  refine ⟨s, hval, hlow, hupp, ?_, ?_⟩
  · rcases hbr with h | ⟨h1, _⟩
    · exact absurd h hspos.ne.symm
    · exact le_trans (by norm_num) h1
  · rcases hbr with h | ⟨_, h2⟩
    · exact absurd h hspos.ne.symm
    · exact le_trans h2 (by norm_num)

/-- A product `c * k` of a component and the normalising factor, rounded. -/
lemma Dbl.mul_rel (c k : ℚ) (hc : c = 0 ∨ (1 / 2 ^ 500 ≤ |c| ∧ |c| ≤ 2 ^ 500))
    (hk1 : 1 / 2 ^ 504 ≤ k) (hk2 : k ≤ 2 ^ 504) :
    ∃ w : ℚ, Dbl.mul (Dbl.fin c) (Dbl.fin k) = Dbl.fin w ∧
      |w - c * k| ≤ |c| * k * (1 / 2 ^ 53) ∧ 0 ≤ c * w ∧
      c * c * (k * k) * ((1 - 1 / 2 ^ 53) * (1 - 1 / 2 ^ 53)) ≤ w * w ∧
      w * w ≤ c * c * (k * k) * ((1 + 1 / 2 ^ 53) * (1 + 1 / 2 ^ 53)) := by
  have hk0 : 0 < k := lt_of_lt_of_le (by positivity) hk1
  have habs : |c * k| = |c| * k := by rw [abs_mul, abs_of_pos hk0]
  have hrange : c * k = 0 ∨ (1 / 2 ^ 1022 ≤ |c * k| ∧ |c * k| ≤ 2 ^ 1023) := by
    rcases hc with h | ⟨h1, h2⟩
    · left; rw [h, zero_mul]
    · right
      rw [habs]
      constructor
      · have := mul_le_mul h1 hk1 (by positivity) (le_trans (by positivity) h1)
        have e : (1 : ℚ) / 2 ^ 1022 ≤ 1 / 2 ^ 500 * (1 / 2 ^ 504) := by norm_num
        linarith
      · have := mul_le_mul h2 hk2 hk0.le (by positivity)
        have e : (2 : ℚ) ^ 500 * 2 ^ 504 ≤ 2 ^ 1023 := by norm_num
        linarith
  obtain ⟨w, hw, herr, hsign⟩ := rnd_rel (c * k) hrange
  rw [habs] at herr
  have hck : 0 ≤ |c| * k := mul_nonneg (abs_nonneg c) hk0.le
  have hsq : c * c * (k * k) = (|c| * k) * (|c| * k) := by
    rw [← abs_mul_abs_self c]; ring
  have hww : w * w = |w| * |w| := (abs_mul_abs_self w).symm
  have hw1 : |c| * k * (1 - 1 / 2 ^ 53) ≤ |w| := by
    have h1 : |c * k| - |w| ≤ |w - c * k| := by
      have := abs_sub_abs_le_abs_sub (c * k) w
      rw [abs_sub_comm] at this
      exact this
    rw [habs] at h1
    linarith
  have hw2 : |w| ≤ |c| * k * (1 + 1 / 2 ^ 53) := by
    have h1 : |w| - |c * k| ≤ |w - c * k| := abs_sub_abs_le_abs_sub w (c * k)
    rw [habs] at h1
    linarith
  have hu1 : (0 : ℚ) ≤ 1 - 1 / 2 ^ 53 := by norm_num
  have hlo0 : 0 ≤ |c| * k * (1 - 1 / 2 ^ 53) := mul_nonneg hck hu1
  refine ⟨w, hw, herr, ?_, ?_, ?_⟩
  · have h2 : 0 ≤ c * k * w := hsign
    have h3 : c * k * w = (c * w) * k := by ring
    rw [h3] at h2
    exact nonneg_of_mul_nonneg_left h2 hk0
  · rw [hsq, hww]
    calc (|c| * k) * (|c| * k) * ((1 - 1 / 2 ^ 53) * (1 - 1 / 2 ^ 53))
        = (|c| * k * (1 - 1 / 2 ^ 53)) * (|c| * k * (1 - 1 / 2 ^ 53)) := by ring
      _ ≤ |w| * |w| := mul_le_mul hw1 hw1 hlo0 (abs_nonneg w)
  · rw [hsq, hww]
    calc |w| * |w| ≤ (|c| * k * (1 + 1 / 2 ^ 53)) * (|c| * k * (1 + 1 / 2 ^ 53)) :=
          mul_le_mul hw2 hw2 (abs_nonneg w) (le_trans (abs_nonneg w) hw2)
      _ = _ := by ring

/-- `Vec::norm` in `double` arithmetic on a vector whose components are zero
or of magnitude between `2^-500` and `2^500`, not all zero: the result is
finite, each component is the product of the component of `v` and a positive
factor `k` up to a relative error of `2^-53` and has its sign, and the exact
squared length of the result differs from 1 by at most `2^-49`. -/
lemma Vec.normD_rel (v : Vec ℚ)
    (hx : v.x = 0 ∨ (1 / 2 ^ 500 ≤ |v.x| ∧ |v.x| ≤ 2 ^ 500))
    (hy : v.y = 0 ∨ (1 / 2 ^ 500 ≤ |v.y| ∧ |v.y| ≤ 2 ^ 500))
    (hz : v.z = 0 ∨ (1 / 2 ^ 500 ≤ |v.z| ∧ |v.z| ≤ 2 ^ 500))
    (hv : 0 < v.dot v) :
    ∃ (n : Vec ℚ) (k : ℚ), v.dbl.normD = n.dbl ∧ 0 < k ∧
      (|n.x - v.x * k| ≤ |v.x| * k * (1 / 2 ^ 53) ∧ 0 ≤ v.x * n.x) ∧
      (|n.y - v.y * k| ≤ |v.y| * k * (1 / 2 ^ 53) ∧ 0 ≤ v.y * n.y) ∧
      (|n.z - v.z * k| ≤ |v.z| * k * (1 / 2 ^ 53) ∧ 0 ≤ v.z * n.z) ∧
      |n.dot n - 1| ≤ 1 / 2 ^ 49 := by
  obtain ⟨s, hs, hs1, hs2, hs3, hs4⟩ := Vec.sumSqD_rel v hx hy hz hv
  have hspos : 0 < s := lt_of_lt_of_le (by positivity) hs3
  obtain ⟨g, hg, hgpos, hg1, hg2⟩ := rndSqrt_rel s hspos
  have hsqrt : Dbl.sqrt (Dbl.fin s) = Dbl.fin g := by
    simp only [Dbl.sqrt, if_neg (not_lt.mpr hspos.le), if_neg hspos.ne.symm]
    exact hg
  have hu1 : (0 : ℚ) < 1 - 1 / 2 ^ 53 := by norm_num
  have hu2 : (0 : ℚ) < 1 + 1 / 2 ^ 53 := by norm_num
  -- the rounded root lies between `2^-503` and `2^503`
  have hgup : g ≤ 2 ^ 503 := by
    by_contra hcon
    have h1 : (2 : ℚ) ^ 503 < g := not_le.mp hcon
    have h2 : (2 : ℚ) ^ 502 < g * (1 - 1 / 2 ^ 53) := by
      have e : (2 : ℚ) ^ 502 < 2 ^ 503 * (1 - 1 / 2 ^ 53) := by norm_num
      have := mul_lt_mul_of_pos_right h1 hu1
      linarith
    have h3 : (2 : ℚ) ^ 502 * 2 ^ 502 < (g * (1 - 1 / 2 ^ 53)) * (g * (1 - 1 / 2 ^ 53)) :=
      mul_lt_mul'' h2 h2 (by positivity) (by positivity)
    have e : (2 : ℚ) ^ 502 * 2 ^ 502 = 2 ^ 1004 := by norm_num
    linarith
  have hglo : 1 / 2 ^ 503 ≤ g := by
    by_contra hcon
    have h1 : g < 1 / 2 ^ 503 := not_le.mp hcon
    have h2 : g * (1 + 1 / 2 ^ 53) < 1 / 2 ^ 502 := by
      have e : (1 : ℚ) / 2 ^ 503 * (1 + 1 / 2 ^ 53) < 1 / 2 ^ 502 := by norm_num
      have := mul_lt_mul_of_pos_right h1 hu2
      linarith
    have h0 : 0 ≤ g * (1 + 1 / 2 ^ 53) := mul_nonneg hgpos.le hu2.le
    have h3 : (g * (1 + 1 / 2 ^ 53)) * (g * (1 + 1 / 2 ^ 53)) < 1 / 2 ^ 502 * (1 / 2 ^ 502) :=
      mul_lt_mul'' h2 h2 h0 h0
    have e : (1 : ℚ) / 2 ^ 502 * (1 / 2 ^ 502) = 1 / 2 ^ 1004 := by norm_num
    linarith
  -- the reciprocal
  have hinv1 : 1 / 2 ^ 503 ≤ 1 / g := by
    rw [div_le_div_iff₀ (by positivity) hgpos]
    linarith
  have hinv2 : 1 / g ≤ 2 ^ 503 := by
    rw [div_le_iff₀ hgpos]
    have := mul_le_mul_of_nonneg_left hglo (by positivity : (0 : ℚ) ≤ 2 ^ 503)
    have e : (2 : ℚ) ^ 503 * (1 / 2 ^ 503) = 1 := by norm_num
    linarith
  have hinvpos : 0 < 1 / g := one_div_pos.mpr hgpos
  obtain ⟨k, hk, hkerr, _⟩ := rnd_rel (1 / g) (Or.inr (by
    rw [abs_of_pos hinvpos]
    exact ⟨le_trans (by norm_num) hinv1, le_trans hinv2 (by norm_num)⟩))
  rw [abs_of_pos hinvpos, abs_le] at hkerr
  have hk1 : 1 / g * (1 - 1 / 2 ^ 53) ≤ k := by linarith
  have hk2 : k ≤ 1 / g * (1 + 1 / 2 ^ 53) := by linarith
  have hkpos : 0 < k := lt_of_lt_of_le (mul_pos hinvpos hu1) hk1
  have hklo : 1 / 2 ^ 504 ≤ k := by
    have := mul_le_mul_of_nonneg_right hinv1 hu1.le
    have e : (1 : ℚ) / 2 ^ 504 ≤ 1 / 2 ^ 503 * (1 - 1 / 2 ^ 53) := by norm_num
    linarith
  have hkup : k ≤ 2 ^ 504 := by
    have := mul_le_mul_of_nonneg_right hinv2 hu2.le
    have e : (2 : ℚ) ^ 503 * (1 + 1 / 2 ^ 53) ≤ 2 ^ 504 := by norm_num
    linarith
  have hdiv : Dbl.div (Dbl.fin 1) (Dbl.fin g) = Dbl.fin k := by
    simp only [Dbl.div, if_neg hgpos.ne.symm]
    exact hk
  -- `k * g` lies between `1 - u` and `1 + u`
  have hkg1 : 1 - 1 / 2 ^ 53 ≤ k * g := by
    have := mul_le_mul_of_nonneg_right hk1 hgpos.le
    have e : 1 / g * (1 - 1 / 2 ^ 53) * g = 1 - 1 / 2 ^ 53 := by
      rw [mul_comm (1 / g), mul_assoc, one_div_mul_cancel hgpos.ne.symm, mul_one]
    linarith
  have hkg2 : k * g ≤ 1 + 1 / 2 ^ 53 := by
    have := mul_le_mul_of_nonneg_right hk2 hgpos.le
    have e : 1 / g * (1 + 1 / 2 ^ 53) * g = 1 + 1 / 2 ^ 53 := by
      rw [mul_comm (1 / g), mul_assoc, one_div_mul_cancel hgpos.ne.symm, mul_one]
    linarith
  obtain ⟨wx, hwx, hex, hsx, hx1, hx2⟩ := Dbl.mul_rel v.x k hx hklo hkup
  obtain ⟨wy, hwy, hey, hsy, hy1, hy2⟩ := Dbl.mul_rel v.y k hy hklo hkup
  obtain ⟨wz, hwz, hez, hsz, hz1, hz2⟩ := Dbl.mul_rel v.z k hz hklo hkup
  have hval : v.dbl.normD = (⟨wx, wy, wz⟩ : Vec ℚ).dbl := by
    show Vec.mulD v.dbl (Dbl.div (Dbl.fin 1) (Dbl.sqrt v.dbl.sumSqD)) = _
    rw [hs, hsqrt, hdiv]
    show (⟨Dbl.mul (Dbl.fin v.x) (Dbl.fin k), Dbl.mul (Dbl.fin v.y) (Dbl.fin k),
      Dbl.mul (Dbl.fin v.z) (Dbl.fin k)⟩ : Vec Dbl) = _
    rw [hwx, hwy, hwz]
    rfl
  refine ⟨⟨wx, wy, wz⟩, k, hval, hkpos, ⟨hex, hsx⟩, ⟨hey, hsy⟩, ⟨hez, hsz⟩, ?_⟩
  -- the squared length
  have hS : v.dot v = v.x * v.x + v.y * v.y + v.z * v.z := rfl
  have hN : (⟨wx, wy, wz⟩ : Vec ℚ).dot ⟨wx, wy, wz⟩ = wx * wx + wy * wy + wz * wz := rfl
  rw [hN]
  generalize hNdef : wx * wx + wy * wy + wz * wz = N
  have hN1 : v.dot v * (k * k) * ((1 - 1 / 2 ^ 53) * (1 - 1 / 2 ^ 53)) ≤ N := by
    rw [← hNdef, hS]; linarith
  have hN2 : N ≤ v.dot v * (k * k) * ((1 + 1 / 2 ^ 53) * (1 + 1 / 2 ^ 53)) := by
    rw [← hNdef, hS]; linarith
  generalize v.dot v = S at hs1 hs2 hN1 hN2 hv
  generalize hlo : (1 : ℚ) - 1 / 2 ^ 53 = lo at *
  generalize hhi : (1 : ℚ) + 1 / 2 ^ 53 = hi at *
  have hkk : 0 ≤ k * k := mul_self_nonneg k
  have hkg0 : 0 ≤ k * g := mul_nonneg hkpos.le hgpos.le
  -- lower bound: `N * hi^3 >= lo^6`
  have hA : lo * lo * lo * (lo * lo * lo) ≤ N * (hi * hi * hi) := by
    have t1 : (g * lo) * (g * lo) * (k * k) * (lo * lo) ≤ s * (k * k) * (lo * lo) :=
      mul_le_mul_of_nonneg_right (mul_le_mul_of_nonneg_right hg1 hkk)
        (mul_nonneg hu1.le hu1.le)
    have t2 : s * (k * k) * (lo * lo) ≤ S * (hi * hi * hi) * (k * k) * (lo * lo) :=
      mul_le_mul_of_nonneg_right (mul_le_mul_of_nonneg_right hs2 hkk)
        (mul_nonneg hu1.le hu1.le)
    have t3 : S * (hi * hi * hi) * (k * k) * (lo * lo) ≤ N * (hi * hi * hi) := by
      have := mul_le_mul_of_nonneg_right hN1 (mul_nonneg (mul_nonneg hu2.le hu2.le) hu2.le)
      calc _ = S * (k * k) * (lo * lo) * (hi * hi * hi) := by ring
        _ ≤ _ := this
    have t4 : lo * lo ≤ (k * g) * (k * g) := mul_le_mul hkg1 hkg1 hu1.le hkg0
    have t5 : lo * lo * (lo * lo * (lo * lo)) ≤ (k * g) * (k * g) * (lo * lo * (lo * lo)) :=
      mul_le_mul_of_nonneg_right t4 (mul_nonneg (mul_nonneg hu1.le hu1.le)
        (mul_nonneg hu1.le hu1.le))
    calc lo * lo * lo * (lo * lo * lo) = lo * lo * (lo * lo * (lo * lo)) := by ring
      _ ≤ (k * g) * (k * g) * (lo * lo * (lo * lo)) := t5
      _ = (g * lo) * (g * lo) * (k * k) * (lo * lo) := by ring
      _ ≤ _ := le_trans t1 (le_trans t2 t3)
  -- upper bound: `N * lo^3 <= hi^6`
  have hB : N * (lo * lo * lo) ≤ hi * hi * hi * (hi * hi * hi) := by
    have t1 : s * (k * k) * (hi * hi) ≤ (g * hi) * (g * hi) * (k * k) * (hi * hi) :=
      mul_le_mul_of_nonneg_right (mul_le_mul_of_nonneg_right hg2 hkk)
        (mul_nonneg hu2.le hu2.le)
    have t2 : S * (lo * lo * lo) * (k * k) * (hi * hi) ≤ s * (k * k) * (hi * hi) :=
      mul_le_mul_of_nonneg_right (mul_le_mul_of_nonneg_right hs1 hkk)
        (mul_nonneg hu2.le hu2.le)
    have t3 : N * (lo * lo * lo) ≤ S * (lo * lo * lo) * (k * k) * (hi * hi) := by
      have := mul_le_mul_of_nonneg_right hN2 (mul_nonneg (mul_nonneg hu1.le hu1.le) hu1.le)
      calc _ ≤ S * (k * k) * (hi * hi) * (lo * lo * lo) := this
        _ = _ := by ring
    have t4 : (k * g) * (k * g) ≤ hi * hi := mul_le_mul hkg2 hkg2 hkg0 hu2.le
    have t5 : (k * g) * (k * g) * (hi * hi * (hi * hi)) ≤ hi * hi * (hi * hi * (hi * hi)) :=
      mul_le_mul_of_nonneg_right t4 (mul_nonneg (mul_nonneg hu2.le hu2.le)
        (mul_nonneg hu2.le hu2.le))
    calc N * (lo * lo * lo) ≤ (g * hi) * (g * hi) * (k * k) * (hi * hi) :=
          le_trans t3 (le_trans t2 t1)
      _ = (k * g) * (k * g) * (hi * hi * (hi * hi)) := by ring
      _ ≤ hi * hi * (hi * hi * (hi * hi)) := t5
      _ = _ := by ring
  -- the numbers
  have n1 : (1 - 1 / 2 ^ 49) * (hi * hi * hi) ≤ lo * lo * lo * (lo * lo * lo) := by
    rw [← hlo, ← hhi]; norm_num
  have n2 : hi * hi * hi * (hi * hi * hi) ≤ (1 + 1 / 2 ^ 49) * (lo * lo * lo) := by
    rw [← hlo, ← hhi]; norm_num
  have hhi3 : 0 < hi * hi * hi := mul_pos (mul_pos hu2 hu2) hu2
  have hlo3 : 0 < lo * lo * lo := mul_pos (mul_pos hu1 hu1) hu1
  rw [abs_le]
  constructor
  · have : (1 - 1 / 2 ^ 49) * (hi * hi * hi) ≤ N * (hi * hi * hi) := le_trans n1 hA
    have := le_of_mul_le_mul_right this hhi3
    linarith
  · have : N * (lo * lo * lo) ≤ (1 + 1 / 2 ^ 49) * (lo * lo * lo) := le_trans hB n2
    have := le_of_mul_le_mul_right this hlo3
    linarith

lemma roundEven_intCast (k : Int) : roundEven (k : ℚ) = k := by
  unfold roundEven
  simp only [Int.floor_intCast, sub_self]
  rw [if_pos (by norm_num)]

/-- An integer below `2^53` in magnitude is a `double`. -/
lemma rnd_intCast (n : Int) (hn : |n| < 2 ^ 53) : rnd (n : ℚ) = Dbl.fin (n : ℚ) := by
  by_cases h0 : n = 0
  · subst h0; simp [rnd]
  · have hq0 : (n : ℚ) ≠ 0 := by exact_mod_cast h0
    have ha1 : (1 : ℚ) ≤ |(n : ℚ)| := by
      have : (1 : Int) ≤ |n| := Int.one_le_abs h0
      exact_mod_cast this
    have ha2 : |(n : ℚ)| < 2 ^ 53 := by exact_mod_cast hn
    have hapos : (0 : ℚ) < |(n : ℚ)| := lt_of_lt_of_le one_pos ha1
    have hlo := ilog2_le _ hapos
    have hhi := ilog2_lt _ hapos
    generalize hL : ilog2 |(n : ℚ)| = L at hlo hhi
    have hL0 : 0 ≤ L := by
      by_contra hcon
      have h1 : L + 1 ≤ 0 := by omega
      have h2 : (2 : ℚ) ^ (L + 1) ≤ (2 : ℚ) ^ (0 : Int) := zpow_le_zpow_right₀ (by norm_num) h1
      rw [zpow_zero] at h2
      linarith
    have hL52 : L ≤ 52 := by
      by_contra hcon
      have h1 : (53 : Int) ≤ L := by omega
      have h2 : (2 : ℚ) ^ (53 : Int) ≤ (2 : ℚ) ^ L := zpow_le_zpow_right₀ (by norm_num) h1
      have h3 : (2 : ℚ) ^ (53 : Int) = 2 ^ 53 := by
        have h : ((53 : ℕ) : ℤ) = (53 : ℤ) := Nat.cast_ofNat
        rw [← h, zpow_natCast]
      linarith
    have he : max (L - 52) (-1074) = L - 52 := max_eq_left (by omega)
    obtain ⟨m, hm⟩ : ∃ m : Nat, L - 52 = -(m : Int) := ⟨(52 - L).toNat, by omega⟩
    have hpow : (2 : ℚ) ^ (L - 52) = 1 / 2 ^ m := by
      rw [hm, zpow_neg, zpow_natCast, one_div]
    have hscaled : |(n : ℚ)| / (2 : ℚ) ^ (L - 52) = ((|n| * 2 ^ m : Int) : ℚ) := by
      rw [hpow]
      push_cast
      field_simp
    have hv : (roundEven (|(n : ℚ)| / (2 : ℚ) ^ (L - 52)) : ℚ) * (2 : ℚ) ^ (L - 52)
        = |(n : ℚ)| := by
      rw [hscaled, roundEven_intCast, hpow]
      push_cast
      field_simp
    have hbig : ¬ ((2 : ℚ) ^ (1024 : Int) ≤ |(n : ℚ)|) := by
      intro hcon
      have h3 : (2 : ℚ) ^ (53 : Int) ≤ (2 : ℚ) ^ (1024 : Int) :=
        zpow_le_zpow_right₀ (by norm_num) (by norm_num)
      have h4 : (2 : ℚ) ^ (53 : Int) = 2 ^ 53 := by
        have h : ((53 : ℕ) : ℤ) = (53 : ℤ) := Nat.cast_ofNat
        rw [← h, zpow_natCast]
      linarith
    unfold rnd
    simp only
    rw [if_neg hq0, hL, he, hv, if_neg hbig]
    congr 1
    split_ifs with hneg
    · rw [abs_of_neg hneg, neg_neg]
    · rw [abs_of_nonneg (not_lt.mp hneg)]

/-- The coordinate `(2.0 * x - w) / w` of a pixel in `double` arithmetic, for
`int` values: the numerator is exact, the quotient is zero or of magnitude
between `2^-32` and `2^33`. -/
lemma pixelCoordD_rel (x w : Nat) (hw0 : 0 < w) (hw : w < 2 ^ 31) (hx : x < 2 ^ 31) :
    ∃ c : ℚ, Dbl.div (Dbl.sub (Dbl.mul (Dbl.fin 2) (Dbl.fin x)) (Dbl.fin w)) (Dbl.fin w)
        = Dbl.fin c ∧ (c = 0 ∨ (1 / 2 ^ 32 ≤ |c| ∧ |c| ≤ 2 ^ 33)) := by
  have hwq : (0 : ℚ) < (w : ℚ) := by exact_mod_cast hw0
  have hwq2 : (w : ℚ) < 2 ^ 31 := by exact_mod_cast hw
  have h1 : Dbl.mul (Dbl.fin 2) (Dbl.fin (x : ℚ)) = Dbl.fin ((2 * (x : Int) : Int) : ℚ) := by
    show rnd (2 * (x : ℚ)) = _
    have e : (2 : ℚ) * (x : ℚ) = ((2 * (x : Int) : Int) : ℚ) := by push_cast; ring
    rw [e]
    apply rnd_intCast
    rw [abs_of_nonneg (by omega)]
    omega
  have h2 : Dbl.sub (Dbl.fin ((2 * (x : Int) : Int) : ℚ)) (Dbl.fin (w : ℚ))
      = Dbl.fin ((2 * (x : Int) - (w : Int) : Int) : ℚ) := by
    show rnd (((2 * (x : Int) : Int) : ℚ) + -(w : ℚ)) = _
    have e : ((2 * (x : Int) : Int) : ℚ) + -(w : ℚ) = ((2 * (x : Int) - (w : Int) : Int) : ℚ) := by
      push_cast; ring
    rw [e]
    apply rnd_intCast
    rw [abs_lt]
    constructor <;> omega
  rw [h1, h2]
  generalize hm : (2 * (x : Int) - (w : Int) : Int) = m
  have hmabs : |m| < 2 ^ 32 := by
    rw [← hm, abs_lt]
    constructor <;> omega
  have hdiv : Dbl.div (Dbl.fin (m : ℚ)) (Dbl.fin (w : ℚ)) = rnd ((m : ℚ) / (w : ℚ)) := by
    simp only [Dbl.div, if_neg hwq.ne.symm]
  rw [hdiv]
  by_cases hm0 : m = 0
  · subst hm0
    exact ⟨0, by simp [rnd], Or.inl rfl⟩
  · have hm1 : (1 : ℚ) ≤ |(m : ℚ)| := by
      have : (1 : Int) ≤ |m| := Int.one_le_abs hm0
      exact_mod_cast this
    have hm2 : |(m : ℚ)| ≤ 2 ^ 32 := by
      have : |m| ≤ 2 ^ 32 := hmabs.le
      exact_mod_cast this
    have habs : |(m : ℚ) / (w : ℚ)| = |(m : ℚ)| / (w : ℚ) := by
      rw [abs_div, abs_of_pos hwq]
    have hlo : 1 / 2 ^ 31 ≤ |(m : ℚ) / (w : ℚ)| := by
      rw [habs, div_le_div_iff₀ (by positivity) hwq]
      nlinarith
    have hhi : |(m : ℚ) / (w : ℚ)| ≤ 2 ^ 32 := by
      rw [habs, div_le_iff₀ hwq]
      have hw1 : (1 : ℚ) ≤ (w : ℚ) := by exact_mod_cast hw0
      nlinarith
    obtain ⟨c, hc, herr, _⟩ := rnd_rel ((m : ℚ) / (w : ℚ))
      (Or.inr ⟨le_trans (by norm_num) hlo, le_trans hhi (by norm_num)⟩)
    have hc1 : |(m : ℚ) / (w : ℚ)| * (1 - 1 / 2 ^ 53) ≤ |c| := by
      have h3 : |(m : ℚ) / (w : ℚ)| - |c| ≤ |c - (m : ℚ) / (w : ℚ)| := by
        have := abs_sub_abs_le_abs_sub ((m : ℚ) / (w : ℚ)) c
        rw [abs_sub_comm] at this
        exact this
      linarith
    have hc2 : |c| ≤ |(m : ℚ) / (w : ℚ)| * (1 + 1 / 2 ^ 53) := by
      have h3 : |c| - |(m : ℚ) / (w : ℚ)| ≤ |c - (m : ℚ) / (w : ℚ)| :=
        abs_sub_abs_le_abs_sub c ((m : ℚ) / (w : ℚ))
      linarith
    refine ⟨c, hc, Or.inr ⟨?_, ?_⟩⟩
    · have := mul_le_mul_of_nonneg_right hlo (by norm_num : (0 : ℚ) ≤ 1 - 1 / 2 ^ 53)
      have e : (1 : ℚ) / 2 ^ 32 ≤ 1 / 2 ^ 31 * (1 - 1 / 2 ^ 53) := by norm_num
      linarith
    · have := mul_le_mul_of_nonneg_right hhi (by norm_num : (0 : ℚ) ≤ 1 + 1 / 2 ^ 53)
      have e : (2 : ℚ) ^ 32 * (1 + 1 / 2 ^ 53) ≤ 2 ^ 33 := by norm_num
      linarith

/-- A pixel coordinate times a value of `tan` of magnitude between `2^-400`
and `2^400`, in `double` arithmetic. -/
lemma pixelCompD_rel (c t : ℚ) (hc : c = 0 ∨ (1 / 2 ^ 32 ≤ |c| ∧ |c| ≤ 2 ^ 33))
    (ht1 : 1 / 2 ^ 400 ≤ |t|) (ht2 : |t| ≤ 2 ^ 400) :
    ∃ d : ℚ, Dbl.mul (Dbl.fin c) (Dbl.fin t) = Dbl.fin d ∧
      (d = 0 ∨ (1 / 2 ^ 500 ≤ |d| ∧ |d| ≤ 2 ^ 500)) := by
  show ∃ d : ℚ, rnd (c * t) = Dbl.fin d ∧ _
  rcases hc with h0 | ⟨h1, h2⟩
  · subst h0
    exact ⟨0, by simp [rnd], Or.inl rfl⟩
  · have habs : |c * t| = |c| * |t| := abs_mul c t
    have hlo : 1 / 2 ^ 432 ≤ |c * t| := by
      rw [habs]
      have := mul_le_mul h1 ht1 (by positivity) (abs_nonneg c)
      have e : (1 : ℚ) / 2 ^ 32 * (1 / 2 ^ 400) = 1 / 2 ^ 432 := by norm_num
      linarith
    have hhi : |c * t| ≤ 2 ^ 433 := by
      rw [habs]
      have := mul_le_mul h2 ht2 (abs_nonneg t) (by positivity)
      have e : (2 : ℚ) ^ 33 * 2 ^ 400 = 2 ^ 433 := by norm_num
      linarith
    obtain ⟨d, hd, herr, _⟩ := rnd_rel (c * t)
      (Or.inr ⟨le_trans (by norm_num) hlo, le_trans hhi (by norm_num)⟩)
    have hd1 : |c * t| * (1 - 1 / 2 ^ 53) ≤ |d| := by
      have h3 : |c * t| - |d| ≤ |d - c * t| := by
        have := abs_sub_abs_le_abs_sub (c * t) d
        rw [abs_sub_comm] at this
        exact this
      linarith
    have hd2 : |d| ≤ |c * t| * (1 + 1 / 2 ^ 53) := by
      have h3 : |d| - |c * t| ≤ |d - c * t| := abs_sub_abs_le_abs_sub d (c * t)
      linarith
    refine ⟨d, hd, Or.inr ⟨?_, ?_⟩⟩
    · have := mul_le_mul_of_nonneg_right hlo (by norm_num : (0 : ℚ) ≤ 1 - 1 / 2 ^ 53)
      have e : (1 : ℚ) / 2 ^ 500 ≤ 1 / 2 ^ 432 * (1 - 1 / 2 ^ 53) := by norm_num
      linarith
    · have := mul_le_mul_of_nonneg_right hhi (by norm_num : (0 : ℚ) ≤ 1 + 1 / 2 ^ 53)
      have e : (2 : ℚ) ^ 433 * (1 + 1 / 2 ^ 53) ≤ 2 ^ 500 := by norm_num
      linarith

/-- The normalised camera direction of a pixel in `double` arithmetic, for
`int` dimensions and values of `tan` of magnitude between `2^-400` and
`2^400`: its exact squared length differs from 1 by at most `2^-49`. -/
lemma pixelDirD_norm_rel (tan : Dbl → Dbl) (pi : Dbl) (w h x y : Nat) (t1 t2 : ℚ)
    (hw0 : 0 < w) (hh0 : 0 < h) (hw : w < 2 ^ 31) (hh : h < 2 ^ 31) (hx : x < w) (hy : y < h)
    (ht1 : tan (Dbl.div pi (Dbl.fin 10)) = Dbl.fin t1)
    (ht2 : tan (Dbl.mul (Dbl.div (Dbl.fin h) (Dbl.fin w)) (Dbl.div pi (Dbl.fin 10)))
      = Dbl.fin t2)
    (hr1 : 1 / 2 ^ 400 ≤ |t1| ∧ |t1| ≤ 2 ^ 400) (hr2 : 1 / 2 ^ 400 ≤ |t2| ∧ |t2| ≤ 2 ^ 400) :
    ∃ n : Vec ℚ, Vec.normD (pixelDirD tan pi w h x y) = n.dbl ∧
      |n.dot n - 1| ≤ 1 / 2 ^ 49 ∧ n.z < 0 := by
  obtain ⟨cx, hcx, hcxr⟩ := pixelCoordD_rel x w hw0 hw (by omega)
  obtain ⟨cy, hcy, hcyr⟩ := pixelCoordD_rel y h hh0 hh (by omega)
  obtain ⟨dx, hdx, hdxr⟩ := pixelCompD_rel cx t1 hcxr hr1.1 hr1.2
  obtain ⟨dy, hdy, hdyr⟩ := pixelCompD_rel cy t2 hcyr hr2.1 hr2.2
  have hdir : pixelDirD tan pi w h x y = (⟨dx, dy, -1⟩ : Vec ℚ).dbl := by
    show (⟨Dbl.mul (Dbl.div (Dbl.sub (Dbl.mul (Dbl.fin 2) (Dbl.fin x)) (Dbl.fin w)) (Dbl.fin w))
        (tan (Dbl.div pi (Dbl.fin 10))),
      Dbl.mul (Dbl.div (Dbl.sub (Dbl.mul (Dbl.fin 2) (Dbl.fin y)) (Dbl.fin h)) (Dbl.fin h))
        (tan (Dbl.mul (Dbl.div (Dbl.fin h) (Dbl.fin w)) (Dbl.div pi (Dbl.fin 10)))),
      Dbl.fin (-1)⟩ : Vec Dbl) = _
    rw [ht1, ht2, hcx, hcy, hdx, hdy]
    rfl
  have hz : (-1 : ℚ) = 0 ∨ (1 / 2 ^ 500 ≤ |(-1 : ℚ)| ∧ |(-1 : ℚ)| ≤ 2 ^ 500) := by
    right
    rw [abs_neg, abs_one]
    constructor <;> norm_num
  have hv : 0 < (⟨dx, dy, -1⟩ : Vec ℚ).dot ⟨dx, dy, -1⟩ := by
    show 0 < dx * dx + dy * dy + (-1) * (-1)
    nlinarith [mul_self_nonneg dx, mul_self_nonneg dy]
  obtain ⟨n, k, hn, hk, _, _, ⟨hzerr, hzs⟩, hlen⟩ :=
    Vec.normD_rel ⟨dx, dy, -1⟩ hdxr hdyr hz hv
  refine ⟨n, by rw [hdir]; exact hn, hlen, ?_⟩
  -- the third component is `-k` up to rounding, hence negative
  have h1 : |n.z - (-1) * k| ≤ |(-1 : ℚ)| * k * (1 / 2 ^ 53) := hzerr
  rw [abs_neg, abs_one, abs_le] at h1
  have : n.z ≤ -k + k * (1 / 2 ^ 53) := by linarith [h1.2]
  have hk2 : k * (1 / 2 ^ 53) < k := by
    have : (1 : ℚ) / 2 ^ 53 < 1 := by norm_num
    nlinarith
  linarith

/-! ## C1: nearest admissible root -/

/-- C2 fails: the unit sphere at `(0,0,2)` and the ray from the origin along
`(1,0,1)`, a direction of squared length 2, have no common point at any
`t > 0`, yet `Sphere::intersect` returns the distance 1. The code solves the
quadratic without the factor `d.d` that its comment (main.cpp 56) names. -/
theorem Sphere.intersectD_nonunit_counterexample :
    Vec.dot (⟨1, 0, 1⟩ : Vec ℚ) ⟨1, 0, 1⟩ = 2 ∧
    (¬ ∃ t : ℝ, 0 < t ∧ (Sphere.real ⟨1, ⟨0, 0, 2⟩, ⟨0, 0, 0⟩⟩).hitAt
      (Ray.real ⟨⟨0, 0, 0⟩, ⟨1, 0, 1⟩⟩) t) ∧
    Sphere.intersectD (Sphere.dbl ⟨1, ⟨0, 0, 2⟩, ⟨0, 0, 0⟩⟩)
      (Ray.dbl ⟨⟨0, 0, 0⟩, ⟨1, 0, 1⟩⟩) = Dbl.fin 1 ∧
    Sphere.intersectD (Sphere.dbl ⟨1, ⟨0, 0, 2⟩, ⟨0, 0, 0⟩⟩)
      (Ray.dbl ⟨⟨0, 0, 0⟩, ⟨1, 0, 1⟩⟩) ≠ Dbl.fin 0 := by
  refine ⟨by decide!, ?_, by decide!, by decide!⟩
  rintro ⟨t, _, ht⟩
  rw [Sphere.hitAt_iff_quadratic] at ht
  norm_num [Sphere.bOf, Vec.dot, Vec.sub, Sphere.real, Ray.real, Vec.real] at ht
  nlinarith [sq_nonneg (t - 1)]

/-! ## C7: ray through the centre -/

/-- C16 fails in `double` arithmetic: `norm` of `(3, 0, 4)` is
`(0.6000000000000001, 0, 0.8)`, whose squared length is not 1, neither as
evaluated by `dot` (`1.0000000000000002`) nor exactly, and which is no
multiple of `(3, 0, 4)`; and `norm` of `(2^700, 0, 0)`, whose sum of squares
overflows, is `(0, 0, 0)`, of length 0. -/
theorem Vec.normD_counterexample :
    0 < (3 : ℚ) * 3 + 0 * 0 + 4 * 4 ∧
    Vec.normD (Vec.dbl ⟨3, 0, 4⟩)
      = Vec.dbl ⟨1351079888211149 / 2251799813685248, 0,
          3602879701896397 / 4503599627370496⟩ ∧
    Vec.dotD (Vec.normD (Vec.dbl ⟨3, 0, 4⟩)) (Vec.normD (Vec.dbl ⟨3, 0, 4⟩))
      = Dbl.fin (4503599627370497 / 4503599627370496) ∧
    Vec.dot (⟨1351079888211149 / 2251799813685248, 0,
        3602879701896397 / 4503599627370496⟩ : Vec ℚ)
      ⟨1351079888211149 / 2251799813685248, 0, 3602879701896397 / 4503599627370496⟩ ≠ 1 ∧
    (¬ ∃ k : ℚ, Vec.normD (Vec.dbl ⟨3, 0, 4⟩) = Vec.dbl (Vec.mul ⟨3, 0, 4⟩ k)) ∧
    isDouble (2 ^ 700) ∧ 0 < (2 : ℚ) ^ 700 * 2 ^ 700 + 0 * 0 + 0 * 0 ∧
    Vec.normD (Vec.dbl ⟨2 ^ 700, 0, 0⟩) = Vec.dbl ⟨0, 0, 0⟩ := by
  have hval : Vec.normD (Vec.dbl ⟨3, 0, 4⟩)
      = Vec.dbl ⟨1351079888211149 / 2251799813685248, 0,
          3602879701896397 / 4503599627370496⟩ := by decide!
  refine ⟨by decide!, hval, by decide!, by decide!, ?_, by decide!, by decide!, by decide!⟩
  rintro ⟨k, hk⟩
  rw [hval] at hk
  simp only [Vec.dbl, Vec.mul, Vec.mk.injEq, Dbl.fin.injEq] at hk
  obtain ⟨h1, _, h3⟩ := hk
  linarith

/-- C16 (amended): `norm(v)` is `v * (1/sqrt(v.v))` evaluated in `double`
arithmetic. For a vector `v` of `double`s with `x*x + y*y + z*z > 0` whose
components are zero or of magnitude between `2^-500` and `2^500`, the result
is finite, each component is the component of `v` times one positive factor
`k` up to a relative error of `2^-53` and has its sign, and the exact squared
length of the result differs from 1 by at most `2^-49`. Whenever the
evaluation of the sum of squares, of its square root `q`, of `1/q` and of
the three products incurs no rounding, the length is exactly 1 and the
result is a positive multiple of `v`. In every case the receiver after the
call and the returned reference hold the same value,
`*this * (1/sqrt(x*x+y*y+z*z))` in `double` arithmetic. -/
theorem Vec.normD_unit (v : Vec ℚ) (hv : 0 < v.x * v.x + v.y * v.y + v.z * v.z) :
    ((v.x = 0 ∨ (1 / 2 ^ 500 ≤ |v.x| ∧ |v.x| ≤ 2 ^ 500)) →
      (v.y = 0 ∨ (1 / 2 ^ 500 ≤ |v.y| ∧ |v.y| ≤ 2 ^ 500)) →
      (v.z = 0 ∨ (1 / 2 ^ 500 ≤ |v.z| ∧ |v.z| ≤ 2 ^ 500)) →
      ∃ (n : Vec ℚ) (k : ℚ), v.dbl.normD = n.dbl ∧ 0 < k ∧
        (|n.x - v.x * k| ≤ |v.x| * k * (1 / 2 ^ 53) ∧ 0 ≤ v.x * n.x) ∧
        (|n.y - v.y * k| ≤ |v.y| * k * (1 / 2 ^ 53) ∧ 0 ≤ v.y * n.y) ∧
        (|n.z - v.z * k| ≤ |v.z| * k * (1 / 2 ^ 53) ∧ 0 ≤ v.z * n.z) ∧
        |n.dot n - 1| ≤ 1 / 2 ^ 49) ∧
    (v.exactNormD →
      v.dbl.normD = (v.mul (1 / v.sqrtLen)).dbl ∧
      (0 < v.sqrtLen ∧ v.sqrtLen * v.sqrtLen = v.dot v) ∧
      (v.mul (1 / v.sqrtLen)).dot (v.mul (1 / v.sqrtLen)) = 1 ∧
      ∃ k : ℚ, 0 < k ∧ v.dbl.normD = (v.mul k).dbl) ∧
    (∀ a : Vec Dbl, (a.normCallD).1 = (a.normCallD).2 ∧
      (a.normCallD).1 = a.mulD (Dbl.div (Dbl.fin 1)
        (Dbl.sqrt (Dbl.add (Dbl.add (Dbl.mul a.x a.x) (Dbl.mul a.y a.y)) (Dbl.mul a.z a.z))))) := by
  refine ⟨fun hx hy hz => Vec.normD_rel v hx hy hz hv, ?_, fun a => ⟨rfl, rfl⟩⟩
  rintro ⟨h1, h2, h3, h4, h5, h6⟩
  have hval : v.dbl.normD = (v.mul (1 / v.sqrtLen)).dbl := by
    simp only [Vec.normD, h1, h2, h5, h6]
  have hpos : 0 < v.sqrtLen := by
    rcases h3.eq_or_lt with h0 | h0
    · rw [← h0, mul_zero] at h4
      simp only [Vec.dot] at h4
      rw [← h4] at hv
      exact absurd hv (lt_irrefl _)
    · exact h0
  refine ⟨hval, ⟨hpos, h4⟩, ?_, ⟨1 / v.sqrtLen, one_div_pos.mpr hpos, hval⟩⟩
  have hq : v.sqrtLen ≠ 0 := hpos.ne.symm
  simp only [Vec.dot, Vec.mul] at h4 ⊢
  field_simp
  linear_combination -h4

/-- Witness for C16 (amended): the vector `(3, 0, 4)`, whose normalisation
rounds, and the vector `(0, 0, -1)` that `main` normalises for its camera,
whose normalisation is exact. -/
theorem Vec.normD_unit_witness :
    (0 < (3 : ℚ) * 3 + 0 * 0 + 4 * 4 ∧
      ∃ (n : Vec ℚ) (k : ℚ), Vec.normD (Vec.dbl ⟨3, 0, 4⟩) = n.dbl ∧ 0 < k ∧
        (|n.x - 3 * k| ≤ |(3 : ℚ)| * k * (1 / 2 ^ 53) ∧ 0 ≤ 3 * n.x) ∧
        (|n.y - 0 * k| ≤ |(0 : ℚ)| * k * (1 / 2 ^ 53) ∧ 0 ≤ 0 * n.y) ∧
        (|n.z - 4 * k| ≤ |(4 : ℚ)| * k * (1 / 2 ^ 53) ∧ 0 ≤ 4 * n.z) ∧
        |n.dot n - 1| ≤ 1 / 2 ^ 49) ∧
    (0 < (0 : ℚ) * 0 + 0 * 0 + (-1) * (-1) ∧ Vec.exactNormD ⟨0, 0, -1⟩ ∧
      Vec.normD (Vec.dbl ⟨0, 0, -1⟩)
        = Vec.dbl (Vec.mul ⟨0, 0, -1⟩ (1 / Vec.sqrtLen ⟨0, 0, -1⟩))) :=
  ⟨⟨by norm_num,
      (Vec.normD_unit ⟨3, 0, 4⟩ (by norm_num)).1
        (Or.inr ⟨by rw [abs_of_pos (by norm_num)]; norm_num,
          by rw [abs_of_pos (by norm_num)]; norm_num⟩)
        (Or.inl rfl)
        (Or.inr ⟨by rw [abs_of_pos (by norm_num)]; norm_num,
          by rw [abs_of_pos (by norm_num)]; norm_num⟩)⟩,
    ⟨by decide!, by decide!, ((Vec.normD_unit ⟨0, 0, -1⟩ (by decide!)).2.1 (by decide!)).1⟩⟩

/-! ## C14: camera rays -/

lemma Dbl.mul_self_atLeast (a : Dbl) (ha : a ≠ Dbl.nan) : Dbl.atLeast 0 (Dbl.mul a a) := by
  cases a with
  | fin q => exact rnd_atLeast_zero _ (mul_self_nonneg q)
  | inf s => simp [Dbl.mul, Dbl.atLeast]
  | nan => exact absurd rfl ha

lemma Dbl.add_atLeast_zero (a b : Dbl) (ha : Dbl.atLeast 0 a) (hb : Dbl.atLeast 0 b) :
    Dbl.atLeast 0 (Dbl.add a b) := by
  cases a with
  | fin u =>
    cases b with
    | fin v => exact rnd_atLeast_zero _ (add_nonneg ha hb)
    | inf t => exact hb
    | nan => exact hb
  | inf s =>
    cases b with
    | fin v => exact ha
    | inf t =>
      have hs : s = false := ha
      have ht : t = false := hb
      subst hs; subst ht
      simp [Dbl.add, Dbl.atLeast]
    | nan => exact hb
  | nan => exact absurd ha (by simp [Dbl.atLeast])

lemma Dbl.add_one_atLeast (a : Dbl) (ha : Dbl.atLeast 0 a) :
    Dbl.atLeast 1 (Dbl.add a (Dbl.fin 1)) := by
  cases a with
  | fin u =>
    have h0 : (0 : ℚ) ≤ u := ha
    exact rnd_atLeast_one _ (by linarith)
  | inf s => exact ha
  | nan => exact absurd ha (by simp [Dbl.atLeast])

lemma Dbl.mul_fin_ne_nan (a : Dbl) (t : ℚ) (ha : a ≠ Dbl.nan) (ht : t ≠ 0) :
    Dbl.mul a (Dbl.fin t) ≠ Dbl.nan := by
  cases a with
  | fin q => exact rnd_ne_nan _
  | inf s => simp [Dbl.mul, ht]
  | nan => exact absurd rfl ha

lemma Dbl.div_fin_ne_nan (a : Dbl) (w : ℚ) (ha : a ≠ Dbl.nan) (hw : w ≠ 0) :
    Dbl.div a (Dbl.fin w) ≠ Dbl.nan := by
  cases a with
  | fin q =>
    simp only [Dbl.div, if_neg hw]
    exact rnd_ne_nan _
  | inf s => simp [Dbl.div]
  | nan => exact absurd rfl ha

lemma Dbl.sub_fin_ne_nan (a : Dbl) (w : ℚ) (ha : a ≠ Dbl.nan) :
    Dbl.sub a (Dbl.fin w) ≠ Dbl.nan := by
  cases a with
  | fin q => exact rnd_ne_nan _
  | inf s => simp [Dbl.sub, Dbl.neg, Dbl.add]
  | nan => exact absurd rfl ha

/-- A vector of `double`s whose first two components are not NaN and whose
third component is `-1` has a sum of squares of at least 1. -/
lemma Vec.sumSqD_atLeast_one (a : Vec Dbl) (hx : a.x ≠ Dbl.nan) (hy : a.y ≠ Dbl.nan)
    (hz : a.z = Dbl.fin (-1)) : Dbl.atLeast 1 a.sumSqD := by
  have hzz : Dbl.mul a.z a.z = Dbl.fin 1 := by
    rw [hz]; decide!
  unfold Vec.sumSqD
  rw [hzz]
  exact Dbl.add_one_atLeast _
    (Dbl.add_atLeast_zero _ _ (Dbl.mul_self_atLeast _ hx) (Dbl.mul_self_atLeast _ hy))

lemma Dbl.atLeast_one_pos (a : Dbl) (ha : Dbl.atLeast 1 a) :
    a ≠ Dbl.fin 0 ∧ Dbl.lt (Dbl.fin 0) a = true := by
  cases a with
  | fin u =>
    have h1 : (1 : ℚ) ≤ u := ha
    refine ⟨?_, ?_⟩
    · intro h0
      have : u = 0 := Dbl.fin.inj h0
      linarith
    · simp only [Dbl.lt, decide_eq_true_eq]; linarith
  | inf s =>
    have hs : s = false := ha
    subst hs
    exact ⟨Dbl.noConfusion, rfl⟩
  | nan => exact absurd ha (by simp [Dbl.atLeast])

/-- For a vector of non-zero length, `norm` with the real square root gives
a vector of length 1. -/
lemma Vec.norm_dot_self (v : Vec ℝ) (hv : 0 < v.x * v.x + v.y * v.y + v.z * v.z) :
    (v.norm Real.sqrt).dot (v.norm Real.sqrt) = 1 := by
  have hq : 0 < Real.sqrt (v.x * v.x + v.y * v.y + v.z * v.z) := Real.sqrt_pos.mpr hv
  have hqq : Real.sqrt (v.x * v.x + v.y * v.y + v.z * v.z)
      * Real.sqrt (v.x * v.x + v.y * v.y + v.z * v.z)
      = v.x * v.x + v.y * v.y + v.z * v.z := Real.mul_self_sqrt hv.le
  simp only [Vec.norm, Vec.mul, Vec.dot]
  field_simp

/-- The direction built for a pixel has third component `-1`, hence squared
length at least 1. -/
lemma pixelDir_dot_self (tan : ℝ → ℝ) (pi : ℝ) (w h x y : Nat) :
    1 ≤ (pixelDir tan pi w h x y).x * (pixelDir tan pi w h x y).x
      + (pixelDir tan pi w h x y).y * (pixelDir tan pi w h x y).y
      + (pixelDir tan pi w h x y).z * (pixelDir tan pi w h x y).z := by
  simp only [pixelDir]
  nlinarith [mul_self_nonneg ((2 * (x : ℝ) - (w : ℝ)) / (w : ℝ) * tan (pi / 10)),
    mul_self_nonneg ((2 * (y : ℝ) - (h : ℝ)) / (h : ℝ) * tan ((h : ℝ) / (w : ℝ) * (pi / 10)))]

/-- C14 fails in `double` arithmetic: at pixel `(0, 0)` of the `256 x 192`
image of `main`, with `M_PI` (the `double` within half a unit in the last
place of pi) and the values of `tan` at `fovx` and at `hw * fovx`, the
normalised direction passed to `radiance` is about
`(-0.30126, -0.22260, -0.92719)` and its squared length is
`1 - 419895781889453795 / 2^110`, about `0.99999999999999967`, not 1. -/
theorem pixelDirD_norm_counterexample :
    isDouble (884279719003555 / 281474976710656) ∧
    |Real.pi - ((884279719003555 / 281474976710656 : ℚ) : ℝ)| < 1 / 2 ^ 52 ∧
    Dbl.div piD (Dbl.fin 10) = Dbl.fin (5659390201622752 / 18014398509481984) ∧
    Dbl.mul (Dbl.div (Dbl.fin 192) (Dbl.fin 256)) (Dbl.div piD (Dbl.fin 10))
      = Dbl.fin (8489085302434128 / 36028797018963968) ∧
    isDouble (5853232891519406 / 18014398509481984) ∧
    isDouble (8649748879462253 / 36028797018963968) ∧
    pixelDirD tanRef piD 256 192 0 0
      = Vec.dbl ⟨-(5853232891519406 / 18014398509481984),
          -(8649748879462253 / 36028797018963968), -1⟩ ∧
    Vec.normD (pixelDirD tanRef piD 256 192 0 0)
      = Vec.dbl ⟨-(5427085019314185 / 18014398509481984),
          -(8019999107258077 / 36028797018963968), -(8351425109396855 / 9007199254740992)⟩ ∧
    Vec.dot (⟨-(5427085019314185 / 18014398509481984),
          -(8019999107258077 / 36028797018963968), -(8351425109396855 / 9007199254740992)⟩ : Vec ℚ)
        ⟨-(5427085019314185 / 18014398509481984),
          -(8019999107258077 / 36028797018963968), -(8351425109396855 / 9007199254740992)⟩
      = 1 - 419895781889453795 / 2 ^ 110 ∧
    Vec.dot (⟨-(5427085019314185 / 18014398509481984),
          -(8019999107258077 / 36028797018963968), -(8351425109396855 / 9007199254740992)⟩ : Vec ℚ)
        ⟨-(5427085019314185 / 18014398509481984),
          -(8019999107258077 / 36028797018963968), -(8351425109396855 / 9007199254740992)⟩
      ≠ 1 := by
  refine ⟨by decide!, ?_, by decide!, by decide!, by decide!, by decide!, by decide!, by decide!,
    by decide!, by decide!⟩
  have h1 := Real.pi_gt_d20
  have h2 := Real.pi_lt_d20
  rw [abs_lt]
  constructor
  · push_cast; norm_num at h1 h2 ⊢; linarith
  · push_cast; norm_num at h1 h2 ⊢; linarith

/-- C14 (amended): for all `w`, `h > 0`, every pixel `(x, y)`, and every
`tan` that returns finite non-zero values at `fovx = pi/10` and at
`(h/w) * fovx`, the un-normalised direction
`(x1*tan(fovx), y1*tan((h/w)*fovx), -1)` evaluated in `double` arithmetic
has third component `-1` and a sum of squares `x*x+y*y+z*z`, as `norm()`
evaluates it, that is not NaN and at least 1, hence not zero and positive:
`norm()` is applied within its precondition. For `int` dimensions
(`w, h < 2^31`), a pixel in range and values of `tan` of magnitude between
`2^-400` and `2^400`, the direction passed to `radiance` is finite, its exact
squared length differs from 1 by at most `2^-49`, and its third component
is negative. In exact real arithmetic the direction has squared length at
least 1 and the direction passed to `radiance` has length exactly 1. -/
theorem pixelDirD_nondegenerate (tan : Dbl → Dbl) (pi : Dbl) (w h x y : Nat) (t1 t2 : ℚ)
    (hw : 0 < w) (hh : 0 < h)
    (ht1 : tan (Dbl.div pi (Dbl.fin 10)) = Dbl.fin t1) (hn1 : t1 ≠ 0)
    (ht2 : tan (Dbl.mul (Dbl.div (Dbl.fin h) (Dbl.fin w)) (Dbl.div pi (Dbl.fin 10)))
      = Dbl.fin t2) (hn2 : t2 ≠ 0) :
    (pixelDirD tan pi w h x y).z = Dbl.fin (-1) ∧
    Dbl.atLeast 1 (pixelDirD tan pi w h x y).sumSqD ∧
    (pixelDirD tan pi w h x y).sumSqD ≠ Dbl.fin 0 ∧
    Dbl.lt (Dbl.fin 0) (pixelDirD tan pi w h x y).sumSqD = true ∧
    (w < 2 ^ 31 → h < 2 ^ 31 → x < w → y < h →
      (1 / 2 ^ 400 ≤ |t1| ∧ |t1| ≤ 2 ^ 400) → (1 / 2 ^ 400 ≤ |t2| ∧ |t2| ≤ 2 ^ 400) →
      ∃ n : Vec ℚ, Vec.normD (pixelDirD tan pi w h x y) = n.dbl ∧
        |n.dot n - 1| ≤ 1 / 2 ^ 49 ∧ n.z < 0) ∧
    (pixelDir Real.tan Real.pi w h x y).z = -1 ∧
    1 ≤ (pixelDir Real.tan Real.pi w h x y).dot (pixelDir Real.tan Real.pi w h x y) ∧
    ((pixelDir Real.tan Real.pi w h x y).norm Real.sqrt).dot
      ((pixelDir Real.tan Real.pi w h x y).norm Real.sqrt) = 1 := by
  have hwq : ((w : ℚ)) ≠ 0 := by exact_mod_cast hw.ne.symm
  have hhq : ((h : ℚ)) ≠ 0 := by exact_mod_cast hh.ne.symm
  have hx : (pixelDirD tan pi w h x y).x ≠ Dbl.nan := by
    show Dbl.mul (Dbl.div (Dbl.sub (Dbl.mul (Dbl.fin 2) (Dbl.fin x)) (Dbl.fin w)) (Dbl.fin w))
      (tan (Dbl.div pi (Dbl.fin 10))) ≠ Dbl.nan
    rw [ht1]
    exact Dbl.mul_fin_ne_nan _ _
      (Dbl.div_fin_ne_nan _ _ (Dbl.sub_fin_ne_nan _ _ (rnd_ne_nan _)) hwq) hn1
  have hy : (pixelDirD tan pi w h x y).y ≠ Dbl.nan := by
    show Dbl.mul (Dbl.div (Dbl.sub (Dbl.mul (Dbl.fin 2) (Dbl.fin y)) (Dbl.fin h)) (Dbl.fin h))
      (tan (Dbl.mul (Dbl.div (Dbl.fin h) (Dbl.fin w)) (Dbl.div pi (Dbl.fin 10)))) ≠ Dbl.nan
    rw [ht2]
    exact Dbl.mul_fin_ne_nan _ _
      (Dbl.div_fin_ne_nan _ _ (Dbl.sub_fin_ne_nan _ _ (rnd_ne_nan _)) hhq) hn2
  have hsum := Vec.sumSqD_atLeast_one (pixelDirD tan pi w h x y) hx hy rfl
  have h1 := pixelDir_dot_self Real.tan Real.pi w h x y
  have h2 := Vec.norm_dot_self (pixelDir Real.tan Real.pi w h x y) (by linarith)
  exact ⟨rfl, hsum, (Dbl.atLeast_one_pos _ hsum).1, (Dbl.atLeast_one_pos _ hsum).2,
    fun hw2 hh2 hxw hyh hr1 hr2 =>
      pixelDirD_norm_rel tan pi w h x y t1 t2 hw hh hw2 hh2 hxw hyh ht1 ht2 hr1 hr2,
    rfl, h1, h2⟩

/-- Witness for C14 (amended): pixel `(0, 0)` of the `256 x 192` image of
`main`. -/
theorem pixelDirD_nondegenerate_witness :
    ((0 < 256 ∧ 0 < 192) ∧
      (tanRef (Dbl.div piD (Dbl.fin 10)) = Dbl.fin (5853232891519406 / 18014398509481984) ∧
        (5853232891519406 / 18014398509481984 : ℚ) ≠ 0) ∧
      (tanRef (Dbl.mul (Dbl.div (Dbl.fin (192 : Nat)) (Dbl.fin (256 : Nat)))
          (Dbl.div piD (Dbl.fin 10))) = Dbl.fin (8649748879462253 / 36028797018963968) ∧
        (8649748879462253 / 36028797018963968 : ℚ) ≠ 0)) ∧
    Dbl.atLeast 1 (pixelDirD tanRef piD 256 192 0 0).sumSqD ∧
    ∃ n : Vec ℚ, Vec.normD (pixelDirD tanRef piD 256 192 0 0) = n.dbl ∧
      |n.dot n - 1| ≤ 1 / 2 ^ 49 ∧ n.z < 0 := by
  have hthm := pixelDirD_nondegenerate tanRef piD 256 192 0 0
    (5853232891519406 / 18014398509481984) (8649748879462253 / 36028797018963968)
    (by decide) (by decide) (by decide!) (by decide!) (by decide!) (by decide!)
  refine ⟨⟨⟨by decide, by decide⟩, ⟨by decide!, by decide!⟩, ⟨by decide!, by decide!⟩⟩,
    hthm.2.1, hthm.2.2.2.2.1 (by norm_num) (by norm_num) (by norm_num) (by norm_num) ?_ ?_⟩
  · rw [abs_of_pos (by norm_num)]
    constructor <;> norm_num
  · rw [abs_of_pos (by norm_num)]
    constructor <;> norm_num
